import Mathlib

/-!
WinMount: a verification development.

A shallow embedding of the WinMount utility (`WinMount.cpp`, `CmdArguments.cpp`,
`StringUtils.cpp`) and theorems about it.

* `std::string` is a list of characters, `std::string::npos` is `none`.
* `DWORD` result codes and flag words are natural numbers.
* The operating system is an oracle: the n-th call of a `WNet*` function is
  answered by `Env.wnet n`, the n-th poll of the keyboard by `Env.key n`.
  Every call is appended to a log, so that statements about the calls that
  `MapDrives` makes are statements about the log.
* Loops whose number of iterations the source does not bound take a fuel
  argument; a result `none` means that the fuel ran out.
-/

namespace WinMount

/-! ## Strings (`std::string`) -/

/-- A `std::string`, as the list of its characters. -/
abbrev Str := List Char

/-- The backslash character. -/
abbrev chBackslash : Char := Char.ofNat 92

/-- The double quote character. -/
abbrev chQuote : Char := Char.ofNat 34

/-- The single quote character. -/
abbrev chApostrophe : Char := Char.ofNat 39

/-- The call `str.find_first_of(c)` for a single character: the index of the
first occurrence of `c`, `none` for `npos`. -/
def find_first_of : Str → Char → Option Nat
  | [], _ => none
  | x :: xs, c => if x = c then some 0 else (find_first_of xs c).map (· + 1)

/-- The call `str.find(strDelim)`: the index of the first occurrence of the
substring `strDelim`, `none` for `npos`. -/
def find : Str → Str → Option Nat
  | [], strDelim => if strDelim.isPrefixOf [] then some 0 else none
  | x :: xs, strDelim =>
    if strDelim.isPrefixOf (x :: xs) then some 0 else (find xs strDelim).map (· + 1)

/-- The call `str.find_first_not_of(chars)`: the index of the first character
that is not one of `chars`, `none` for `npos`. -/
def find_first_not_of : Str → Str → Option Nat
  | [], _ => none
  | x :: xs, chars =>
    if x ∈ chars then (find_first_not_of xs chars).map (· + 1) else some 0

/-- The call `str.find_last_not_of(chars)`: the index of the last character
that is not one of `chars`, `none` for `npos`. -/
def find_last_not_of : Str → Str → Option Nat
  | [], _ => none
  | x :: xs, chars =>
    match find_last_not_of xs chars with
    | some k => some (k + 1)
    | none => if x ∈ chars then none else some 0

/-! ## `StringUtils` -/

namespace StringUtils

/-- `StringUtils::Split` (StringUtils.cpp 43-54). The two output parameters
`strLeft` and `strRight` are passed in and returned; they are left as they are
when the delimiter is not found. The right part starts one character after the
position found, whatever the length of the delimiter. -/
def Split (str strDelim strLeft strRight : Str) : Bool × Str × Str :=
  match find str strDelim with
  | none => (false, strLeft, strRight)
  | some iFindDel => (true, str.take iFindDel, str.drop (iFindDel + 1))

/-- `StringUtils::TrimLeft` (StringUtils.cpp 242-255). -/
def TrimLeft (str chars : Str) : Str :=
  if str.length = 0 then str
  else
    match find_first_not_of str chars with
    | some pos => if pos > 0 then str.drop pos else str
    | none => str

/-- `StringUtils::TrimRight` (StringUtils.cpp 261-274). -/
def TrimRight (str chars : Str) : Str :=
  if str.length = 0 then str
  else
    match find_last_not_of str chars with
    | some pos => if pos < str.length then str.take (pos + 1) else str
    | none => str

/-- `StringUtils::Trim` (StringUtils.cpp 280-283). -/
def Trim (str chars : Str) : Str :=
  TrimRight (TrimLeft str chars) chars

end StringUtils

/-! ## `CCmdArguments` (CmdArguments.cpp) -/

/-- The class `CCmdArguments` (CmdArguments.h 8-33). -/
structure CCmdArguments where
  m_vecStrArgs : List Str
  m_index : Nat
  m_count : Nat
  m_strArgument : Str
  m_strOptionName : Str
  m_strOptionValue : Str
deriving DecidableEq

namespace CCmdArguments

/-- The constructor (CmdArguments.cpp 4-7). -/
def new (vecStrArgs : List Str) : CCmdArguments :=
  { m_vecStrArgs := vecStrArgs, m_index := 0, m_count := vecStrArgs.length,
    m_strArgument := [], m_strOptionName := [], m_strOptionValue := [] }

/-- `CCmdArguments::ArgumentIsOption` (CmdArguments.cpp 10-18). -/
def ArgumentIsOption (a : CCmdArguments) : Bool :=
  match a.m_strArgument with
  | [] => false
  | c :: _ => c = '-' || c = '+' || c = '/'

/-- `CCmdArguments::ProcessArgument` (CmdArguments.cpp 22-54): the returned
boolean and the object after the call. -/
def ProcessArgument (a : CCmdArguments) : Bool × CCmdArguments :=
  if a.m_index < a.m_count then
    let a1 : CCmdArguments :=
      { a with m_strArgument := a.m_vecStrArgs.getD a.m_index [], m_index := a.m_index + 1 }
    if a1.ArgumentIsOption then
      match find_first_of a1.m_strArgument '=' with
      | some sep =>
        if sep > 0 then
          (true, { a1 with m_strOptionName := a1.m_strArgument.take sep,
                           m_strOptionValue := a1.m_strArgument.drop (sep + 1) })
        else
          (true, { a1 with m_strOptionName := a1.m_strArgument, m_strOptionValue := [] })
      | none =>
        (true, { a1 with m_strOptionName := a1.m_strArgument, m_strOptionValue := [] })
    else
      (true, { a1 with m_strOptionName := [], m_strOptionValue := [] })
  else
    (false, a)

/-- `CCmdArguments::GetArgument` (CmdArguments.cpp 57-60). -/
def GetArgument (a : CCmdArguments) : Str := a.m_strArgument

/-- `CCmdArguments::OptionHasValue` (CmdArguments.cpp 69-77). -/
def OptionHasValue (a : CCmdArguments) : Bool :=
  if a.m_strOptionValue.length ≠ 0 then true else false

/-- `CCmdArguments::TestOption` (CmdArguments.cpp 112-125). -/
def TestOption (a : CCmdArguments) (strLong strShort : Str) : Bool :=
  if strLong.length ≠ 0 ∧
      (a.m_strOptionName = ['+'] ++ strLong ∨ a.m_strOptionName = ['-', '-'] ++ strLong) then
    true
  else if strShort.length ≠ 0 ∧
      (a.m_strOptionName = ['-'] ++ strShort ∨ a.m_strOptionName = ['/'] ++ strShort) then
    true
  else
    false

end CCmdArguments

/-! ## Constants of the Windows headers and of WinMount.cpp -/

/-- A `DWORD`: result codes and flag words. -/
abbrev DWORD := Nat

/-- Modelled from the spec: the flag bit `CONNECT_UPDATE_PROFILE` that `-p`
sets; it is declared in the Windows header winnetwk.h, which is not part of the
sources, with this value. -/
abbrev CONNECT_UPDATE_PROFILE : DWORD := 0x1

/-- Modelled from the spec: the flag bit `CONNECT_INTERACTIVE` that `-i` sets;
it is declared in the Windows header winnetwk.h, which is not part of the
sources, with this value. -/
abbrev CONNECT_INTERACTIVE : DWORD := 0x8

/-- Modelled from the spec: the flag bit `CONNECT_PROMPT` of the interactive
attempt; it is declared in the Windows header winnetwk.h, which is not part of
the sources, with this value. -/
abbrev CONNECT_PROMPT : DWORD := 0x10

/-- Modelled from the spec: `MAX_PATH = 260`, declared in the Windows headers. -/
abbrev MAX_PATH : Nat := 260

/-- Modelled from the spec: the result code `NO_ERROR` (`ERROR_SUCCESS`) of a
call that succeeded, declared in the Windows header winerror.h as 0. -/
abbrev NO_ERROR : DWORD := 0
/-- The result code of "Incorrect network resource (66)" (WinMount.cpp 97). -/
abbrev ERROR_BAD_DEV_TYPE : DWORD := 66
/-- The result code of "Drive already assigned (85)" (WinMount.cpp 99). -/
abbrev ERROR_ALREADY_ASSIGNED : DWORD := 85
/-- The result code of "Local device already in use (1202)" (WinMount.cpp 102). -/
abbrev ERROR_DEVICE_ALREADY_REMEMBERED : DWORD := 1202
/-- The result code of "Network path not found or not available (1203)" (WinMount.cpp 103). -/
abbrev ERROR_NO_NET_OR_BAD_PATH : DWORD := 1203
/-- The result code of "Credential conflict (1219)" (WinMount.cpp 104). -/
abbrev ERROR_SESSION_CREDENTIAL_CONFLICT : DWORD := 1219
/-- The result code of "User cancelled (1223)" (WinMount.cpp 106). -/
abbrev ERROR_CANCELLED : DWORD := 1223
/-- The result code of "Network unreachable (1231)" (WinMount.cpp 107). -/
abbrev ERROR_NETWORK_UNREACHABLE : DWORD := 1231
/-- The result code of "Bad user name or password (1326)" (WinMount.cpp 109). -/
abbrev ERROR_LOGON_FAILURE : DWORD := 1326
/-- The result code of "Network connection does not exist (2250)" (WinMount.cpp 111). -/
abbrev ERROR_NOT_CONNECTED : DWORD := 2250

/-- The number of retries when `--retry` is not used (WinMount.cpp 27-28). -/
abbrev RETRY_COUNT : Nat := 10

/-! ## `CNetShare` and `CWinMount` (WinMount.h) -/

/-- The class `CNetShare` (WinMount.h 10-25). -/
structure CNetShare where
  m_strLocalName : Str
  m_strRemoteName : Str
  m_bMapped : Bool := false
deriving DecidableEq

namespace CNetShare

/-- The constructor (WinMount.h 13): the share starts unmapped. -/
def new (strLocal strRemote : Str) : CNetShare :=
  { m_strLocalName := strLocal, m_strRemoteName := strRemote, m_bMapped := false }

/-- `CNetShare::IsMapped` (WinMount.h 16). -/
def IsMapped (s : CNetShare) : Bool := s.m_bMapped

/-- `CNetShare::SetMapped` with its default argument `true` (WinMount.h 17). -/
def SetMapped (s : CNetShare) : CNetShare := { s with m_bMapped := true }

/-- `CNetShare::GetLocalName` (WinMount.h 18). -/
def GetLocalName (s : CNetShare) : Str := s.m_strLocalName

/-- `CNetShare::GetRemoteName` (WinMount.h 19). -/
def GetRemoteName (s : CNetShare) : Str := s.m_strRemoteName

end CNetShare

/-- The data members of the class `CWinMount` (WinMount.h 38-45), with their
default member initialisers. The stream `m_fStream` is the argument of
`ProcessIniFile`. -/
structure CWinMount where
  m_bUnmount : Bool := false
  m_bRetryForever : Bool := false
  m_dwConnectFlags : DWORD := 0
  m_strIniFile : Str := []
  m_vecNetShares : List CNetShare := []
deriving DecidableEq

/-! ## `CWinMount::ProcessCommandLine` (WinMount.cpp 120-198) -/

/-- The option names of WinMount.cpp 130-169. -/
abbrev optHelp : Str := ['h', 'e', 'l', 'p']
/-- The long name of `-p`. -/
abbrev optPersist : Str := ['p', 'e', 'r', 's', 'i', 's', 't']
/-- The long name of `-i`. -/
abbrev optInteractive : Str := ['i', 'n', 't', 'e', 'r', 'a', 'c', 't', 'i', 'v', 'e']
/-- The long name of `-u`. -/
abbrev optUnmount : Str := ['u', 'n', 'm', 'o', 'u', 'n', 't']
/-- The long name of `-r`. -/
abbrev optRetry : Str := ['r', 'e', 't', 'r', 'y']

/-- The body of the loop `while (arguments.ProcessArgument())` of
`ProcessCommandLine` (WinMount.cpp 126-193), run on the object `arguments` as
`ProcessArgument` left it: `none` for `return false`, else the object with
which the loop goes on. What is written to `std::cerr` is not modelled. -/
def processBody (arguments : CCmdArguments) (m : CWinMount) : Option CWinMount :=
  let strArgument := arguments.GetArgument
  if arguments.ArgumentIsOption then
    if arguments.TestOption optHelp ['h'] then
      none
    else if arguments.TestOption optPersist ['p'] then
      if arguments.OptionHasValue then none
      else some { m with m_dwConnectFlags := m.m_dwConnectFlags ||| CONNECT_UPDATE_PROFILE }
    else if arguments.TestOption optInteractive ['i'] then
      if arguments.OptionHasValue then none
      else some { m with m_dwConnectFlags := m.m_dwConnectFlags ||| CONNECT_INTERACTIVE }
    else if arguments.TestOption optUnmount ['u'] then
      if arguments.OptionHasValue then none
      else some { m with m_bUnmount := true }
    else if arguments.TestOption optRetry ['r'] then
      if arguments.OptionHasValue then none
      else some { m with m_bRetryForever := true }
    else
      none
  else if m.m_strIniFile.length = 0 then
    some { m with m_strIniFile := StringUtils.Trim strArgument [chQuote, chApostrophe] }
  else
    none

/-- The loop `while (arguments.ProcessArgument())` of `ProcessCommandLine`
(WinMount.cpp 124-197): the returned boolean and the object after the call, or
`none` when the fuel ran out. One unit of fuel is used per argument read. -/
def ProcessCommandLineLoop : Nat → CCmdArguments → CWinMount → Option (Bool × CWinMount)
  | 0, _, _ => none
  | fuel + 1, arguments, m =>
    if (arguments.ProcessArgument).1 then
      match processBody (arguments.ProcessArgument).2 m with
      | none => some (false, m)
      | some m1 => ProcessCommandLineLoop fuel (arguments.ProcessArgument).2 m1
    else
      some (true, m)

/-- `CWinMount::ProcessCommandLine` (WinMount.cpp 120-198). The loop reads one
argument per iteration, so one unit of fuel more than the number of arguments
is enough (`ProcessCommandLine_isSome`). -/
def ProcessCommandLine (m : CWinMount) (vecArgs : List Str) : Option (Bool × CWinMount) :=
  ProcessCommandLineLoop (vecArgs.length + 1) (CCmdArguments.new vecArgs) m

/-! ## `CWinMount::ProcessIniFile` (WinMount.cpp 201-248) -/

/-- The default configuration file `\mount.ini` (WinMount.cpp 205). -/
abbrev defaultIniFile : Str := [chBackslash, 'm', 'o', 'u', 'n', 't', '.', 'i', 'n', 'i']

/-- The test of WinMount.cpp 235 that rejects a line, given what `Split`
returned. The operands are evaluated left to right, so `strLocal[1]` is read
only when `strLocal` has two characters. -/
def lineInvalid (split : Bool × Str × Str) : Bool :=
  !split.1 || split.2.1.length ≠ 2 || split.2.1.get? 1 ≠ some ':' || split.2.2.length < 3
    || split.2.2.take 2 ≠ [chBackslash, chBackslash] || split.2.2.length > MAX_PATH

/-- The loop `while (!m_fStream.eof())` of `ProcessIniFile` (WinMount.cpp
216-247) over what the successive calls of `std::getline` yield until the end
of the file: `some strLine` for a line read, `none` for a read after which
`m_fStream.bad()` holds. -/
def ProcessIniFileLoop : List (Option Str) → CWinMount → Bool × CWinMount
  | [], m => (true, m)
  | none :: _, m => (false, m)
  | some strLine :: rest, m =>
    if strLine.length ≠ 0 ∧ strLine.head? ≠ some ';' ∧ strLine.length ≠ 0 then
      if lineInvalid (StringUtils.Split strLine [' '] [] []) then
        (false, m)
      else
        ProcessIniFileLoop rest
          { m with m_vecNetShares := m.m_vecNetShares ++
              [CNetShare.new (StringUtils.Split strLine [' '] [] []).2.1
                (StringUtils.Split strLine [' '] [] []).2.2] }
    else
      ProcessIniFileLoop rest m

/-- `CWinMount::ProcessIniFile` (WinMount.cpp 201-248). The argument `file` is
what opening `m_strIniFile` gives: `none` when the file cannot be opened, else
the reads of `ProcessIniFileLoop`. -/
def ProcessIniFile (file : Option (List (Option Str))) (m : CWinMount) : Bool × CWinMount :=
  let m1 : CWinMount :=
    if m.m_strIniFile.length = 0 then { m with m_strIniFile := defaultIniFile } else m
  match file with
  | none => (false, m1)
  | some reads => ProcessIniFileLoop reads m1

/-! ## The operating system -/

/-- The three places where `MapDrives` calls the network subsystem:
`WNetCancelConnection2` (WinMount.cpp 300), the silent `WNetAddConnection2`
(321) and the interactive `WNetAddConnection2` (362). -/
inductive Site
  | unmount
  | silent
  | interactive
deriving DecidableEq

/-- A call of the network subsystem with its arguments. -/
inductive Call
  | WNetCancelConnection2 (lpName : Str)
  | WNetAddConnection2 (lpLocalName lpRemoteName : Str) (dwFlags : DWORD)
deriving DecidableEq

/-- One logged call: the pass (`iRetryCount`) and the index of the share in
`m_vecNetShares` for which it was made, the place of the call, the call and the
result code the system returned. -/
structure Event where
  iRetryCount : Nat
  share : Nat
  site : Site
  call : Call
  result : DWORD
deriving DecidableEq

/-- The environment of a run: `wnet n` is the result code of the n-th call of
the network subsystem (counted from 0 over all calls), `key n` what the n-th
poll `_kbhit() && _getch()` sees: `none` when no key was hit, else the key
read. -/
structure Env where
  wnet : Nat → DWORD
  key : Nat → Option Nat

/-- The state of the world during a run: the number of keyboard polls made and
the log of the calls of the network subsystem, oldest first. -/
structure World where
  polls : Nat := 0
  log : List Event := []
deriving DecidableEq

/-- The test `_kbhit() && _getch() == 0x1B` (WinMount.cpp 293, 315). -/
def escPressed (env : Env) (w : World) : Bool × World :=
  (decide (env.key w.polls = some 0x1B), { w with polls := w.polls + 1 })

/-- A call of the network subsystem: the oracle answers, the call is logged. -/
def osCall (env : Env) (w : World) (iRetryCount idx : Nat) (site : Site) (call : Call) :
    DWORD × World :=
  (env.wnet w.log.length,
    { w with log := w.log ++ [⟨iRetryCount, idx, site, call, env.wnet w.log.length⟩] })

/-! ## `CWinMount::MapDrives` (WinMount.cpp 264-395) -/

/-- How the body of the loop over the shares ends. -/
inductive Flow
  /-- The body reaches its end or a `continue`. -/
  | next
  /-- The function returns. -/
  | ret (b : Bool)
  /-- The fuel ran out inside the body. -/
  | fuelOut
deriving DecidableEq

/-- `CWinMount::AllDrivesMapped` (WinMount.cpp 251-261). -/
def AllDrivesMapped (shares : List CNetShare) : Bool :=
  shares.foldl (fun bMappedAll netShare => if !netShare.IsMapped then false else bMappedAll) true

/-- The loop `do ... while (result == ERROR_NETWORK_UNREACHABLE || result ==
ERROR_NO_NET_OR_BAD_PATH)` of WinMount.cpp 358-369: the last result code, or
`none` when the fuel ran out, and the world. -/
def interactiveLoop (env : Env) (m : CWinMount) (iRetryCount idx : Nat) (netShare : CNetShare) :
    Nat → World → Option DWORD × World
  | 0, w => (none, w)
  | fuel + 1, w =>
    let c := osCall env w iRetryCount idx Site.interactive
      (Call.WNetAddConnection2 netShare.GetLocalName netShare.GetRemoteName
        (CONNECT_INTERACTIVE ||| CONNECT_PROMPT ||| m.m_dwConnectFlags))
    if c.1 = ERROR_NETWORK_UNREACHABLE ∨ c.1 = ERROR_NO_NET_OR_BAD_PATH then
      interactiveLoop env m iRetryCount idx netShare fuel c.2
    else
      (some c.1, c.2)

/-- The interactive tier of the body (WinMount.cpp 354-384). -/
def tryInteractive (env : Env) (m : CWinMount) (iRetryCount idx fuel : Nat)
    (bTryInteractive : Bool) (netShare : CNetShare) (w : World) : Flow × CNetShare × World :=
  if m.m_dwConnectFlags &&& CONNECT_INTERACTIVE ≠ 0 ∨ bTryInteractive = true then
    match interactiveLoop env m iRetryCount idx netShare fuel w with
    | (none, w1) => (Flow.fuelOut, netShare, w1)
    | (some result, w1) =>
      if result = ERROR_CANCELLED then (Flow.ret false, netShare, w1)
      else (Flow.next, netShare, w1)
  else
    (Flow.next, netShare, w)

/-- The silent tier of the body and what follows it (WinMount.cpp 313-384). -/
def connectShare (env : Env) (m : CWinMount) (iRetryCount idx fuel : Nat)
    (netShare : CNetShare) (w : World) : Flow × CNetShare × World :=
  if m.m_dwConnectFlags &&& CONNECT_INTERACTIVE = 0 then
    if (escPressed env w).1 then
      (Flow.ret false, netShare, (escPressed env w).2)
    else
      let c := osCall env (escPressed env w).2 iRetryCount idx Site.silent
        (Call.WNetAddConnection2 netShare.GetLocalName netShare.GetRemoteName m.m_dwConnectFlags)
      if c.1 = ERROR_CANCELLED ∨ c.1 = NO_ERROR ∨ c.1 = ERROR_ALREADY_ASSIGNED then
        (Flow.next, netShare.SetMapped, c.2)
      else if c.1 = ERROR_DEVICE_ALREADY_REMEMBERED ∨ c.1 = ERROR_SESSION_CREDENTIAL_CONFLICT
          ∨ c.1 = ERROR_ALREADY_ASSIGNED then
        (Flow.next, netShare.SetMapped, c.2)
      else
        tryInteractive env m iRetryCount idx fuel
          (decide (c.1 ≠ ERROR_LOGON_FAILURE ∧ c.1 ≠ ERROR_BAD_DEV_TYPE)) netShare c.2
  else
    tryInteractive env m iRetryCount idx fuel false netShare w

/-- The body of the loop over the shares (WinMount.cpp 277-385) for the share
at index `idx` in pass `iRetryCount`. -/
def mapShare (env : Env) (m : CWinMount) (iRetryCount idx fuel : Nat)
    (netShare : CNetShare) (w : World) : Flow × CNetShare × World :=
  if !netShare.IsMapped then
    if m.m_bUnmount then
      if (escPressed env w).1 then
        (Flow.ret false, netShare, (escPressed env w).2)
      else
        let c := osCall env (escPressed env w).2 iRetryCount idx Site.unmount
          (Call.WNetCancelConnection2 netShare.GetLocalName)
        if c.1 ≠ NO_ERROR ∧ c.1 ≠ ERROR_NOT_CONNECTED then
          (Flow.next, netShare.SetMapped, c.2)
        else
          connectShare env m iRetryCount idx fuel netShare c.2
    else
      connectShare env m iRetryCount idx fuel netShare w
  else
    (Flow.next, netShare, w)

/-- The loop `for (auto& netShare : m_vecNetShares)` (WinMount.cpp 275-386)
from index `idx` on: how it ends, the shares after it and the world. -/
def mapShares (env : Env) (m : CWinMount) (iRetryCount fuel : Nat) :
    Nat → List CNetShare → World → Flow × List CNetShare × World
  | _, [], w => (Flow.next, [], w)
  | idx, netShare :: rest, w =>
    match mapShare env m iRetryCount idx fuel netShare w with
    | (Flow.next, netShare1, w1) =>
      match mapShares env m iRetryCount fuel (idx + 1) rest w1 with
      | (flow, rest1, w2) => (flow, netShare1 :: rest1, w2)
    | (flow, netShare1, w1) => (flow, netShare1 :: rest, w1)

/-- The loop over the passes (WinMount.cpp 266-394) from pass `iRetryCount` on:
the value returned, or `none` when the fuel ran out, the shares and the world.
One unit of fuel is used per pass, and the rest is what a `do ... while` loop
of the pass may use. `Sleep`, the console and the message boxes are not
modelled; the counter `iRetryCount` is not bounded. -/
def MapDrivesLoop (env : Env) (m : CWinMount) :
    Nat → Nat → List CNetShare → World → Option Bool × List CNetShare × World
  | 0, _, shares, w => (none, shares, w)
  | fuel + 1, iRetryCount, shares, w =>
    if m.m_bRetryForever = true ∨ iRetryCount < RETRY_COUNT then
      match mapShares env m iRetryCount fuel 0 shares w with
      | (Flow.next, shares1, w1) =>
        if AllDrivesMapped shares1 then (some true, shares1, w1)
        else MapDrivesLoop env m fuel (iRetryCount + 1) shares1 w1
      | (Flow.ret b, shares1, w1) => (some b, shares1, w1)
      | (Flow.fuelOut, shares1, w1) => (none, shares1, w1)
    else
      (some false, shares, w)

/-- `CWinMount::MapDrives` (WinMount.cpp 264-395): the value returned, or `none`
when the fuel ran out, the object and the world after the call. -/
def MapDrives (env : Env) (fuel : Nat) (m : CWinMount) (w : World) :
    Option Bool × CWinMount × World :=
  ((MapDrivesLoop env m fuel 0 m.m_vecNetShares w).1,
    { m with m_vecNetShares := (MapDrivesLoop env m fuel 0 m.m_vecNetShares w).2.1 },
    (MapDrivesLoop env m fuel 0 m.m_vecNetShares w).2.2)

/-! ## Reading the log -/

/-- Whether a logged call is a connection attempt for the share at `idx`. -/
def Event.isAttemptFor (idx : Nat) (e : Event) : Bool :=
  e.site ≠ Site.unmount && e.share = idx

/-! ## The command line, one argument at a time -/

/-- The object `CCmdArguments` after `ProcessArgument` has read the argument
`x`, computed by the code itself on the one-element argument list. -/
def readArg (x : Str) : CCmdArguments :=
  (CCmdArguments.ProcessArgument (CCmdArguments.new [x])).2

/-- The loop of `ProcessCommandLine` over a list of arguments still to be read:
`processBody` on each argument in turn, until it returns. -/
def runArgs : List Str → CWinMount → Bool × CWinMount
  | [], m => (true, m)
  | x :: rest, m =>
    match processBody (readArg x) m with
    | none => (false, m)
    | some m1 => runArgs rest m1

/-- Whether an argument starts with `-`, `+` or `/`, the test that
`ArgumentIsOption` makes on the argument read. -/
def startsLikeOption (x : Str) : Bool :=
  match x with
  | [] => false
  | c :: _ => c = '-' || c = '+' || c = '/'

/-- The eight flags `-p`, `--persist`, `-i`, `--interactive`, `-u`,
`--unmount`, `-r`, `--retry`. -/
def plainFlags : List Str :=
  [['-', 'p'], ['-', '-'] ++ optPersist, ['-', 'i'], ['-', '-'] ++ optInteractive,
   ['-', 'u'], ['-', '-'] ++ optUnmount, ['-', 'r'], ['-', '-'] ++ optRetry]

/-- The ten flags of the usage text: `-h`, `--help` and the eight of `plainFlags`. -/
def allFlags : List Str :=
  [['-', 'h'], ['-', '-'] ++ optHelp] ++ plainFlags

/-- Whether one of the two spellings of a flag occurs in an argument list. -/
def occurs (short long : Str) (vecArgs : List Str) : Bool :=
  vecArgs.contains short || vecArgs.contains long

/-- The object `CWinMount` in which exactly the given flags are set, no
configuration file is named and no share is listed. -/
def flagState (p i u r : Bool) : CWinMount :=
  { m_bUnmount := u, m_bRetryForever := r,
    m_dwConnectFlags := (if p then CONNECT_UPDATE_PROFILE else 0) |||
      (if i then CONNECT_INTERACTIVE else 0),
    m_strIniFile := [], m_vecNetShares := [] }

/-- The number of arguments of a list that are not empty and do not start like
an option. -/
def countFileArgs (vecArgs : List Str) : Nat :=
  (vecArgs.filter (fun x => !startsLikeOption x && !x.isEmpty)).length

/-! ## The configuration file, as the specification words it -/

/-- A remote name of the form `\\<Server>\<Share>`: two backslashes, a server
name that is not empty, one backslash and a share name that is not empty. -/
def IsUncName (remote : Str) : Prop :=
  ∃ server share : Str, server ≠ [] ∧ share ≠ [] ∧
    remote = [chBackslash, chBackslash] ++ server ++ [chBackslash] ++ share

/-- A line of the form `<DriveLetter>: \\<Server>\<Share>`: one alphabetic
drive letter, a colon, a single space and a remote name. -/
def IsMappingLine (line : Str) : Prop :=
  ∃ (letter : Char) (remote : Str), letter.isAlpha = true ∧ IsUncName remote ∧
    line = [letter, ':', ' '] ++ remote

/-- A line of a well-formed configuration file: empty, a comment starting with
`;`, or a mapping whose remote name has at most `MAX_PATH` characters. -/
def IsConfigLine (line : Str) : Prop :=
  line = [] ∨ line.head? = some ';' ∨
    ∃ (letter : Char) (remote : Str), letter.isAlpha = true ∧ IsUncName remote ∧
      remote.length ≤ MAX_PATH ∧ line = [letter, ':', ' '] ++ remote

/-- Everything after the first space of a line. -/
def afterFirstSpace (line : Str) : Str :=
  (line.dropWhile (fun c => c ≠ ' ')).drop 1

/-- The unmapped share that a mapping line stands for: the local name is the
first two characters `X:`, the remote name everything after the first space. -/
def shareOfLine (line : Str) : CNetShare :=
  { m_strLocalName := line.take 2, m_strRemoteName := afterFirstSpace line, m_bMapped := false }

/-- The lines of a file that are neither empty nor comments, in file order. -/
def mappingLines (lines : List Str) : List Str :=
  lines.filter (fun line => !line.isEmpty && line.head? ≠ some ';')

/-! ## Runs of `MapDrives` -/

/-- The environment in which every call of the network subsystem returns `r`
and no key is ever hit. -/
def envConst (r : DWORD) : Env :=
  { wnet := fun _ => r, key := fun _ => none }

/-- The share of the configuration line `X: \\s\t`, as `ProcessIniFile` makes it. -/
def shareX : CNetShare :=
  CNetShare.new ['X', ':'] [chBackslash, chBackslash, 's', chBackslash, 't']

/-- The connection attempts of a log (the calls of `WNetAddConnection2`), each
as its pass, the index of its share, its place and its result code. -/
def attempts (log : List Event) : List (Nat × Nat × Site × DWORD) :=
  (log.filter (fun e => e.site ≠ Site.unmount)).map
    (fun e => (e.iRetryCount, e.share, e.site, e.result))

/-- Whether a result code is one of the two network errors on which the
interactive attempt is repeated at once (WinMount.cpp 369). -/
def isNetworkError (r : DWORD) : Bool :=
  r = ERROR_NETWORK_UNREACHABLE || r = ERROR_NO_NET_OR_BAD_PATH

/-- Whether a logged call is a silent connection attempt. -/
def Event.isSilent (e : Event) : Bool := e.site = Site.silent

/-- Whether a logged call is an interactive connection attempt whose result is
not a network error, that is, the last attempt of a `do ... while` loop. -/
def Event.isLastInteractive (e : Event) : Bool :=
  e.site = Site.interactive && !isNetworkError e.result

/-- The number of silent connection attempts in a log. -/
def silentTotal (log : List Event) : Nat := log.countP Event.isSilent

/-- The number of interactive connection attempts in a log that were not
answered with a network error. -/
def interactiveTotal (log : List Event) : Nat := log.countP Event.isLastInteractive

/-- The number of silent connection attempts for the share at `idx` in a log. -/
def silentAttempts (idx : Nat) (log : List Event) : Nat :=
  log.countP (fun e => e.isSilent && e.share = idx)

/-- The number of interactive connection attempts for the share at `idx` in a
log that were not answered with a network error. -/
def interactiveRounds (idx : Nat) (log : List Event) : Nat :=
  log.countP (fun e => e.isLastInteractive && e.share = idx)

/-- The system does not answer with network errors for ever: after every call
there is a call whose result code is not a network error. -/
def NetworkErrorsEnd (env : Env) : Prop :=
  ∀ n, ∃ k, n ≤ k ∧ isNetworkError (env.wnet k) = false

/-- The environment in which the calls of the network subsystem return the
result codes of the list `results` in turn and `NO_ERROR` after them, and no
key is ever hit. -/
def envOf (results : List DWORD) : Env :=
  { wnet := fun n => results.getD n NO_ERROR, key := fun _ => none }

/-- The default argument `" \t\n\r"` of the trim functions (StringUtils.h 30-32). -/
def whitespace : Str := [' ', Char.ofNat 9, Char.ofNat 10, Char.ofNat 13]

/-! ## `CCmdArguments::GetOptionValue` (CmdArguments.cpp 80-109) -/

namespace CCmdArguments

/-- `CCmdArguments::NextArgumentIsOption` (CmdArguments.cpp 80-88). -/
def NextArgumentIsOption (a : CCmdArguments) : Bool :=
  if (a.m_index + 1) < a.m_count ∧ (a.m_vecStrArgs.getD (a.m_index + 1) []).length ≠ 0 ∧
      ((a.m_vecStrArgs.getD (a.m_index + 1) []).head? = some '-' ∨
        (a.m_vecStrArgs.getD (a.m_index + 1) []).head? = some '+' ∨
        (a.m_vecStrArgs.getD (a.m_index + 1) []).head? = some '/') then
    true
  else
    false

/-- `CCmdArguments::GetOptionValue` (CmdArguments.cpp 92-109): the returned
boolean, the output parameter `strValue`, which is passed in and returned, and
the object after the call. -/
def GetOptionValue (a : CCmdArguments) (strValue : Str) : Bool × Str × CCmdArguments :=
  if a.OptionHasValue then
    (true, a.m_strOptionValue, a)
  else if (a.m_index + 1) < a.m_count ∧ ¬ a.NextArgumentIsOption = true then
    (true, a.m_vecStrArgs.getD (a.m_index + 1) [], { a with m_index := a.m_index + 1 })
  else
    (false, strValue, a)

end CCmdArguments

/-! ## `StringUtils::Tokenize` and `StringUtils::GetKeyValue` (StringUtils.cpp 20-73) -/

/-- The number of values of an `unsigned int`, the type of `pos` and `last` in
`Tokenize`: their arithmetic is modulo this number, while the length of a
string is a `size_t`, which may be wider. -/
abbrev UINT_RANGE : Nat := 2 ^ 32

namespace StringUtils

/-- The loop of `StringUtils::Tokenize` (StringUtils.cpp 23-37) from the state
`pos`, `last`, `vecStrings` on: the vector returned, or `none` when the fuel ran
out. One unit of fuel is used per iteration. `push_back` always succeeds here:
the memory is not bounded and `std::bad_alloc` is not modelled. -/
def TokenizeLoop (strLine strDelimiters : Str) : Nat → Nat → Nat → List Str → Option (List Str)
  | 0, _, _, _ => none
  | fuel + 1, pos, last, vecStrings =>
    if pos < strLine.length then
      if find_first_of strDelimiters (strLine.getD pos ' ') ≠ none then
        TokenizeLoop strLine strDelimiters fuel ((pos + 1) % UINT_RANGE) ((pos + 1) % UINT_RANGE)
          (if pos ≥ (last + 1) % UINT_RANGE then
            vecStrings ++ [(strLine.drop last).take ((pos + UINT_RANGE - last) % UINT_RANGE)]
          else vecStrings)
      else if pos = strLine.length - 1 then
        TokenizeLoop strLine strDelimiters fuel ((pos + 1) % UINT_RANGE) last
          (vecStrings ++ [strLine.drop last])
      else
        TokenizeLoop strLine strDelimiters fuel ((pos + 1) % UINT_RANGE) last vecStrings
    else
      some vecStrings

/-- `StringUtils::Tokenize` (StringUtils.cpp 20-40), with one unit of fuel more
than the line has characters: enough for a line of fewer than `UINT_RANGE`
characters, and no fuel is enough for a longer one
(`TokenizeLoop_long_line`). -/
def Tokenize (strLine strDelimiters : Str) : Option (List Str) :=
  TokenizeLoop strLine strDelimiters (strLine.length + 1) 0 0 []

/-- The loop over the tokens of `StringUtils::GetKeyValue` (StringUtils.cpp
60-72): the returned boolean and the output parameter `strValue`, which is
passed in and returned. -/
def GetKeyValueLoop (strKey : Str) : List Str → Str → Bool × Str
  | [], strValue => (false, strValue)
  | strTok :: rest, strValue =>
    if (Split strTok ['='] [] []).1 = true ∧ (Split strTok ['='] [] []).2.1 = strKey then
      (true, (Split strTok ['='] [] []).2.2)
    else
      GetKeyValueLoop strKey rest strValue

/-- `StringUtils::GetKeyValue` (StringUtils.cpp 57-73): `none` when `Tokenize`
does not return. -/
def GetKeyValue (str strKey strValue strToken : Str) : Option (Bool × Str) :=
  (Tokenize str strToken).map (fun vecTokens => GetKeyValueLoop strKey vecTokens strValue)

end StringUtils

/-! ## Tokens, as the specification words them -/

/-- The maximal runs of consecutive characters of a line that are not
delimiters, in order: the pieces between the delimiters that are not empty. -/
def maximalRuns (strDelimiters strLine : Str) : List Str :=
  (strLine.splitOnP (fun c => decide (c ∈ strDelimiters))).filter (fun t => !t.isEmpty)

/-- The text of a token before its first `=`. -/
def beforeFirstEq (t : Str) : Str := t.takeWhile (fun c => c ≠ '=')

/-- The text of a token after its first `=`. -/
def afterFirstEq (t : Str) : Str := (t.dropWhile (fun c => c ≠ '=')).drop 1

/-- Whether a token contains `=` and its text before the first `=` is `strKey`. -/
def isKeyToken (strKey t : Str) : Bool :=
  decide ('=' ∈ t) && decide (beforeFirstEq t = strKey)

/-- The object `CCmdArguments` after `n` calls of `ProcessArgument` on the
argument list `vecArgs`: after the call that reads position `n - 1`. -/
def afterReads (vecArgs : List Str) (n : Nat) : CCmdArguments :=
  (fun a => (CCmdArguments.ProcessArgument a).2)^[n] (CCmdArguments.new vecArgs)

/-- The list `tokens` is, in order, the list of the maximal runs of consecutive
characters of `strLine` that are not delimiters: the line is made of
delimiters only and there is no token, or the line is a stretch of delimiters,
then a first token, which is not empty, holds no delimiter and ends where the
line ends or a delimiter follows, and then a rest of which the other tokens
are the maximal runs. -/
inductive IsRuns (strDelimiters : Str) : Str → List Str → Prop
  | done (strLine : Str) : (∀ c ∈ strLine, c ∈ strDelimiters) → IsRuns strDelimiters strLine []
  | run (seps tok rest : Str) (tokens : List Str) :
      (∀ c ∈ seps, c ∈ strDelimiters) → tok ≠ [] → (∀ c ∈ tok, c ∉ strDelimiters) →
      (∀ c ∈ rest.head?, c ∈ strDelimiters) → IsRuns strDelimiters rest tokens →
      IsRuns strDelimiters (seps ++ tok ++ rest) (tok :: tokens)

/-- What `GetKeyValue` is to return on the tokens of a line: true and the text
after the first `=` of the first token that contains `=` and whose text before
the first `=` is `strKey`, or false and `strValue` as it was when there is no
such token. -/
def keyValueOf (strKey strValue : Str) (tokens : List Str) : Bool × Str :=
  match tokens.find? (isKeyToken strKey) with
  | some t => (true, afterFirstEq t)
  | none => (false, strValue)

/-! ## Shares that are flagged as mapped during a run -/

/-- Whether a logged call makes `MapDrives` flag its share as mapped: a silent
attempt that returns `ERROR_CANCELLED`, `NO_ERROR`, `ERROR_ALREADY_ASSIGNED`,
`ERROR_DEVICE_ALREADY_REMEMBERED` or `ERROR_SESSION_CREDENTIAL_CONFLICT`
(WinMount.cpp 323-340), or an unmount that returns neither `NO_ERROR` nor
`ERROR_NOT_CONNECTED` (WinMount.cpp 301-310). -/
def Event.flagsShare (e : Event) : Bool :=
  (decide (e.site = Site.silent) &&
    (decide (e.result = ERROR_CANCELLED) || decide (e.result = NO_ERROR) ||
      decide (e.result = ERROR_ALREADY_ASSIGNED) ||
      decide (e.result = ERROR_DEVICE_ALREADY_REMEMBERED) ||
      decide (e.result = ERROR_SESSION_CREDENTIAL_CONFLICT))) ||
  (decide (e.site = Site.unmount) && decide (e.result ≠ NO_ERROR) &&
    decide (e.result ≠ ERROR_NOT_CONNECTED))

/-- Whether the share at index `idx` of a share list is flagged as mapped; false
when the list has no such index. -/
def mappedAt (shares : List CNetShare) (idx : Nat) : Bool :=
  (shares.map CNetShare.IsMapped).getD idx false

/-- The local name of the share at index `idx` of a share list; empty when the
list has no such index. -/
def localNameAt (shares : List CNetShare) (idx : Nat) : Str :=
  (shares.map CNetShare.GetLocalName).getD idx []

/-- Every connection attempt of the log is preceded, in its pass, by a call of
`WNetCancelConnection2` for the same share, on the local name that the share
has in `shares`, which returned `NO_ERROR` or `ERROR_NOT_CONNECTED`. -/
def UnmountFirst (shares : List CNetShare) (log : List Event) : Prop :=
  ∀ pre e post, log = pre ++ e :: post → e.site ≠ Site.unmount →
    ∃ u ∈ pre, u.site = Site.unmount ∧ u.share = e.share ∧ u.iRetryCount = e.iRetryCount ∧
      u.call = Call.WNetCancelConnection2 (localNameAt shares e.share) ∧
      (u.result = NO_ERROR ∨ u.result = ERROR_NOT_CONNECTED)

/-- What holds of the log and of the share list at every point of a run of
`MapDrives` that started on the share list `shares0` with an empty log. -/
structure RunInv (m : CWinMount) (shares0 : List CNetShare) (log : List Event)
    (shares : List CNetShare) : Prop where
  /-- The shares keep their local names. -/
  names : shares.map CNetShare.GetLocalName = shares0.map CNetShare.GetLocalName
  /-- A share that was flagged as mapped stays so. -/
  mono : ∀ idx, mappedAt shares0 idx = true → mappedAt shares idx = true
  /-- No call was made for a share that was flagged as mapped at the start. -/
  fresh : ∀ e ∈ log, mappedAt shares0 e.share = false
  /-- A call that flags its share has done so. -/
  flagged : ∀ e ∈ log, e.flagsShare = true → mappedAt shares e.share = true
  /-- A share is flagged only at the start or by a call that flags it. -/
  caused : ∀ idx, mappedAt shares idx = true →
    mappedAt shares0 idx = true ∨ ∃ e ∈ log, e.share = idx ∧ e.flagsShare = true
  /-- After a call that flags its share, no call is made for that share. -/
  quiet : log.Pairwise (fun e e2 => e.flagsShare = true → e2.share ≠ e.share)
  /-- With `-u`, the unmount comes first. -/
  unmountFirst : m.m_bUnmount = true → UnmountFirst shares0 log

/-- A line of `2^32 + 1` letters `a`: one character more than an `unsigned int`
can count. -/
def longLine : Str := List.replicate (UINT_RANGE + 1) 'a'

/-- The share of the configuration line `Y: \\s\u`. -/
def shareY : CNetShare :=
  CNetShare.new ['Y', ':'] [chBackslash, chBackslash, 's', chBackslash, 'u']

end WinMount

/-! # Theorems -/

namespace WinMount
open StringUtils CCmdArguments

/-! ## The command line -/

theorem processBody_congr {a b : CCmdArguments} (m : CWinMount)
    (h1 : a.m_strArgument = b.m_strArgument) (h2 : a.m_strOptionName = b.m_strOptionName)
    (h3 : a.m_strOptionValue = b.m_strOptionValue) : processBody a m = processBody b m := by
  simp only [processBody, ArgumentIsOption, TestOption, OptionHasValue, GetArgument, h1, h2, h3]

theorem ProcessArgument_read {a : CCmdArguments} {x : Str} {rest : List Str}
    (hc : a.m_count = a.m_vecStrArgs.length) (hd : a.m_vecStrArgs.drop a.m_index = x :: rest) :
    (ProcessArgument a).1 = true ∧
      (ProcessArgument a).2.m_count = (ProcessArgument a).2.m_vecStrArgs.length ∧
      (ProcessArgument a).2.m_vecStrArgs.drop (ProcessArgument a).2.m_index = rest ∧
      ∀ m, processBody (ProcessArgument a).2 m = processBody (readArg x) m := by
  have hlt : a.m_index < a.m_vecStrArgs.length := by
    by_contra hge
    rw [List.drop_eq_nil_of_le (by omega)] at hd
    cases hd
  have hget : a.m_vecStrArgs.getD a.m_index [] = x := by
    have := List.drop_eq_getElem_cons hlt
    rw [hd] at this
    simp [List.getD, List.getElem?_eq_getElem hlt]
    exact (List.cons.inj this).1.symm
  have hrest : a.m_vecStrArgs.drop (a.m_index + 1) = rest := by
    have := List.drop_eq_getElem_cons hlt
    rw [hd] at this
    exact (List.cons.inj this).2.symm
  have hlt2 : a.m_index < a.m_count := by omega
  refine ⟨?_, ?_, ?_, ?_⟩
  · simp only [ProcessArgument, hlt2, if_true]
    split <;> [split <;> [split; skip]; skip] <;> rfl
  · simp only [ProcessArgument, hlt2, if_true]
    split <;> [split <;> [split; skip]; skip] <;> exact hc
  · simp only [ProcessArgument, hlt2, if_true]
    split <;> [split <;> [split; skip]; skip] <;> exact hrest
  · intro m
    apply processBody_congr
    all_goals
      simp only [readArg, ProcessArgument, CCmdArguments.new, hlt2, if_true, hget,
        List.length_singleton, Nat.lt_one_iff, List.getD_cons_zero, ArgumentIsOption]
      split <;> [split <;> [split; skip]; skip] <;> rfl

theorem ProcessCommandLineLoop_eq_runArgs (rest : List Str) :
    ∀ (fuel : Nat) (a : CCmdArguments) (m : CWinMount),
      a.m_count = a.m_vecStrArgs.length → a.m_vecStrArgs.drop a.m_index = rest →
      rest.length < fuel → ProcessCommandLineLoop fuel a m = some (runArgs rest m) := by
  induction rest with
  | nil =>
    intro fuel a m hc hd hf
    obtain ⟨fuel, rfl⟩ : ∃ k, fuel = k + 1 := ⟨fuel - 1, by simp at hf; omega⟩
    have hge : ¬ a.m_index < a.m_count := by
      intro hlt
      have := List.drop_eq_getElem_cons (hc ▸ hlt)
      rw [hd] at this
      cases this
    simp [ProcessCommandLineLoop, ProcessArgument, hge, runArgs]
  | cons x rest ih =>
    intro fuel a m hc hd hf
    obtain ⟨fuel, rfl⟩ : ∃ k, fuel = k + 1 := ⟨fuel - 1, by simp at hf; omega⟩
    obtain ⟨h1, h2, h3, h4⟩ := ProcessArgument_read hc hd
    simp only [ProcessCommandLineLoop, h1, if_true, h4, runArgs]
    cases hb : processBody (readArg x) m with
    | none => rfl
    | some m1 =>
      simp only
      exact ih fuel _ m1 h2 h3 (by simp at hf; omega)

theorem ProcessCommandLine_eq_runArgs (m : CWinMount) (vecArgs : List Str) :
    ProcessCommandLine m vecArgs = some (runArgs vecArgs m) :=
  ProcessCommandLineLoop_eq_runArgs vecArgs _ _ m rfl rfl (Nat.lt_succ_self _)

/-- The loop of `ProcessCommandLine` ends for every argument list: the fuel that
`ProcessCommandLine` gives it is enough. -/
theorem ProcessCommandLine_isSome (m : CWinMount) (vecArgs : List Str) :
    (ProcessCommandLine m vecArgs).isSome = true := by
  simp [ProcessCommandLine_eq_runArgs]

theorem processBody_plainFlag (x : Str) (hx : x ∈ plainFlags) (p i u r : Bool) :
    processBody (readArg x) (flagState p i u r) =
      some (flagState (p || occurs ['-', 'p'] (['-', '-'] ++ optPersist) [x])
        (i || occurs ['-', 'i'] (['-', '-'] ++ optInteractive) [x])
        (u || occurs ['-', 'u'] (['-', '-'] ++ optUnmount) [x])
        (r || occurs ['-', 'r'] (['-', '-'] ++ optRetry) [x])) := by
  simp only [plainFlags, List.mem_cons, List.mem_singleton, List.not_mem_nil, or_false] at hx
  rcases hx with h | h | h | h | h | h | h | h <;> subst h <;>
    cases p <;> cases i <;> cases u <;> cases r <;> decide

theorem occurs_cons (short long x : Str) (rest : List Str) :
    occurs short long (x :: rest) = (occurs short long [x] || occurs short long rest) := by
  simp only [occurs, List.contains_cons, List.contains_nil, Bool.or_false]
  cases (short == x) <;> cases (long == x) <;> simp

theorem runArgs_plainFlags (vecArgs : List Str) :
    ∀ (p i u r : Bool), (∀ a ∈ vecArgs, a ∈ plainFlags) →
      runArgs vecArgs (flagState p i u r) =
        (true, flagState (p || occurs ['-', 'p'] (['-', '-'] ++ optPersist) vecArgs)
          (i || occurs ['-', 'i'] (['-', '-'] ++ optInteractive) vecArgs)
          (u || occurs ['-', 'u'] (['-', '-'] ++ optUnmount) vecArgs)
          (r || occurs ['-', 'r'] (['-', '-'] ++ optRetry) vecArgs)) := by
  induction vecArgs with
  | nil => intro p i u r _; simp [runArgs, occurs]
  | cons x rest ih =>
    intro p i u r h
    have hx := h x (List.mem_cons_self _ _)
    have hrest : ∀ a ∈ rest, a ∈ plainFlags := fun a ha => h a (List.mem_cons_of_mem _ ha)
    simp only [runArgs, processBody_plainFlag x hx]
    rw [ih _ _ _ _ hrest]
    simp only [occurs_cons _ _ x rest, Bool.or_assoc]

/-- C5. For every argument list made up only of the flags `-p`, `--persist`,
`-i`, `--interactive`, `-u`, `--unmount`, `-r`, `--retry`, `ProcessCommandLine`
on a fresh object returns true, and the resulting object is a function of which
flags occur: the `CONNECT_UPDATE_PROFILE` bit is set iff `-p` or `--persist`
occurs, the `CONNECT_INTERACTIVE` bit iff `-i` or `--interactive` occurs,
`m_bUnmount` is true iff `-u` or `--unmount` occurs, `m_bRetryForever` is true
iff `-r` or `--retry` occurs, and `m_strIniFile` stays empty. -/
theorem ProcessCommandLine_flags_only (vecArgs : List Str)
    (h : ∀ a ∈ vecArgs, a ∈ plainFlags) :
    ∃ m : CWinMount, ProcessCommandLine {} vecArgs = some (true, m) ∧
      m = flagState (occurs ['-', 'p'] (['-', '-'] ++ optPersist) vecArgs)
        (occurs ['-', 'i'] (['-', '-'] ++ optInteractive) vecArgs)
        (occurs ['-', 'u'] (['-', '-'] ++ optUnmount) vecArgs)
        (occurs ['-', 'r'] (['-', '-'] ++ optRetry) vecArgs) ∧
      (m.m_dwConnectFlags &&& CONNECT_UPDATE_PROFILE ≠ 0 ↔
        (['-', 'p'] ∈ vecArgs ∨ ['-', '-'] ++ optPersist ∈ vecArgs)) ∧
      (m.m_dwConnectFlags &&& CONNECT_INTERACTIVE ≠ 0 ↔
        (['-', 'i'] ∈ vecArgs ∨ ['-', '-'] ++ optInteractive ∈ vecArgs)) ∧
      (m.m_bUnmount = true ↔ (['-', 'u'] ∈ vecArgs ∨ ['-', '-'] ++ optUnmount ∈ vecArgs)) ∧
      (m.m_bRetryForever = true ↔ (['-', 'r'] ∈ vecArgs ∨ ['-', '-'] ++ optRetry ∈ vecArgs)) ∧
      m.m_strIniFile = [] := by
  have hrun := runArgs_plainFlags vecArgs false false false false h
  simp only [Bool.false_or] at hrun
  have hinit : ({} : CWinMount) = flagState false false false false := by decide
  refine ⟨_, ?_, rfl, ?_, ?_, ?_, ?_, rfl⟩
  · rw [ProcessCommandLine_eq_runArgs, hinit, hrun]
  · have hp : (occurs ['-', 'p'] (['-', '-'] ++ optPersist) vecArgs = true) ↔
        (['-', 'p'] ∈ vecArgs ∨ ['-', '-'] ++ optPersist ∈ vecArgs) := by
      simp [occurs]
    rw [← hp]
    simp only [flagState]
    cases occurs ['-', 'p'] (['-', '-'] ++ optPersist) vecArgs <;>
      cases occurs ['-', 'i'] (['-', '-'] ++ optInteractive) vecArgs <;> decide
  · have hp : (occurs ['-', 'i'] (['-', '-'] ++ optInteractive) vecArgs = true) ↔
        (['-', 'i'] ∈ vecArgs ∨ ['-', '-'] ++ optInteractive ∈ vecArgs) := by
      simp [occurs]
    rw [← hp]
    simp only [flagState]
    cases occurs ['-', 'p'] (['-', '-'] ++ optPersist) vecArgs <;>
      cases occurs ['-', 'i'] (['-', '-'] ++ optInteractive) vecArgs <;> decide
  · simp [flagState, occurs]
  · simp [flagState, occurs]

/-- The hypothesis of `ProcessCommandLine_flags_only` holds of the argument
list `-p --retry -p`, and so does its conclusion. -/
theorem ProcessCommandLine_flags_only_witness :
    (∀ a ∈ [['-', 'p'], ['-', '-'] ++ optRetry, ['-', 'p']], a ∈ plainFlags) ∧
    ∃ m : CWinMount,
      ProcessCommandLine {} [['-', 'p'], ['-', '-'] ++ optRetry, ['-', 'p']] = some (true, m) ∧
      m = flagState (occurs ['-', 'p'] (['-', '-'] ++ optPersist)
          [['-', 'p'], ['-', '-'] ++ optRetry, ['-', 'p']])
        (occurs ['-', 'i'] (['-', '-'] ++ optInteractive)
          [['-', 'p'], ['-', '-'] ++ optRetry, ['-', 'p']])
        (occurs ['-', 'u'] (['-', '-'] ++ optUnmount)
          [['-', 'p'], ['-', '-'] ++ optRetry, ['-', 'p']])
        (occurs ['-', 'r'] (['-', '-'] ++ optRetry)
          [['-', 'p'], ['-', '-'] ++ optRetry, ['-', 'p']]) ∧
      (m.m_dwConnectFlags &&& CONNECT_UPDATE_PROFILE ≠ 0 ↔
        (['-', 'p'] ∈ [['-', 'p'], ['-', '-'] ++ optRetry, ['-', 'p']] ∨
          ['-', '-'] ++ optPersist ∈ [['-', 'p'], ['-', '-'] ++ optRetry, ['-', 'p']])) ∧
      (m.m_dwConnectFlags &&& CONNECT_INTERACTIVE ≠ 0 ↔
        (['-', 'i'] ∈ [['-', 'p'], ['-', '-'] ++ optRetry, ['-', 'p']] ∨
          ['-', '-'] ++ optInteractive ∈ [['-', 'p'], ['-', '-'] ++ optRetry, ['-', 'p']])) ∧
      (m.m_bUnmount = true ↔
        (['-', 'u'] ∈ [['-', 'p'], ['-', '-'] ++ optRetry, ['-', 'p']] ∨
          ['-', '-'] ++ optUnmount ∈ [['-', 'p'], ['-', '-'] ++ optRetry, ['-', 'p']])) ∧
      (m.m_bRetryForever = true ↔
        (['-', 'r'] ∈ [['-', 'p'], ['-', '-'] ++ optRetry, ['-', 'p']] ∨
          ['-', '-'] ++ optRetry ∈ [['-', 'p'], ['-', '-'] ++ optRetry, ['-', 'p']])) ∧
      m.m_strIniFile = [] :=
  ⟨by decide, ProcessCommandLine_flags_only _ (by decide)⟩

/-! ### More than one configuration file -/

theorem find_first_not_of_lt {str chars : Str} {pos : Nat}
    (h : find_first_not_of str chars = some pos) : pos < str.length := by
  induction str generalizing pos with
  | nil => simp [find_first_not_of] at h
  | cons x xs ih =>
    simp only [find_first_not_of] at h
    split at h
    · simp only [Option.map_eq_some'] at h
      obtain ⟨k, hk, rfl⟩ := h
      have := ih hk
      simp only [List.length_cons]
      omega
    · simp only [Option.some.injEq] at h
      simp only [List.length_cons]
      omega

theorem TrimLeft_ne_nil {str : Str} (chars : Str) (h : str ≠ []) : TrimLeft str chars ≠ [] := by
  have hlen : str.length ≠ 0 := by simpa using h
  simp only [TrimLeft, hlen, if_false]
  cases hf : find_first_not_of str chars with
  | none => exact h
  | some pos =>
    simp only
    split
    · have := find_first_not_of_lt hf
      simp only [ne_eq, List.drop_eq_nil_iff, not_le]
      exact this
    · exact h

theorem find_last_not_of_lt {str chars : Str} {pos : Nat}
    (h : find_last_not_of str chars = some pos) : pos < str.length := by
  induction str generalizing pos with
  | nil => simp [find_last_not_of] at h
  | cons x xs ih =>
    cases hr : find_last_not_of xs chars with
    | some k =>
      simp only [find_last_not_of, hr, Option.some.injEq] at h
      have := ih hr
      simp only [List.length_cons]
      omega
    | none =>
      simp only [find_last_not_of, hr] at h
      split at h
      · cases h
      · simp only [Option.some.injEq] at h
        simp only [List.length_cons]
        omega

theorem TrimRight_ne_nil {str : Str} (chars : Str) (h : str ≠ []) : TrimRight str chars ≠ [] := by
  have hlen : str.length ≠ 0 := by simpa using h
  simp only [TrimRight, hlen, if_false]
  cases hf : find_last_not_of str chars with
  | none => exact h
  | some pos =>
    simp only
    split
    · simp only [ne_eq, List.take_eq_nil_iff, h, or_false]
      omega
    · exact h

/-- `Trim` never returns the empty string for a string that is not empty. -/
theorem Trim_ne_nil {str : Str} (chars : Str) (h : str ≠ []) : Trim str chars ≠ [] :=
  TrimRight_ne_nil chars (TrimLeft_ne_nil chars h)

theorem readArg_m_strArgument (x : Str) : (readArg x).m_strArgument = x := by
  simp only [readArg, ProcessArgument, CCmdArguments.new, List.length_singleton, Nat.lt_one_iff,
    if_true, List.getD_cons_zero, ArgumentIsOption]
  split <;> [split <;> [split; skip]; skip] <;> rfl

theorem ArgumentIsOption_eq (a : CCmdArguments) :
    a.ArgumentIsOption = startsLikeOption a.m_strArgument := by
  cases h : a.m_strArgument <;> simp [ArgumentIsOption, startsLikeOption, h]

theorem readArg_ArgumentIsOption (x : Str) :
    (readArg x).ArgumentIsOption = startsLikeOption x := by
  rw [ArgumentIsOption_eq, readArg_m_strArgument]

theorem processBody_file {x : Str} (m : CWinMount) (hx : startsLikeOption x = false) :
    processBody (readArg x) m =
      if m.m_strIniFile.length = 0 then
        some { m with m_strIniFile := Trim x [chQuote, chApostrophe] }
      else none := by
  simp only [processBody, readArg_ArgumentIsOption, hx, GetArgument, readArg_m_strArgument]
  rfl

theorem processBody_option {a : CCmdArguments} {m m1 : CWinMount}
    (ha : a.ArgumentIsOption = true) (h : processBody a m = some m1) :
    m1.m_strIniFile = m.m_strIniFile := by
  simp only [processBody, ha, if_true] at h
  repeat' split at h
  all_goals cases h <;> rfl

theorem runArgs_two_files (vecArgs : List Str) :
    ∀ m : CWinMount,
      (m.m_strIniFile ≠ [] ∧ 1 ≤ countFileArgs vecArgs) ∨ 2 ≤ countFileArgs vecArgs →
      (runArgs vecArgs m).1 = false := by
  induction vecArgs with
  | nil => intro m h; simp [countFileArgs] at h
  | cons x rest ih =>
    intro m h
    simp only [runArgs]
    cases hb : processBody (readArg x) m with
    | none => rfl
    | some m1 =>
      simp only
      apply ih
      cases hx : startsLikeOption x with
      | true =>
        have hini := processBody_option ((readArg_ArgumentIsOption x).trans hx) hb
        have hcount : countFileArgs (x :: rest) = countFileArgs rest := by
          simp [countFileArgs, List.filter_cons, hx]
        rw [hini, ← hcount]
        exact h
      | false =>
        rw [processBody_file m hx] at hb
        split at hb
        · rename_i hempty
          have hnil : m.m_strIniFile = [] := List.length_eq_zero.mp hempty
          simp only [Option.some.injEq] at hb
          subst hb
          have h2 : 2 ≤ countFileArgs (x :: rest) := by
            rcases h with ⟨h1, _⟩ | h2
            · exact absurd hnil h1
            · exact h2
          by_cases hxe : x = []
          · right
            subst hxe
            simpa [countFileArgs, List.filter_cons] using h2
          · left
            refine ⟨Trim_ne_nil _ hxe, ?_⟩
            have : x.isEmpty = false := by
              cases x with
              | nil => exact absurd rfl hxe
              | cons _ _ => rfl
            simp only [countFileArgs, List.filter_cons, hx, this, Bool.not_false, Bool.and_self,
              if_true, List.length_cons] at h2
            simp only [countFileArgs]
            omega
        · cases hb

/-- C8, as the code has it. For every argument list that contains two or more
arguments that are not empty and are not options (do not start with `-`, `+`
or `/`), `ProcessCommandLine` returns false, whatever the object it starts
from. -/
theorem ProcessCommandLine_two_files (m : CWinMount) (vecArgs : List Str)
    (h : 2 ≤ countFileArgs vecArgs) :
    ∃ m1 : CWinMount, ProcessCommandLine m vecArgs = some (false, m1) := by
  rw [ProcessCommandLine_eq_runArgs]
  have := runArgs_two_files vecArgs m (Or.inr h)
  exact ⟨(runArgs vecArgs m).2, by rw [← this]⟩

/-- The hypothesis of `ProcessCommandLine_two_files` holds of the argument list
`a.ini -p b.ini`, and so does its conclusion. -/
theorem ProcessCommandLine_two_files_witness :
    2 ≤ countFileArgs [['a', '.', 'i', 'n', 'i'], ['-', 'p'], ['b', '.', 'i', 'n', 'i']] ∧
    ∃ m1 : CWinMount,
      ProcessCommandLine {} [['a', '.', 'i', 'n', 'i'], ['-', 'p'], ['b', '.', 'i', 'n', 'i']] =
        some (false, m1) :=
  ⟨by decide, ProcessCommandLine_two_files _ _ (by decide)⟩

/-- C8 fails as stated. The argument list made of the empty argument and `a`
holds two arguments that are not options, and `ProcessCommandLine` returns true
on it, with `a` as the configuration file. -/
theorem ProcessCommandLine_empty_argument_then_file :
    2 ≤ ([[], ['a']].filter (fun x => !startsLikeOption x)).length ∧
    ProcessCommandLine {} [[], ['a']] = some (true, { m_strIniFile := ['a'] }) := by
  decide

/-! ### A value given to a flag -/

theorem processBody_flag_with_value (flag : Str) (hflag : flag ∈ allFlags) (v : Str)
    (hv : v ≠ []) (m : CWinMount) : processBody (readArg (flag ++ '=' :: v)) m = none := by
  have hlen : v.length ≠ 0 := by simpa using hv
  simp only [allFlags, plainFlags, List.cons_append, List.nil_append, List.mem_cons,
    List.mem_singleton, List.not_mem_nil, or_false] at hflag
  rcases hflag with h | h | h | h | h | h | h | h | h | h <;> subst h <;>
    simp [processBody, readArg, ProcessArgument, CCmdArguments.new, ArgumentIsOption,
      find_first_of, TestOption, OptionHasValue, hlen]

theorem runArgs_rejected (x : Str) (hx : ∀ m, processBody (readArg x) m = none)
    (pre post : List Str) : ∀ m : CWinMount, (runArgs (pre ++ x :: post) m).1 = false := by
  induction pre with
  | nil => intro m; simp [runArgs, hx]
  | cons y pre ih =>
    intro m
    simp only [List.cons_append, runArgs]
    cases processBody (readArg y) m with
    | none => rfl
    | some m1 => exact ih m1

/-- C9, as the code has it. For each of the flags `-h`, `--help`, `-p`,
`--persist`, `-i`, `--interactive`, `-u`, `--unmount`, `-r`, `--retry` and for
every value `v` that is not empty, an argument list containing the argument
`<flag>=v` makes `ProcessCommandLine` return false, whatever the other
arguments and the object it starts from. -/
theorem ProcessCommandLine_flag_with_value (m : CWinMount) (flag : Str)
    (hflag : flag ∈ allFlags) (v : Str) (hv : v ≠ []) (pre post : List Str) :
    ∃ m1 : CWinMount,
      ProcessCommandLine m (pre ++ (flag ++ '=' :: v) :: post) = some (false, m1) := by
  rw [ProcessCommandLine_eq_runArgs]
  have := runArgs_rejected _ (processBody_flag_with_value flag hflag v hv) pre post m
  exact ⟨(runArgs (pre ++ (flag ++ '=' :: v) :: post) m).2, by rw [← this]⟩

/-- The hypotheses of `ProcessCommandLine_flag_with_value` hold of the argument
list `-u --retry=3`, and so does its conclusion. -/
theorem ProcessCommandLine_flag_with_value_witness :
    (['-', '-'] ++ optRetry) ∈ allFlags ∧ ['3'] ≠ [] ∧
    ∃ m1 : CWinMount,
      ProcessCommandLine {} ([['-', 'u']] ++ ((['-', '-'] ++ optRetry) ++ '=' :: ['3']) :: []) =
        some (false, m1) :=
  ⟨by decide, by decide,
    ProcessCommandLine_flag_with_value {} _ (by decide) ['3'] (by decide) [['-', 'u']] []⟩

/-- C9 fails as stated. With the empty value, the argument `-p=` is taken as
`-p`: `ProcessCommandLine` returns true and sets `CONNECT_UPDATE_PROFILE`. -/
theorem ProcessCommandLine_flag_with_empty_value :
    ['-', 'p', '='] = ['-', 'p'] ++ '=' :: [] ∧
    ProcessCommandLine {} [['-', 'p', '=']] =
      some (true, { m_dwConnectFlags := CONNECT_UPDATE_PROFILE }) := by
  decide

/-! ## The configuration file -/

theorem find_single_some {str : Str} {d : Char} {i : Nat} (h : find str [d] = some i) :
    str = str.take i ++ d :: str.drop (i + 1) ∧ d ∉ str.take i := by
  induction str generalizing i with
  | nil => simp [find, List.isPrefixOf] at h
  | cons x xs ih =>
    by_cases hx : d = x
    · subst hx
      simp [find, List.isPrefixOf] at h
      subst h
      simp
    · have hbeq : (d == x) = false := by simpa using hx
      simp only [find, List.isPrefixOf, hbeq, Bool.false_and, Bool.false_eq_true, if_false,
        Option.map_eq_some'] at h
      obtain ⟨k, hk, rfl⟩ := h
      obtain ⟨h1, h2⟩ := ih hk
      refine ⟨?_, ?_⟩
      · simp only [List.take_succ_cons, List.drop_succ_cons, List.cons_append]
        rw [← h1]
      · simp only [List.take_succ_cons, List.mem_cons, not_or]
        exact ⟨hx, h2⟩

/-- What the test of WinMount.cpp 235 lets through: a local name of two
characters, the first of them not a space and the second a colon, one space,
and a remote name of 3 to `MAX_PATH` characters that starts with two
backslashes. -/
theorem lineInvalid_false {strLine : Str}
    (h : lineInvalid (Split strLine [' '] [] []) = false) :
    ∃ (c : Char) (remote : Str), strLine = [c, ':', ' '] ++ remote ∧ c ≠ ' ' ∧
      Split strLine [' '] [] [] = (true, [c, ':'], remote) ∧
      3 ≤ remote.length ∧ remote.length ≤ MAX_PATH ∧
      remote.take 2 = [chBackslash, chBackslash] := by
  cases hf : find strLine [' '] with
  | none => simp [lineInvalid, Split, hf] at h
  | some i =>
    obtain ⟨hsplit, hnot⟩ := find_single_some hf
    simp only [lineInvalid, Split, hf, Bool.or_eq_false_iff, Bool.not_eq_false',
      decide_eq_false_iff_not, not_not, not_lt] at h
    obtain ⟨⟨⟨⟨⟨-, hlen⟩, hcolon⟩, h3⟩, htake⟩, hmax⟩ := h
    match hl : strLine.take i, hlen with
    | [c, c2], _ =>
      rw [hl] at hcolon hnot
      simp only [List.get?_cons_succ, List.get?_cons_zero, Option.some.injEq] at hcolon
      subst hcolon
      refine ⟨c, strLine.drop (i + 1), ?_, ?_, ?_, by omega, by omega, htake⟩
      · rw [hl] at hsplit
        exact hsplit
      · intro hc
        subst hc
        simp at hnot
      · simp only [Split, hf, hl]

theorem ProcessIniFileLoop_accepted (reads : List (Option Str)) :
    ∀ m m1 : CWinMount, ProcessIniFileLoop reads m = (true, m1) →
      ∀ strLine : Str, some strLine ∈ reads → strLine ≠ [] → strLine.head? ≠ some ';' →
        lineInvalid (Split strLine [' '] [] []) = false := by
  induction reads with
  | nil => intro m m1 _ strLine hmem; simp at hmem
  | cons r rest ih =>
    intro m m1 h strLine hmem hne hc
    cases r with
    | none => simp [ProcessIniFileLoop] at h
    | some l =>
      simp only [ProcessIniFileLoop] at h
      simp only [List.mem_cons, Option.some.injEq] at hmem
      split at h
      · split at h
        · simp at h
        · rename_i hvalid
          rcases hmem with rfl | hmem
          · simpa using hvalid
          · exact ih _ _ h strLine hmem hne hc
      · rename_i hskip
        rcases hmem with rfl | hmem
        · exfalso
          apply hskip
          have : strLine.length ≠ 0 := by simpa using hne
          exact ⟨this, hc, this⟩
        · exact ih _ _ h strLine hmem hne hc

/-- C6, as the code has it. Every line that is not empty, does not start with
`;` and does not make `ProcessIniFile` fail consists of one character other
than a space, a colon, a single space and a remote name of 3 to `MAX_PATH`
characters that starts with two backslashes. -/
theorem ProcessIniFile_accepted_line (reads : List (Option Str)) (m m1 : CWinMount)
    (h : ProcessIniFile (some reads) m = (true, m1)) (strLine : Str)
    (hmem : some strLine ∈ reads) (hne : strLine ≠ []) (hc : strLine.head? ≠ some ';') :
    ∃ (c : Char) (remote : Str), strLine = [c, ':', ' '] ++ remote ∧ c ≠ ' ' ∧
      3 ≤ remote.length ∧ remote.length ≤ MAX_PATH ∧
      remote.take 2 = [chBackslash, chBackslash] := by
  obtain ⟨c, remote, h1, h2, -, h3, h4, h5⟩ :=
    lineInvalid_false (ProcessIniFileLoop_accepted reads _ m1 h strLine hmem hne hc)
  exact ⟨c, remote, h1, h2, h3, h4, h5⟩

/-- The hypotheses of `ProcessIniFile_accepted_line` hold of the file with the
comment `;x` and the line `X: \\s\t`, and so does its conclusion. -/
theorem ProcessIniFile_accepted_line_witness :
    ProcessIniFile
        (some [some [';', 'x'],
          some ['X', ':', ' ', chBackslash, chBackslash, 's', chBackslash, 't']]) {} =
      (true, { m_strIniFile := defaultIniFile, m_vecNetShares := [shareX] }) ∧
    some ['X', ':', ' ', chBackslash, chBackslash, 's', chBackslash, 't'] ∈
      [some [';', 'x'], some ['X', ':', ' ', chBackslash, chBackslash, 's', chBackslash, 't']] ∧
    ['X', ':', ' ', chBackslash, chBackslash, 's', chBackslash, 't'] ≠ [] ∧
    (['X', ':', ' ', chBackslash, chBackslash, 's', chBackslash, 't'] : Str).head? ≠ some ';' ∧
    ∃ (c : Char) (remote : Str),
      ['X', ':', ' ', chBackslash, chBackslash, 's', chBackslash, 't'] =
        [c, ':', ' '] ++ remote ∧ c ≠ ' ' ∧
      3 ≤ remote.length ∧ remote.length ≤ MAX_PATH ∧
      remote.take 2 = [chBackslash, chBackslash] :=
  ⟨by decide, by decide, by decide, by decide,
    ProcessIniFile_accepted_line
      [some [';', 'x'], some ['X', ':', ' ', chBackslash, chBackslash, 's', chBackslash, 't']] {}
      { m_strIniFile := defaultIniFile, m_vecNetShares := [shareX] }
      (by decide) ['X', ':', ' ', chBackslash, chBackslash, 's', chBackslash, 't'] (by decide)
      (by decide) (by decide)⟩

/-- C6 fails as stated. The line `1: \\x` is not empty, does not start with
`;` and is accepted by `ProcessIniFile` as the mapping of `1:` to `\\x`, and it
is not of the form `<DriveLetter>: \\<Server>\<Share>`. -/
theorem ProcessIniFile_accepts_malformed_line :
    ProcessIniFile (some [some ['1', ':', ' ', chBackslash, chBackslash, 'x']]) {} =
      (true, { m_strIniFile := defaultIniFile,
               m_vecNetShares := [CNetShare.new ['1', ':'] [chBackslash, chBackslash, 'x']] }) ∧
    ¬ IsMappingLine ['1', ':', ' ', chBackslash, chBackslash, 'x'] := by
  refine ⟨by decide, ?_⟩
  rintro ⟨letter, remote, halpha, -, hline⟩
  simp only [List.cons_append, List.nil_append, List.cons.injEq] at hline
  obtain ⟨rfl, -⟩ := hline
  exact absurd halpha (by decide)

theorem isAlpha_ne {letter : Char} (h : letter.isAlpha = true) :
    letter ≠ ' ' ∧ letter ≠ ';' := by
  constructor <;> (intro hc; subst hc; exact absurd h (by decide))

theorem IsUncName.length_ge {remote : Str} (h : IsUncName remote) :
    3 ≤ remote.length ∧ remote.take 2 = [chBackslash, chBackslash] := by
  obtain ⟨server, share, hs, -, rfl⟩ := h
  cases server with
  | nil => exact absurd rfl hs
  | cons a server => simp

theorem ProcessIniFileLoop_mapping (letter : Char) (remote : Str) (rest : List (Option Str))
    (m : CWinMount) (halpha : letter.isAlpha = true) (hunc : IsUncName remote)
    (hmax : remote.length ≤ MAX_PATH) :
    ProcessIniFileLoop (some ([letter, ':', ' '] ++ remote) :: rest) m =
      ProcessIniFileLoop rest
        { m with m_vecNetShares := m.m_vecNetShares ++
            [shareOfLine ([letter, ':', ' '] ++ remote)] } := by
  obtain ⟨hsp, hsemi⟩ := isAlpha_ne halpha
  obtain ⟨h3, htake⟩ := hunc.length_ge
  have hb1 : (' ' == letter) = false := by simpa using fun h => hsp h.symm
  have hsplit : Split ([letter, ':', ' '] ++ remote) [' '] [] [] = (true, [letter, ':'], remote) := by
    simp [Split, find, List.isPrefixOf, hb1]
  have hvalid : lineInvalid (true, [letter, ':'], remote) = false := by
    simp only [lineInvalid, htake]
    simp
    omega
  have hshare : shareOfLine ([letter, ':', ' '] ++ remote) =
      CNetShare.new [letter, ':'] remote := by
    simp [shareOfLine, afterFirstSpace, CNetShare.new, List.dropWhile, hsp]
  simp only [ProcessIniFileLoop, hsplit, hvalid, hshare]
  simp [hsemi]

theorem ProcessIniFileLoop_well_formed (lines : List Str) :
    ∀ m : CWinMount, (∀ line ∈ lines, IsConfigLine line) →
      ProcessIniFileLoop (lines.map some) m =
        (true, { m with m_vecNetShares :=
          m.m_vecNetShares ++ (mappingLines lines).map shareOfLine }) := by
  induction lines with
  | nil => intro m _; simp [ProcessIniFileLoop, mappingLines]
  | cons line rest ih =>
    intro m h
    have hrest : ∀ l ∈ rest, IsConfigLine l := fun l hl => h l (List.mem_cons_of_mem _ hl)
    rcases h line (List.mem_cons_self _ _) with hempty | hcomment | ⟨letter, remote, ha, hu, hm, rfl⟩
    · subst hempty
      simp [ProcessIniFileLoop, mappingLines, List.filter_cons, ih m hrest]
    · have : mappingLines (line :: rest) = mappingLines rest := by
        simp [mappingLines, List.filter_cons, hcomment]
      simp [ProcessIniFileLoop, hcomment, this, ih m hrest]
    · have : mappingLines (([letter, ':', ' '] ++ remote) :: rest) =
          ([letter, ':', ' '] ++ remote) :: mappingLines rest := by
        simp [mappingLines, List.filter_cons, (isAlpha_ne ha).2]
      rw [List.map_cons, ProcessIniFileLoop_mapping letter remote _ m ha hu hm, ih _ hrest, this]
      simp

/-- C7. For every configuration file, taken as its list of lines, in which each
line is empty, a comment starting with `;`, or a well-formed mapping
`X: \\server\share` with a remote name of at most `MAX_PATH` characters,
`ProcessIniFile` returns true, and the share list it leaves is the one it
started with (empty for a fresh object) followed, in file order, by one
unmapped share per mapping line, whose local name is `X:` and whose remote name
is everything after the first space of the line. -/
theorem ProcessIniFile_well_formed (lines : List Str) (m : CWinMount)
    (h : ∀ line ∈ lines, IsConfigLine line) :
    (ProcessIniFile (some (lines.map some)) m).1 = true ∧
    (ProcessIniFile (some (lines.map some)) m).2.m_vecNetShares =
      m.m_vecNetShares ++ (mappingLines lines).map shareOfLine := by
  simp only [ProcessIniFile, ProcessIniFileLoop_well_formed lines _ h]
  split <;> simp

/-- The hypothesis of `ProcessIniFile_well_formed` holds of the file with the
lines `;c`, the empty line and `X: \\s\t u`, and so does its conclusion. -/
theorem ProcessIniFile_well_formed_witness :
    (∀ line ∈ [[';', 'c'], [],
        ['X', ':', ' ', chBackslash, chBackslash, 's', chBackslash, 't', ' ', 'u']],
      IsConfigLine line) ∧
    (ProcessIniFile (some ([[';', 'c'], [],
        ['X', ':', ' ', chBackslash, chBackslash, 's', chBackslash, 't', ' ', 'u']].map some))
      {}).1 = true ∧
    (ProcessIniFile (some ([[';', 'c'], [],
        ['X', ':', ' ', chBackslash, chBackslash, 's', chBackslash, 't', ' ', 'u']].map some))
      {}).2.m_vecNetShares =
      ({} : CWinMount).m_vecNetShares ++ (mappingLines [[';', 'c'], [],
        ['X', ':', ' ', chBackslash, chBackslash, 's', chBackslash, 't', ' ', 'u']]).map
          shareOfLine :=
  have hlines : ∀ line ∈ [[';', 'c'], [],
      ['X', ':', ' ', chBackslash, chBackslash, 's', chBackslash, 't', ' ', 'u']],
      IsConfigLine line := by
    intro line hline
    simp only [List.mem_cons, List.mem_singleton, List.not_mem_nil, or_false] at hline
    rcases hline with rfl | rfl | rfl
    · exact Or.inr (Or.inl rfl)
    · exact Or.inl rfl
    · exact Or.inr (Or.inr ⟨'X', [chBackslash, chBackslash, 's', chBackslash, 't', ' ', 'u'],
        by decide, ⟨['s'], ['t', ' ', 'u'], by decide, by decide, rfl⟩, by decide, rfl⟩)
  ⟨hlines, ProcessIniFile_well_formed _ {} hlines⟩

/-! ## The log of a run -/

theorem interactiveLoop_log (env : Env) (m : CWinMount) (iRetryCount idx : Nat)
    (netShare : CNetShare) :
    ∀ (fuel : Nat) (w : World), ∃ evs : List Event,
      (interactiveLoop env m iRetryCount idx netShare fuel w).2 =
        { w with log := w.log ++ evs } ∧
      (∀ e ∈ evs, e.site = Site.interactive ∧ e.share = idx ∧ e.iRetryCount = iRetryCount) ∧
      interactiveTotal evs ≤ 1 ∧ (0 < fuel → evs ≠ []) := by
  intro fuel
  induction fuel with
  | zero =>
    intro w
    exact ⟨[], by simp [interactiveLoop], by simp, by simp [interactiveTotal], by simp⟩
  | succ fuel ih =>
    intro w
    have hev : ∃ ev : Event, ev = ⟨iRetryCount, idx, Site.interactive,
        Call.WNetAddConnection2 netShare.GetLocalName netShare.GetRemoteName
          (CONNECT_INTERACTIVE ||| CONNECT_PROMPT ||| m.m_dwConnectFlags),
        env.wnet w.log.length⟩ := ⟨_, rfl⟩
    obtain ⟨ev, hevdef⟩ := hev
    simp only [interactiveLoop, osCall, ← hevdef]
    have hsite : ev.site = Site.interactive ∧ ev.share = idx ∧ ev.iRetryCount = iRetryCount := by
      subst hevdef; exact ⟨rfl, rfl, rfl⟩
    have hres : ev.result = env.wnet w.log.length := by subst hevdef; rfl
    split
    · rename_i hnet
      obtain ⟨evs, h1, h2, h3, -⟩ := ih { w with log := w.log ++ [ev] }
      refine ⟨ev :: evs, ?_, ?_, ?_, by simp⟩
      · rw [h1]; simp
      · intro e he
        rcases List.mem_cons.mp he with rfl | he
        · exact hsite
        · exact h2 e he
      · have : isNetworkError ev.result = true := by
          rw [hres]; simpa [isNetworkError] using hnet
        simpa [interactiveTotal, List.countP_cons, Event.isLastInteractive, this] using h3
    · refine ⟨[ev], rfl, ?_, ?_, by simp⟩
      · intro e he
        rw [List.mem_singleton] at he
        subst he
        exact hsite
      · simp only [interactiveTotal, List.countP_cons, List.countP_nil]
        split <;> omega

theorem silentTotal_append (a b : List Event) :
    silentTotal (a ++ b) = silentTotal a + silentTotal b := by
  simp [silentTotal]

theorem interactiveTotal_append (a b : List Event) :
    interactiveTotal (a ++ b) = interactiveTotal a + interactiveTotal b := by
  simp [interactiveTotal]

theorem silentTotal_eq_zero {evs : List Event} (h : ∀ e ∈ evs, e.site ≠ Site.silent) :
    silentTotal evs = 0 := by
  simp only [silentTotal, List.countP_eq_zero, Event.isSilent, decide_eq_true_eq]
  exact h

theorem interactiveTotal_eq_zero {evs : List Event} (h : ∀ e ∈ evs, e.site ≠ Site.interactive) :
    interactiveTotal evs = 0 := by
  simp only [interactiveTotal, List.countP_eq_zero, Event.isLastInteractive, Bool.and_eq_true,
    decide_eq_true_eq, not_and]
  intro e he hsite
  exact absurd hsite (h e he)

theorem tryInteractive_log (env : Env) (m : CWinMount) (iRetryCount idx fuel : Nat)
    (b : Bool) (netShare : CNetShare) (w : World) :
    ∃ evs : List Event,
      (tryInteractive env m iRetryCount idx fuel b netShare w).2.2 =
        { w with log := w.log ++ evs } ∧
      (∀ e ∈ evs, e.site = Site.interactive ∧ e.share = idx ∧ e.iRetryCount = iRetryCount) ∧
      interactiveTotal evs ≤ 1 ∧
      (tryInteractive env m iRetryCount idx fuel b netShare w).2.1 = netShare := by
  obtain ⟨evs, h1, h2, h3, -⟩ := interactiveLoop_log env m iRetryCount idx netShare fuel w
  simp only [tryInteractive]
  split
  · split
    · rename_i heq
      rw [heq] at h1
      exact ⟨evs, h1, h2, h3, rfl⟩
    · rename_i heq
      rw [heq] at h1
      split <;> exact ⟨evs, h1, h2, h3, rfl⟩
  · exact ⟨[], by simp, by simp, by simp [interactiveTotal], rfl⟩

theorem osCall_spec (env : Env) (w : World) (iRetryCount idx : Nat) (site : Site)
    (call : Call) :
    ∃ ev : Event, ev.site = site ∧ ev.share = idx ∧ ev.iRetryCount = iRetryCount ∧
      ev.call = call ∧ ev.result = env.wnet w.log.length ∧
      osCall env w iRetryCount idx site call = (ev.result, { w with log := w.log ++ [ev] }) :=
  ⟨⟨iRetryCount, idx, site, call, env.wnet w.log.length⟩, rfl, rfl, rfl, rfl, rfl, rfl⟩

theorem silentTotal_singleton_le (ev : Event) : silentTotal [ev] ≤ 1 := by
  simp only [silentTotal, List.countP_cons, List.countP_nil]
  split <;> omega

theorem connectShare_log (env : Env) (m : CWinMount) (iRetryCount idx fuel : Nat)
    (netShare : CNetShare) (w : World) :
    ∃ evs : List Event,
      (connectShare env m iRetryCount idx fuel netShare w).2.2.log = w.log ++ evs ∧
      (∀ e ∈ evs, e.site ≠ Site.unmount ∧ e.share = idx ∧ e.iRetryCount = iRetryCount) ∧
      silentTotal evs ≤ 1 ∧ interactiveTotal evs ≤ 1 := by
  simp only [connectShare]
  split
  · split
    · exact ⟨[], by simp [escPressed], by simp, by simp [silentTotal], by simp [interactiveTotal]⟩
    · obtain ⟨ev, hs, hi, hp, -, -, hc⟩ := osCall_spec env (escPressed env w).2 iRetryCount idx
        Site.silent (Call.WNetAddConnection2 netShare.GetLocalName netShare.GetRemoteName
          m.m_dwConnectFlags)
      rw [hc]
      have hmem : ∀ e ∈ [ev],
          e.site ≠ Site.unmount ∧ e.share = idx ∧ e.iRetryCount = iRetryCount := by
        intro e he
        rw [List.mem_singleton] at he
        subst he
        exact ⟨by rw [hs]; decide, hi, hp⟩
      have hz : interactiveTotal [ev] = 0 :=
        interactiveTotal_eq_zero (fun e he => by
          rw [List.mem_singleton] at he; subst he; rw [hs]; decide)
      have hone : silentTotal [ev] ≤ 1 := silentTotal_singleton_le ev
      simp only
      split
      · exact ⟨[ev], by simp [escPressed], hmem, hone, by omega⟩
      · split
        · exact ⟨[ev], by simp [escPressed], hmem, hone, by omega⟩
        · obtain ⟨evs, h1, h2, h3, -⟩ := tryInteractive_log env m iRetryCount idx fuel
            (decide (ev.result ≠ ERROR_LOGON_FAILURE ∧ ev.result ≠ ERROR_BAD_DEV_TYPE)) netShare
            { (escPressed env w).2 with log := (escPressed env w).2.log ++ [ev] }
          refine ⟨ev :: evs, ?_, ?_, ?_, ?_⟩
          · rw [h1]; simp [escPressed]
          · intro e he
            rcases List.mem_cons.mp he with rfl | he
            · exact hmem _ (List.mem_singleton_self _)
            · obtain ⟨hs, hi, hp⟩ := h2 e he
              exact ⟨by rw [hs]; decide, hi, hp⟩
          · have hz : silentTotal evs = 0 :=
              silentTotal_eq_zero (fun e he => by rw [(h2 e he).1]; decide)
            have := silentTotal_append [ev] evs
            simp only [List.singleton_append] at this
            omega
          · have := interactiveTotal_append [ev] evs
            simp only [List.singleton_append] at this
            omega
  · obtain ⟨evs, h1, h2, h3, -⟩ :=
      tryInteractive_log env m iRetryCount idx fuel false netShare w
    refine ⟨evs, by rw [h1], ?_, ?_, h3⟩
    · intro e he
      obtain ⟨hs, hi, hp⟩ := h2 e he
      exact ⟨by rw [hs]; decide, hi, hp⟩
    · exact le_of_eq_of_le
        (silentTotal_eq_zero (fun e he => by rw [(h2 e he).1]; decide)) (Nat.zero_le _)

theorem mapShare_log (env : Env) (m : CWinMount) (iRetryCount idx fuel : Nat)
    (netShare : CNetShare) (w : World) :
    ∃ evs : List Event,
      (mapShare env m iRetryCount idx fuel netShare w).2.2.log = w.log ++ evs ∧
      (∀ e ∈ evs, e.share = idx ∧ e.iRetryCount = iRetryCount) ∧
      silentTotal evs ≤ 1 ∧ interactiveTotal evs ≤ 1 := by
  have hnil : ∃ evs : List Event, w.log = w.log ++ evs ∧
      (∀ e ∈ evs, e.share = idx ∧ e.iRetryCount = iRetryCount) ∧
      silentTotal evs ≤ 1 ∧ interactiveTotal evs ≤ 1 :=
    ⟨[], by simp, by simp, by simp [silentTotal], by simp [interactiveTotal]⟩
  simp only [mapShare]
  split
  · split
    · split
      · simpa [escPressed] using hnil
      · obtain ⟨ev, hs, hi, hp, -, -, hc⟩ := osCall_spec env (escPressed env w).2 iRetryCount idx
          Site.unmount (Call.WNetCancelConnection2 netShare.GetLocalName)
        rw [hc]
        have hmem : ∀ e ∈ [ev], e.share = idx ∧ e.iRetryCount = iRetryCount := by
          intro e he
          rw [List.mem_singleton] at he
          subst he
          exact ⟨hi, hp⟩
        have hz1 : silentTotal [ev] = 0 :=
          silentTotal_eq_zero (fun e he => by
            rw [List.mem_singleton] at he; subst he; rw [hs]; decide)
        have hz2 : interactiveTotal [ev] = 0 :=
          interactiveTotal_eq_zero (fun e he => by
            rw [List.mem_singleton] at he; subst he; rw [hs]; decide)
        simp only
        split
        · exact ⟨[ev], by simp [escPressed], hmem, by omega, by omega⟩
        · obtain ⟨evs, h1, h2, h3, h4⟩ := connectShare_log env m iRetryCount idx fuel netShare
            { (escPressed env w).2 with log := (escPressed env w).2.log ++ [ev] }
          refine ⟨ev :: evs, ?_, ?_, ?_, ?_⟩
          · rw [h1]; simp [escPressed]
          · intro e he
            rcases List.mem_cons.mp he with rfl | he
            · exact hmem _ (List.mem_singleton_self _)
            · exact (h2 e he).2
          · have := silentTotal_append [ev] evs
            simp only [List.singleton_append] at this
            omega
          · have := interactiveTotal_append [ev] evs
            simp only [List.singleton_append] at this
            omega
    · obtain ⟨evs, h1, h2, h3, h4⟩ := connectShare_log env m iRetryCount idx fuel netShare w
      exact ⟨evs, h1, fun e he => (h2 e he).2, h3, h4⟩
  · exact hnil

theorem silentAttempts_append (j : Nat) (a b : List Event) :
    silentAttempts j (a ++ b) = silentAttempts j a + silentAttempts j b := by
  simp [silentAttempts]

theorem interactiveRounds_append (j : Nat) (a b : List Event) :
    interactiveRounds j (a ++ b) = interactiveRounds j a + interactiveRounds j b := by
  simp [interactiveRounds]

theorem silentAttempts_le_total (j : Nat) (evs : List Event) :
    silentAttempts j evs ≤ silentTotal evs := by
  apply List.countP_mono_left
  intro e _ h
  simp only [Bool.and_eq_true] at h
  exact h.1

theorem interactiveRounds_le_total (j : Nat) (evs : List Event) :
    interactiveRounds j evs ≤ interactiveTotal evs := by
  apply List.countP_mono_left
  intro e _ h
  simp only [Bool.and_eq_true] at h
  exact h.1

theorem silentAttempts_eq_zero {j : Nat} {evs : List Event} (h : ∀ e ∈ evs, e.share ≠ j) :
    silentAttempts j evs = 0 := by
  simp only [silentAttempts, List.countP_eq_zero, Bool.and_eq_true, decide_eq_true_eq, not_and]
  intro e he _
  exact h e he

theorem interactiveRounds_eq_zero {j : Nat} {evs : List Event} (h : ∀ e ∈ evs, e.share ≠ j) :
    interactiveRounds j evs = 0 := by
  simp only [interactiveRounds, List.countP_eq_zero, Bool.and_eq_true, decide_eq_true_eq, not_and]
  intro e he _
  exact h e he

/-- What one pass over the shares adds to the log: calls for the shares of the
pass only, at most one silent attempt and at most one interactive attempt not
answered with a network error per share. -/
theorem mapShares_log (env : Env) (m : CWinMount) (iRetryCount fuel : Nat)
    (shares : List CNetShare) :
    ∀ (idx : Nat) (w : World), ∃ evs : List Event,
      (mapShares env m iRetryCount fuel idx shares w).2.2.log = w.log ++ evs ∧
      (mapShares env m iRetryCount fuel idx shares w).2.1.length = shares.length ∧
      (∀ e ∈ evs, idx ≤ e.share ∧ e.share < idx + shares.length ∧
        e.iRetryCount = iRetryCount) ∧
      silentTotal evs ≤ shares.length ∧ interactiveTotal evs ≤ shares.length ∧
      ∀ j, silentAttempts j evs ≤ 1 ∧ interactiveRounds j evs ≤ 1 := by
  induction shares with
  | nil =>
    intro idx w
    exact ⟨[], by simp [mapShares], by simp [mapShares], by simp, by simp [silentTotal],
      by simp [interactiveTotal], fun j => by simp [silentAttempts, interactiveRounds]⟩
  | cons netShare rest ih =>
    intro idx w
    obtain ⟨evs1, h1, h2, h3, h4⟩ := mapShare_log env m iRetryCount idx fuel netShare w
    have hhead : (∀ e ∈ evs1, idx ≤ e.share ∧ e.share < idx + (netShare :: rest).length ∧
        e.iRetryCount = iRetryCount) := by
      intro e he
      obtain ⟨hs, hp⟩ := h2 e he
      simp only [List.length_cons]
      omega
    have hper1 : ∀ j, silentAttempts j evs1 ≤ 1 ∧ interactiveRounds j evs1 ≤ 1 := fun j =>
      ⟨le_trans (silentAttempts_le_total j evs1) h3,
        le_trans (interactiveRounds_le_total j evs1) h4⟩
    simp only [mapShares]
    rcases hr : mapShare env m iRetryCount idx fuel netShare w with ⟨flow, netShare1, w1⟩
    rw [hr] at h1
    simp only at h1
    cases flow with
    | next =>
      simp only
      obtain ⟨evs2, g1, g2, g3, g4, g5, g6⟩ := ih (idx + 1) w1
      refine ⟨evs1 ++ evs2, ?_, ?_, ?_, ?_, ?_, ?_⟩
      · rw [g1, h1, List.append_assoc]
      · simp [g2]
      · intro e he
        rcases List.mem_append.mp he with he | he
        · exact hhead e he
        · obtain ⟨a, b, c⟩ := g3 e he
          simp only [List.length_cons]
          omega
      · rw [silentTotal_append]; simp only [List.length_cons]; omega
      · rw [interactiveTotal_append]; simp only [List.length_cons]; omega
      · intro j
        rw [silentAttempts_append, interactiveRounds_append]
        by_cases hj : j = idx
        · have hne : ∀ e ∈ evs2, e.share ≠ j := fun e he => by
            have := (g3 e he).1
            omega
          rw [silentAttempts_eq_zero hne, interactiveRounds_eq_zero hne]
          exact hper1 j
        · have hne : ∀ e ∈ evs1, e.share ≠ j := fun e he => by
            have := (h2 e he).1
            omega
          rw [silentAttempts_eq_zero hne, interactiveRounds_eq_zero hne]
          simpa using g6 j
    | ret b =>
      exact ⟨evs1, h1, by simp, hhead, by simp only [List.length_cons]; omega,
        by simp only [List.length_cons]; omega, hper1⟩
    | fuelOut =>
      exact ⟨evs1, h1, by simp, hhead, by simp only [List.length_cons]; omega,
        by simp only [List.length_cons]; omega, hper1⟩

/-- What the passes add to the log when `--retry` is not given: calls for the
shares of the list only, in passes below `RETRY_COUNT`, with at most one silent
attempt and one interactive attempt not answered with a network error per share
and pass. -/
theorem MapDrivesLoop_log (env : Env) (m : CWinMount) (hretry : m.m_bRetryForever = false) :
    ∀ (fuel iRetryCount : Nat) (shares : List CNetShare) (w : World), ∃ evs : List Event,
      (MapDrivesLoop env m fuel iRetryCount shares w).2.2.log = w.log ++ evs ∧
      (∀ e ∈ evs, e.share < shares.length ∧ iRetryCount ≤ e.iRetryCount ∧
        e.iRetryCount < RETRY_COUNT) ∧
      silentTotal evs ≤ (RETRY_COUNT - iRetryCount) * shares.length ∧
      interactiveTotal evs ≤ (RETRY_COUNT - iRetryCount) * shares.length ∧
      ∀ j, silentAttempts j evs ≤ RETRY_COUNT - iRetryCount ∧
        interactiveRounds j evs ≤ RETRY_COUNT - iRetryCount := by
  intro fuel
  induction fuel with
  | zero =>
    intro i shares w
    exact ⟨[], by simp [MapDrivesLoop], by simp, by simp [silentTotal],
      by simp [interactiveTotal], fun j => by simp [silentAttempts, interactiveRounds]⟩
  | succ fuel ih =>
    intro i shares w
    have hnil : ∃ evs : List Event, w.log = w.log ++ evs ∧
        (∀ e ∈ evs, e.share < shares.length ∧ i ≤ e.iRetryCount ∧
          e.iRetryCount < RETRY_COUNT) ∧
        silentTotal evs ≤ (RETRY_COUNT - i) * shares.length ∧
        interactiveTotal evs ≤ (RETRY_COUNT - i) * shares.length ∧
        ∀ j, silentAttempts j evs ≤ RETRY_COUNT - i ∧
          interactiveRounds j evs ≤ RETRY_COUNT - i :=
      ⟨[], by simp, by simp, by simp [silentTotal],
        by simp [interactiveTotal], fun j => by simp [silentAttempts, interactiveRounds]⟩
    simp only [MapDrivesLoop, hretry, Bool.false_eq_true, false_or]
    split
    · rename_i hlt
      obtain ⟨evs1, h1, h2, h3, h4, h5, h6⟩ := mapShares_log env m i fuel shares 0 w
      have hmul : (RETRY_COUNT - i) * shares.length =
          shares.length + (RETRY_COUNT - (i + 1)) * shares.length := by
        have : RETRY_COUNT - i = (RETRY_COUNT - (i + 1)) + 1 := by omega
        rw [this, Nat.add_mul, Nat.one_mul, Nat.add_comm]
      have hpass : ∀ e ∈ evs1, e.share < shares.length ∧ i ≤ e.iRetryCount ∧
          e.iRetryCount < RETRY_COUNT := by
        intro e he
        obtain ⟨-, a, b⟩ := h3 e he
        omega
      have hone : ∃ evs : List Event, w.log ++ evs1 = w.log ++ evs ∧
          (∀ e ∈ evs, e.share < shares.length ∧ i ≤ e.iRetryCount ∧
            e.iRetryCount < RETRY_COUNT) ∧
          silentTotal evs ≤ (RETRY_COUNT - i) * shares.length ∧
          interactiveTotal evs ≤ (RETRY_COUNT - i) * shares.length ∧
          ∀ j, silentAttempts j evs ≤ RETRY_COUNT - i ∧
            interactiveRounds j evs ≤ RETRY_COUNT - i :=
        ⟨evs1, rfl, hpass, by omega, by omega, fun j => by
          have := h6 j
          omega⟩
      rcases hr : mapShares env m i fuel 0 shares w with ⟨flow, shares1, w1⟩
      rw [hr] at h1 h2
      simp only at h1 h2
      cases flow with
      | next =>
        simp only
        split
        · simpa [h1] using hone
        · obtain ⟨evs2, g1, g2, g3, g4, g5⟩ := ih (i + 1) shares1 w1
          rw [h2] at g2 g3 g4
          refine ⟨evs1 ++ evs2, ?_, ?_, ?_, ?_, ?_⟩
          · rw [g1, h1, List.append_assoc]
          · intro e he
            rcases List.mem_append.mp he with he | he
            · exact hpass e he
            · obtain ⟨a, b, c⟩ := g2 e he
              omega
          · rw [silentTotal_append]; omega
          · rw [interactiveTotal_append]; omega
          · intro j
            rw [silentAttempts_append, interactiveRounds_append]
            have := h6 j
            have := g5 j
            omega
      | ret b => simpa [h1] using hone
      | fuelOut => simpa [h1] using hone
    · exact hnil

/-! ## Fuel -/

theorem interactiveLoop_mono (env : Env) (m : CWinMount) (iRetryCount idx : Nat)
    (netShare : CNetShare) :
    ∀ (fuel : Nat) (w : World),
      (interactiveLoop env m iRetryCount idx netShare fuel w).1 ≠ none →
      ∀ k, interactiveLoop env m iRetryCount idx netShare (fuel + k) w =
        interactiveLoop env m iRetryCount idx netShare fuel w := by
  intro fuel
  induction fuel with
  | zero => intro w h; simp [interactiveLoop] at h
  | succ fuel ih =>
    intro w h k
    have hk : fuel + 1 + k = (fuel + k) + 1 := by omega
    rw [hk]
    simp only [interactiveLoop] at h ⊢
    split
    · rename_i hnet
      rw [if_pos hnet] at h
      exact ih _ h k
    · rfl

theorem tryInteractive_mono (env : Env) (m : CWinMount) (iRetryCount idx fuel : Nat)
    (b : Bool) (netShare : CNetShare) (w : World)
    (h : (tryInteractive env m iRetryCount idx fuel b netShare w).1 ≠ Flow.fuelOut) (k : Nat) :
    tryInteractive env m iRetryCount idx (fuel + k) b netShare w =
      tryInteractive env m iRetryCount idx fuel b netShare w := by
  simp only [tryInteractive] at h ⊢
  split
  · rename_i hcond
    rw [if_pos hcond] at h
    have hsome : (interactiveLoop env m iRetryCount idx netShare fuel w).1 ≠ none := by
      intro hnone
      rcases hr : interactiveLoop env m iRetryCount idx netShare fuel w with ⟨r, w1⟩
      rw [hr] at hnone h
      simp only at hnone
      subst hnone
      exact h rfl
    rw [interactiveLoop_mono env m iRetryCount idx netShare fuel w hsome k]
  · rfl

theorem connectShare_mono (env : Env) (m : CWinMount) (iRetryCount idx fuel : Nat)
    (netShare : CNetShare) (w : World)
    (h : (connectShare env m iRetryCount idx fuel netShare w).1 ≠ Flow.fuelOut) (k : Nat) :
    connectShare env m iRetryCount idx (fuel + k) netShare w =
      connectShare env m iRetryCount idx fuel netShare w := by
  simp only [connectShare] at h ⊢
  split
  · rename_i h1
    rw [if_pos h1] at h
    split
    · rfl
    · rename_i h2
      rw [if_neg h2] at h
      split
      · rfl
      · rename_i h3
        rw [if_neg h3] at h
        split
        · rfl
        · rename_i h4
          rw [if_neg h4] at h
          exact tryInteractive_mono env m iRetryCount idx fuel _ netShare _ h k
  · rename_i h1
    rw [if_neg h1] at h
    exact tryInteractive_mono env m iRetryCount idx fuel _ netShare _ h k

theorem mapShare_mono (env : Env) (m : CWinMount) (iRetryCount idx fuel : Nat)
    (netShare : CNetShare) (w : World)
    (h : (mapShare env m iRetryCount idx fuel netShare w).1 ≠ Flow.fuelOut) (k : Nat) :
    mapShare env m iRetryCount idx (fuel + k) netShare w =
      mapShare env m iRetryCount idx fuel netShare w := by
  simp only [mapShare] at h ⊢
  split
  · rename_i h1
    rw [if_pos h1] at h
    split
    · rename_i h2
      rw [if_pos h2] at h
      split
      · rfl
      · rename_i h3
        rw [if_neg h3] at h
        split
        · rfl
        · rename_i h4
          rw [if_neg h4] at h
          exact connectShare_mono env m iRetryCount idx fuel netShare _ h k
    · rename_i h2
      rw [if_neg h2] at h
      exact connectShare_mono env m iRetryCount idx fuel netShare _ h k
  · rfl

theorem mapShares_mono (env : Env) (m : CWinMount) (iRetryCount fuel : Nat)
    (shares : List CNetShare) :
    ∀ (idx : Nat) (w : World),
      (mapShares env m iRetryCount fuel idx shares w).1 ≠ Flow.fuelOut →
      ∀ k, mapShares env m iRetryCount (fuel + k) idx shares w =
        mapShares env m iRetryCount fuel idx shares w := by
  induction shares with
  | nil => intro idx w _ k; rfl
  | cons netShare rest ih =>
    intro idx w h k
    simp only [mapShares] at h ⊢
    rcases hr : mapShare env m iRetryCount idx fuel netShare w with ⟨flow, netShare1, w1⟩
    rw [hr] at h
    have hflow : (mapShare env m iRetryCount idx fuel netShare w).1 ≠ Flow.fuelOut := by
      rw [hr]
      cases flow with
      | next => simp
      | ret b => simp
      | fuelOut => exact absurd rfl h
    rw [mapShare_mono env m iRetryCount idx fuel netShare w hflow k, hr]
    cases flow with
    | next =>
      simp only at h ⊢
      rw [ih (idx + 1) w1 h k]
    | ret b => rfl
    | fuelOut => rfl

theorem MapDrivesLoop_mono (env : Env) (m : CWinMount) :
    ∀ (fuel iRetryCount : Nat) (shares : List CNetShare) (w : World),
      (MapDrivesLoop env m fuel iRetryCount shares w).1 ≠ none →
      ∀ k, MapDrivesLoop env m (fuel + k) iRetryCount shares w =
        MapDrivesLoop env m fuel iRetryCount shares w := by
  intro fuel
  induction fuel with
  | zero => intro i shares w h; simp [MapDrivesLoop] at h
  | succ fuel ih =>
    intro i shares w h k
    have hk : fuel + 1 + k = (fuel + k) + 1 := by omega
    rw [hk]
    simp only [MapDrivesLoop] at h ⊢
    split
    · rename_i hcond
      rw [if_pos hcond] at h
      rcases hr : mapShares env m i fuel 0 shares w with ⟨flow, shares1, w1⟩
      rw [hr] at h
      have hflow : (mapShares env m i fuel 0 shares w).1 ≠ Flow.fuelOut := by
        rw [hr]
        cases flow with
        | next => simp
        | ret b => simp
        | fuelOut => exact absurd rfl h
      rw [mapShares_mono env m i fuel shares 0 w hflow k, hr]
      cases flow with
      | next =>
        simp only at h ⊢
        split
        · rfl
        · rename_i hall
          rw [if_neg hall] at h
          exact ih (i + 1) shares1 w1 h k
      | ret b => rfl
      | fuelOut => rfl
    · rfl

/-- Once `MapDrives` returns with some fuel, it returns the same with more. -/
theorem MapDrives_mono (env : Env) (m : CWinMount) (fuel : Nat) (w : World)
    (h : (MapDrives env fuel m w).1 ≠ none) (k : Nat) :
    MapDrives env (fuel + k) m w = MapDrives env fuel m w := by
  simp only [MapDrives] at h ⊢
  rw [MapDrivesLoop_mono env m fuel 0 m.m_vecNetShares w h k]

/-! ## Termination -/

theorem interactiveLoop_terminates (env : Env) (hnet : NetworkErrorsEnd env) (m : CWinMount)
    (iRetryCount idx : Nat) (netShare : CNetShare) (w : World) :
    ∃ fuel, (interactiveLoop env m iRetryCount idx netShare fuel w).1 ≠ none := by
  obtain ⟨k, hk, hgood⟩ := hnet w.log.length
  obtain ⟨d, hd⟩ : ∃ d, k = w.log.length + d := ⟨k - w.log.length, by omega⟩
  clear hk
  induction d generalizing w with
  | zero =>
    refine ⟨1, ?_⟩
    have hw : isNetworkError (env.wnet w.log.length) = false := by
      rw [hd] at hgood; exact hgood
    simp only [isNetworkError, Bool.or_eq_false_iff, decide_eq_false_iff_not] at hw
    simp [interactiveLoop, osCall, hw.1, hw.2]
  | succ d ih =>
    by_cases hw : isNetworkError (env.wnet w.log.length) = true
    · simp only [isNetworkError, Bool.or_eq_true, decide_eq_true_eq] at hw
      obtain ⟨fuel, hfuel⟩ := ih
        (osCall env w iRetryCount idx Site.interactive
          (Call.WNetAddConnection2 netShare.GetLocalName netShare.GetRemoteName
            (CONNECT_INTERACTIVE ||| CONNECT_PROMPT ||| m.m_dwConnectFlags))).2
        (by simp [osCall]; omega)
      refine ⟨fuel + 1, ?_⟩
      simp only [interactiveLoop]
      rw [if_pos (by simpa [osCall] using hw)]
      exact hfuel
    · refine ⟨1, ?_⟩
      simp only [isNetworkError, Bool.or_eq_true, decide_eq_true_eq, not_or] at hw
      simp [interactiveLoop, osCall, hw.1, hw.2]

theorem tryInteractive_terminates (env : Env) (hnet : NetworkErrorsEnd env) (m : CWinMount)
    (iRetryCount idx : Nat) (b : Bool) (netShare : CNetShare) (w : World) :
    ∃ fuel, (tryInteractive env m iRetryCount idx fuel b netShare w).1 ≠ Flow.fuelOut := by
  obtain ⟨fuel, hfuel⟩ := interactiveLoop_terminates env hnet m iRetryCount idx netShare w
  refine ⟨fuel, ?_⟩
  simp only [tryInteractive]
  split
  · rcases hr : interactiveLoop env m iRetryCount idx netShare fuel w with ⟨r, w1⟩
    rw [hr] at hfuel
    cases r with
    | none => exact absurd rfl hfuel
    | some r =>
      simp only
      split <;> simp
  · simp

theorem connectShare_terminates (env : Env) (hnet : NetworkErrorsEnd env) (m : CWinMount)
    (iRetryCount idx : Nat) (netShare : CNetShare) (w : World) :
    ∃ fuel, (connectShare env m iRetryCount idx fuel netShare w).1 ≠ Flow.fuelOut := by
  simp only [connectShare]
  split
  · split
    · exact ⟨0, by simp⟩
    · split
      · exact ⟨0, by simp⟩
      · split
        · exact ⟨0, by simp⟩
        · exact tryInteractive_terminates env hnet m iRetryCount idx _ netShare _
  · exact tryInteractive_terminates env hnet m iRetryCount idx _ netShare _

theorem mapShare_terminates (env : Env) (hnet : NetworkErrorsEnd env) (m : CWinMount)
    (iRetryCount idx : Nat) (netShare : CNetShare) (w : World) :
    ∃ fuel, (mapShare env m iRetryCount idx fuel netShare w).1 ≠ Flow.fuelOut := by
  simp only [mapShare]
  split
  · split
    · split
      · exact ⟨0, by simp⟩
      · split
        · exact ⟨0, by simp⟩
        · exact connectShare_terminates env hnet m iRetryCount idx netShare _
    · exact connectShare_terminates env hnet m iRetryCount idx netShare _
  · exact ⟨0, by simp⟩

theorem mapShares_terminates (env : Env) (hnet : NetworkErrorsEnd env) (m : CWinMount)
    (iRetryCount : Nat) (shares : List CNetShare) :
    ∀ (idx : Nat) (w : World),
      ∃ fuel, (mapShares env m iRetryCount fuel idx shares w).1 ≠ Flow.fuelOut := by
  induction shares with
  | nil => intro idx w; exact ⟨0, by simp [mapShares]⟩
  | cons netShare rest ih =>
    intro idx w
    obtain ⟨f1, hf1⟩ := mapShare_terminates env hnet m iRetryCount idx netShare w
    rcases hr : mapShare env m iRetryCount idx f1 netShare w with ⟨flow, netShare1, w1⟩
    cases flow with
    | next =>
      obtain ⟨f2, hf2⟩ := ih (idx + 1) w1
      refine ⟨f1 + f2, ?_⟩
      simp only [mapShares]
      rw [mapShare_mono env m iRetryCount idx f1 netShare w hf1 f2, hr]
      simp only
      rw [Nat.add_comm f1 f2, mapShares_mono env m iRetryCount f2 rest (idx + 1) w1 hf2 f1]
      exact hf2
    | ret b =>
      refine ⟨f1, ?_⟩
      simp only [mapShares, hr]
      simp
    | fuelOut =>
      rw [hr] at hf1
      exact absurd rfl hf1

theorem MapDrivesLoop_terminates (env : Env) (hnet : NetworkErrorsEnd env) (m : CWinMount)
    (hretry : m.m_bRetryForever = false) :
    ∀ (d iRetryCount : Nat) (shares : List CNetShare) (w : World),
      RETRY_COUNT - iRetryCount = d →
      ∃ fuel, (MapDrivesLoop env m fuel iRetryCount shares w).1 ≠ none := by
  intro d
  induction d with
  | zero =>
    intro i shares w hd
    refine ⟨1, ?_⟩
    have : ¬ i < RETRY_COUNT := by omega
    simp [MapDrivesLoop, hretry, this]
  | succ d ih =>
    intro i shares w hd
    have hlt : i < RETRY_COUNT := by omega
    obtain ⟨f1, hf1⟩ := mapShares_terminates env hnet m i shares 0 w
    rcases hr : mapShares env m i f1 0 shares w with ⟨flow, shares1, w1⟩
    cases flow with
    | next =>
      by_cases hall : AllDrivesMapped shares1 = true
      · refine ⟨f1 + 1, ?_⟩
        simp [MapDrivesLoop, hlt, hr, hall]
      · obtain ⟨f2, hf2⟩ := ih (i + 1) shares1 w1 (by omega)
        refine ⟨f1 + f2 + 1, ?_⟩
        simp only [MapDrivesLoop]
        rw [if_pos (Or.inr hlt), mapShares_mono env m i f1 shares 0 w hf1 f2, hr]
        simp only
        rw [if_neg hall, Nat.add_comm f1 f2, MapDrivesLoop_mono env m f2 (i + 1) shares1 w1 hf2 f1]
        exact hf2
    | ret b =>
      refine ⟨f1 + 1, ?_⟩
      simp [MapDrivesLoop, hlt, hr]
    | fuelOut =>
      rw [hr] at hf1
      exact absurd rfl hf1

/-! ## The bound on the retries -/

/-- C3, as the code has it. When `--retry` is not given, for every share list
and every sequence of result codes: whatever the fuel, that is, at every point
of the run, the calls logged are made in passes below `RETRY_COUNT` for shares
of the list, and they hold at most `RETRY_COUNT` silent attempts per share and
at most `RETRY_COUNT` interactive attempts per share that were not answered with
a network error, hence at most `RETRY_COUNT` times the number of shares of each
in all; and `MapDrives` terminates when the system does not answer with network
errors for ever. An interactive attempt answered with a network error is made
again at once, without a bound. -/
theorem MapDrives_retry_bounded (env : Env) (m : CWinMount) (w : World)
    (hretry : m.m_bRetryForever = false) :
    (∀ fuel, ∃ evs : List Event,
      (MapDrives env fuel m w).2.2.log = w.log ++ evs ∧
      (∀ e ∈ evs, e.share < m.m_vecNetShares.length ∧ e.iRetryCount < RETRY_COUNT) ∧
      silentTotal evs ≤ RETRY_COUNT * m.m_vecNetShares.length ∧
      interactiveTotal evs ≤ RETRY_COUNT * m.m_vecNetShares.length ∧
      ∀ idx, silentAttempts idx evs ≤ RETRY_COUNT ∧ interactiveRounds idx evs ≤ RETRY_COUNT) ∧
    (NetworkErrorsEnd env →
      ∃ (fuel : Nat) (b : Bool), ∀ k, (MapDrives env (fuel + k) m w).1 = some b) := by
  constructor
  · intro fuel
    obtain ⟨evs, h1, h2, h3, h4, h5⟩ := MapDrivesLoop_log env m hretry fuel 0 m.m_vecNetShares w
    exact ⟨evs, h1, fun e he => ⟨(h2 e he).1, (h2 e he).2.2⟩, h3, h4, h5⟩
  · intro hnet
    obtain ⟨fuel, hfuel⟩ :=
      MapDrivesLoop_terminates env hnet m hretry _ 0 m.m_vecNetShares w rfl
    have hne : (MapDrives env fuel m w).1 ≠ none := hfuel
    obtain ⟨b, hb⟩ := Option.ne_none_iff_exists'.mp hne
    exact ⟨fuel, b, fun k => by rw [MapDrives_mono env m fuel w hne k, hb]⟩

/-- The hypothesis of `MapDrives_retry_bounded` holds of the run on the share
`X: \\s\t` in which every call returns `ERROR_BAD_DEV_TYPE`, an environment that
does not answer with network errors for ever, and so does its conclusion. -/
theorem MapDrives_retry_bounded_witness :
    ({ m_vecNetShares := [shareX] } : CWinMount).m_bRetryForever = false ∧
    NetworkErrorsEnd (envConst ERROR_BAD_DEV_TYPE) ∧
    ((∀ fuel, ∃ evs : List Event,
      (MapDrives (envConst ERROR_BAD_DEV_TYPE) fuel { m_vecNetShares := [shareX] } {}).2.2.log =
        ({} : World).log ++ evs ∧
      (∀ e ∈ evs,
        e.share < ({ m_vecNetShares := [shareX] } : CWinMount).m_vecNetShares.length ∧
        e.iRetryCount < RETRY_COUNT) ∧
      silentTotal evs ≤
        RETRY_COUNT * ({ m_vecNetShares := [shareX] } : CWinMount).m_vecNetShares.length ∧
      interactiveTotal evs ≤
        RETRY_COUNT * ({ m_vecNetShares := [shareX] } : CWinMount).m_vecNetShares.length ∧
      ∀ idx, silentAttempts idx evs ≤ RETRY_COUNT ∧ interactiveRounds idx evs ≤ RETRY_COUNT) ∧
    (NetworkErrorsEnd (envConst ERROR_BAD_DEV_TYPE) →
      ∃ (fuel : Nat) (b : Bool), ∀ k,
        (MapDrives (envConst ERROR_BAD_DEV_TYPE) (fuel + k)
          { m_vecNetShares := [shareX] } {}).1 = some b)) :=
  ⟨rfl, fun n => ⟨n, Nat.le_refl n, by simp [envConst, isNetworkError]⟩,
    MapDrives_retry_bounded (envConst ERROR_BAD_DEV_TYPE) { m_vecNetShares := [shareX] } {} rfl⟩

theorem envConst_wnet (r : DWORD) (n : Nat) : (envConst r).wnet n = r := rfl

theorem envConst_key (r : DWORD) (n : Nat) : (envConst r).key n = none := rfl

theorem interactiveLoop_network_down (m : CWinMount) (iRetryCount idx : Nat)
    (netShare : CNetShare) :
    ∀ (fuel : Nat) (w : World),
      (interactiveLoop (envConst ERROR_NETWORK_UNREACHABLE) m iRetryCount idx netShare fuel w).1 =
        none ∧
      (interactiveLoop (envConst ERROR_NETWORK_UNREACHABLE) m iRetryCount idx netShare
        fuel w).2.log.length = w.log.length + fuel := by
  intro fuel
  induction fuel with
  | zero => intro w; simp [interactiveLoop]
  | succ fuel ih =>
    intro w
    simp only [interactiveLoop, osCall, envConst_wnet, true_or, if_true]
    obtain ⟨h1, h2⟩ := ih { w with log := w.log ++
      [⟨iRetryCount, idx, Site.interactive,
        Call.WNetAddConnection2 netShare.GetLocalName netShare.GetRemoteName
          (CONNECT_INTERACTIVE ||| CONNECT_PROMPT ||| m.m_dwConnectFlags),
        ERROR_NETWORK_UNREACHABLE⟩] }
    refine ⟨h1, ?_⟩
    rw [h2]
    simp only [List.length_append, List.length_singleton]
    omega

/-- C3 fails as stated. Without `--retry` and without `-i`, on the share
`X: \\s\t` and with every call returning `ERROR_NETWORK_UNREACHABLE`, `MapDrives`
never returns, whatever the fuel, and the number of calls it makes grows with
the fuel beyond every bound. -/
theorem MapDrives_network_down_never_returns :
    ({ m_vecNetShares := [shareX] } : CWinMount).m_bRetryForever = false ∧
    (¬ ∃ fuel, (MapDrives (envConst ERROR_NETWORK_UNREACHABLE) fuel
      { m_vecNetShares := [shareX] } {}).1 ≠ none) ∧
    (∀ n, ∃ fuel, n ≤ (MapDrives (envConst ERROR_NETWORK_UNREACHABLE) fuel
      { m_vecNetShares := [shareX] } {}).2.2.log.length ∧
      ∀ e ∈ (MapDrives (envConst ERROR_NETWORK_UNREACHABLE) fuel
        { m_vecNetShares := [shareX] } {}).2.2.log, e.site ≠ Site.unmount ∧ e.share = 0) := by
  have hrun : ∀ fuel, MapDrives (envConst ERROR_NETWORK_UNREACHABLE) (fuel + 1)
      { m_vecNetShares := [shareX] } {} =
      (none, { m_vecNetShares := [shareX] },
        (interactiveLoop (envConst ERROR_NETWORK_UNREACHABLE) { m_vecNetShares := [shareX] } 0 0
          shareX fuel
          { polls := 1, log := [⟨0, 0, Site.silent,
            Call.WNetAddConnection2 shareX.GetLocalName shareX.GetRemoteName 0,
            ERROR_NETWORK_UNREACHABLE⟩] }).2) := by
    intro fuel
    have h := (interactiveLoop_network_down { m_vecNetShares := [shareX] } 0 0 shareX fuel
      { polls := 1, log := [⟨0, 0, Site.silent,
        Call.WNetAddConnection2 shareX.GetLocalName shareX.GetRemoteName 0,
        ERROR_NETWORK_UNREACHABLE⟩] }).1
    rcases hr : interactiveLoop (envConst ERROR_NETWORK_UNREACHABLE)
      { m_vecNetShares := [shareX] } 0 0 shareX fuel
      { polls := 1, log := [⟨0, 0, Site.silent,
        Call.WNetAddConnection2 shareX.GetLocalName shareX.GetRemoteName 0,
        ERROR_NETWORK_UNREACHABLE⟩] } with ⟨r, w1⟩
    rw [hr] at h
    simp only at h
    subst h
    simp only [MapDrives, MapDrivesLoop, mapShares, mapShare, connectShare, tryInteractive,
      escPressed, osCall, envConst_wnet, envConst_key]
    simp [shareX, CNetShare.new, CNetShare.IsMapped] at hr ⊢
    rw [hr]
    simp
  refine ⟨rfl, ?_, ?_⟩
  · rintro ⟨fuel, h⟩
    cases fuel with
    | zero => exact h rfl
    | succ fuel => rw [hrun fuel] at h; exact h rfl
  · intro n
    refine ⟨n + 1, ?_, ?_⟩
    · rw [hrun n]
      have := (interactiveLoop_network_down { m_vecNetShares := [shareX] } 0 0 shareX n
        { polls := 1, log := [⟨0, 0, Site.silent,
          Call.WNetAddConnection2 shareX.GetLocalName shareX.GetRemoteName 0,
          ERROR_NETWORK_UNREACHABLE⟩] }).2
      simp only at this ⊢
      rw [this]
      simp
    · rw [hrun n]
      obtain ⟨evs, h1, h2, -⟩ := interactiveLoop_log (envConst ERROR_NETWORK_UNREACHABLE)
        { m_vecNetShares := [shareX] } 0 0 shareX n
        { polls := 1, log := [⟨0, 0, Site.silent,
          Call.WNetAddConnection2 shareX.GetLocalName shareX.GetRemoteName 0,
          ERROR_NETWORK_UNREACHABLE⟩] }
      simp only
      rw [h1]
      intro e he
      simp only [List.singleton_append, List.mem_cons] at he
      rcases he with rfl | he
      · exact ⟨by decide, rfl⟩
      · obtain ⟨hs, hi, -⟩ := h2 e he
        exact ⟨by rw [hs]; decide, hi⟩

/-! ## The two tiers -/

theorem tryInteractive_world (env : Env) (m : CWinMount) (iRetryCount idx fuel : Nat)
    (b : Bool) (netShare : CNetShare) (w : World)
    (h : m.m_dwConnectFlags &&& CONNECT_INTERACTIVE ≠ 0 ∨ b = true) :
    (tryInteractive env m iRetryCount idx fuel b netShare w).2.2 =
      (interactiveLoop env m iRetryCount idx netShare fuel w).2 := by
  simp only [tryInteractive, if_pos h]
  split
  · rename_i heq; rw [heq]
  · rename_i heq; rw [heq]; split <;> rfl

/-- C4, as the code has it. When `-i` is not given, in every pass and for every
share that is not yet mapped, when no `<ESC>` is read and, with `-u`, the call
of `WNetCancelConnection2` returns `NO_ERROR` or `ERROR_NOT_CONNECTED`, the body
of the loop first makes a silent connection attempt, and it makes an interactive
attempt for the share in the same pass if and only if the silent result code is
none of `NO_ERROR`, `ERROR_CANCELLED`, `ERROR_ALREADY_ASSIGNED`,
`ERROR_DEVICE_ALREADY_REMEMBERED`, `ERROR_SESSION_CREDENTIAL_CONFLICT`,
`ERROR_LOGON_FAILURE`, `ERROR_BAD_DEV_TYPE`; for `ERROR_LOGON_FAILURE` and
`ERROR_BAD_DEV_TYPE` the share is left unmapped and the loop goes on. -/
theorem mapShare_two_tiers (env : Env) (m : CWinMount) (iRetryCount idx fuel : Nat)
    (netShare : CNetShare) (w : World)
    (hi : m.m_dwConnectFlags &&& CONNECT_INTERACTIVE = 0)
    (hmapped : netShare.IsMapped = false)
    (hkey : ∀ n, env.key n ≠ some 0x1B)
    (hunmount : m.m_bUnmount = true →
      env.wnet w.log.length = NO_ERROR ∨ env.wnet w.log.length = ERROR_NOT_CONNECTED)
    (hfuel : 0 < fuel) :
    ∃ (pre : List Event) (silent : Event) (rest : List Event),
      (mapShare env m iRetryCount idx fuel netShare w).2.2.log =
        w.log ++ pre ++ silent :: rest ∧
      (∀ e ∈ pre, e.site = Site.unmount) ∧
      silent.site = Site.silent ∧ silent.share = idx ∧ silent.iRetryCount = iRetryCount ∧
      silent.call = Call.WNetAddConnection2 netShare.GetLocalName netShare.GetRemoteName
        m.m_dwConnectFlags ∧
      silent.result = env.wnet (w.log.length + pre.length) ∧
      (∀ e ∈ rest, e.site = Site.interactive ∧ e.share = idx ∧ e.iRetryCount = iRetryCount) ∧
      (rest ≠ [] ↔ silent.result ∉ [NO_ERROR, ERROR_CANCELLED, ERROR_ALREADY_ASSIGNED,
        ERROR_DEVICE_ALREADY_REMEMBERED, ERROR_SESSION_CREDENTIAL_CONFLICT,
        ERROR_LOGON_FAILURE, ERROR_BAD_DEV_TYPE]) ∧
      (silent.result = ERROR_LOGON_FAILURE ∨ silent.result = ERROR_BAD_DEV_TYPE →
        (mapShare env m iRetryCount idx fuel netShare w).1 = Flow.next ∧
        (mapShare env m iRetryCount idx fuel netShare w).2.1 = netShare ∧
        (mapShare env m iRetryCount idx fuel netShare w).2.1.IsMapped = false) := by
  have hesc : ∀ w1 : World, (escPressed env w1).1 = false := fun w1 => by
    simp [escPressed, hkey]
  -- the silent tier, from any world
  have hconnect : ∀ w1 : World, ∃ (silent : Event) (rest : List Event),
      (connectShare env m iRetryCount idx fuel netShare w1).2.2.log = w1.log ++ silent :: rest ∧
      silent.site = Site.silent ∧ silent.share = idx ∧ silent.iRetryCount = iRetryCount ∧
      silent.call = Call.WNetAddConnection2 netShare.GetLocalName netShare.GetRemoteName
        m.m_dwConnectFlags ∧
      silent.result = env.wnet w1.log.length ∧
      (∀ e ∈ rest, e.site = Site.interactive ∧ e.share = idx ∧ e.iRetryCount = iRetryCount) ∧
      (rest ≠ [] ↔ silent.result ∉ [NO_ERROR, ERROR_CANCELLED, ERROR_ALREADY_ASSIGNED,
        ERROR_DEVICE_ALREADY_REMEMBERED, ERROR_SESSION_CREDENTIAL_CONFLICT,
        ERROR_LOGON_FAILURE, ERROR_BAD_DEV_TYPE]) ∧
      (silent.result = ERROR_LOGON_FAILURE ∨ silent.result = ERROR_BAD_DEV_TYPE →
        (connectShare env m iRetryCount idx fuel netShare w1).1 = Flow.next ∧
        (connectShare env m iRetryCount idx fuel netShare w1).2.1 = netShare) := by
    intro w1
    obtain ⟨ev, hs, hix, hp, hcall, hres, hc⟩ := osCall_spec env (escPressed env w1).2
      iRetryCount idx Site.silent
      (Call.WNetAddConnection2 netShare.GetLocalName netShare.GetRemoteName m.m_dwConnectFlags)
    have hres1 : ev.result = env.wnet w1.log.length := by rw [hres]; rfl
    simp only [connectShare, hi, if_true, hesc, Bool.false_eq_true, if_false, hc]
    by_cases h1 : ev.result = ERROR_CANCELLED ∨ ev.result = NO_ERROR ∨
        ev.result = ERROR_ALREADY_ASSIGNED
    · rw [if_pos h1]
      refine ⟨ev, [], by simp [escPressed], hs, hix, hp, hcall, hres1, by simp, ?_, ?_⟩
      · simp only [ne_eq, not_true_eq_false, List.mem_cons, false_iff, not_not]
        rcases h1 with h | h | h <;> simp [h]
      · intro h
        rcases h1 with h1 | h1 | h1 <;> rcases h with h | h <;> rw [h1] at h <;> cases h
    · rw [if_neg h1]
      by_cases h2 : ev.result = ERROR_DEVICE_ALREADY_REMEMBERED ∨
          ev.result = ERROR_SESSION_CREDENTIAL_CONFLICT ∨ ev.result = ERROR_ALREADY_ASSIGNED
      · rw [if_pos h2]
        refine ⟨ev, [], by simp [escPressed], hs, hix, hp, hcall, hres1, by simp, ?_, ?_⟩
        · simp only [ne_eq, not_true_eq_false, List.mem_cons, false_iff, not_not]
          rcases h2 with h | h | h <;> simp [h]
        · intro h
          rcases h2 with h2 | h2 | h2 <;> rcases h with h | h <;> rw [h2] at h <;> cases h
      · rw [if_neg h2]
        simp only [not_or] at h1 h2
        by_cases h3 : ev.result ≠ ERROR_LOGON_FAILURE ∧ ev.result ≠ ERROR_BAD_DEV_TYPE
        · -- the interactive tier is entered
          obtain ⟨evs, g1, g2, -, g4⟩ := interactiveLoop_log env m iRetryCount idx netShare fuel
            { (escPressed env w1).2 with log := (escPressed env w1).2.log ++ [ev] }
          have hne := g4 hfuel
          refine ⟨ev, evs, ?_, hs, hix, hp, hcall, hres1, g2, ?_, ?_⟩
          · rw [tryInteractive_world env m iRetryCount idx fuel _ netShare _
              (Or.inr (by simpa using h3)), g1]
            simp [escPressed]
          · simp only [ne_eq, hne, not_false_eq_true, List.mem_cons, List.mem_singleton,
              List.not_mem_nil, or_false, true_iff, not_or]
            exact ⟨h1.2.1, h1.1, h1.2.2, h2.1, h2.2.1, h3.1, h3.2⟩
          · intro h
            rcases h with h | h
            · exact absurd h h3.1
            · exact absurd h h3.2
        · -- no interactive attempt: the share stays unmapped
          have hb : decide (ev.result ≠ ERROR_LOGON_FAILURE ∧ ev.result ≠ ERROR_BAD_DEV_TYPE) =
              false := by simpa using h3
          have hi2 : ¬ (m.m_dwConnectFlags &&& CONNECT_INTERACTIVE ≠ 0 ∨ false = true) := by
            simp [hi]
          simp only [tryInteractive, hb, if_neg hi2]
          refine ⟨ev, [], by simp [escPressed], hs, hix, hp, hcall, hres1, by simp, ?_,
            by simp⟩
          simp only [ne_eq, not_true_eq_false, List.mem_cons, false_iff, not_not]
          by_cases h4 : ev.result = ERROR_LOGON_FAILURE
          · simp [h4]
          · have : ev.result = ERROR_BAD_DEV_TYPE := by
              by_contra h5
              exact h3 ⟨h4, h5⟩
            simp [this]
  have hm : (!netShare.IsMapped) = true := by simp [hmapped]
  cases hu : m.m_bUnmount with
  | false =>
    obtain ⟨silent, rest, g1, g2, g3, g4, g5, g6, g7, g8, g9⟩ := hconnect w
    refine ⟨[], silent, rest, ?_, by simp, g2, g3, g4, g5, by simpa using g6, g7, g8, ?_⟩
    · simp only [mapShare, hm, hu, if_true, Bool.false_eq_true, if_false, List.append_nil]
      exact g1
    · intro h
      simp only [mapShare, hm, hu, if_true, Bool.false_eq_true, if_false]
      obtain ⟨a, b⟩ := g9 h
      exact ⟨a, b, by rw [b]; exact hmapped⟩
  | true =>
    obtain ⟨ev, hs, hix, hp, hcall, hres, hc⟩ := osCall_spec env (escPressed env w).2
      iRetryCount idx Site.unmount (Call.WNetCancelConnection2 netShare.GetLocalName)
    have hres1 : ev.result = env.wnet w.log.length := by rw [hres]; rfl
    have hok : ¬ (ev.result ≠ NO_ERROR ∧ ev.result ≠ ERROR_NOT_CONNECTED) := by
      rw [hres1]
      rcases hunmount hu with h | h <;> simp [h]
    obtain ⟨silent, rest, g1, g2, g3, g4, g5, g6, g7, g8, g9⟩ :=
      hconnect { (escPressed env w).2 with log := (escPressed env w).2.log ++ [ev] }
    have hmap : mapShare env m iRetryCount idx fuel netShare w =
        connectShare env m iRetryCount idx fuel netShare
          { (escPressed env w).2 with log := (escPressed env w).2.log ++ [ev] } := by
      simp only [mapShare, hm, hu, if_true, hesc, Bool.false_eq_true, if_false, hc, if_neg hok]
    rw [hmap]
    refine ⟨[ev], silent, rest, ?_, ?_, g2, g3, g4, g5, ?_, g7, g8, ?_⟩
    · rw [g1]; simp [escPressed]
    · intro e he
      rw [List.mem_singleton] at he
      subst he
      exact hs
    · rw [g6]; simp [escPressed]
    · intro h
      obtain ⟨a, b⟩ := g9 h
      exact ⟨a, b, by rw [b]; exact hmapped⟩

/-- The hypotheses of `mapShare_two_tiers` hold of the first pass over the share
`X: \\s\t` with `-u`, when the unmount returns `ERROR_NOT_CONNECTED`, the silent
attempt "Access denied (5)" and the interactive attempt `NO_ERROR`, and so does
its conclusion. -/
theorem mapShare_two_tiers_witness :
    ({ m_bUnmount := true } : CWinMount).m_dwConnectFlags &&& CONNECT_INTERACTIVE = 0 ∧
    shareX.IsMapped = false ∧ (∀ n, (envOf [ERROR_NOT_CONNECTED, 5]).key n ≠ some 0x1B) ∧
    (({ m_bUnmount := true } : CWinMount).m_bUnmount = true →
      (envOf [ERROR_NOT_CONNECTED, 5]).wnet ({} : World).log.length = NO_ERROR ∨
      (envOf [ERROR_NOT_CONNECTED, 5]).wnet ({} : World).log.length = ERROR_NOT_CONNECTED) ∧
    0 < 1 ∧
    ∃ (pre : List Event) (silent : Event) (rest : List Event),
      (mapShare (envOf [ERROR_NOT_CONNECTED, 5]) { m_bUnmount := true } 0 0 1 shareX {}).2.2.log =
        ({} : World).log ++ pre ++ silent :: rest ∧
      (∀ e ∈ pre, e.site = Site.unmount) ∧
      silent.site = Site.silent ∧ silent.share = 0 ∧ silent.iRetryCount = 0 ∧
      silent.call = Call.WNetAddConnection2 shareX.GetLocalName shareX.GetRemoteName
        ({ m_bUnmount := true } : CWinMount).m_dwConnectFlags ∧
      silent.result =
        (envOf [ERROR_NOT_CONNECTED, 5]).wnet (({} : World).log.length + pre.length) ∧
      (∀ e ∈ rest, e.site = Site.interactive ∧ e.share = 0 ∧ e.iRetryCount = 0) ∧
      (rest ≠ [] ↔ silent.result ∉ [NO_ERROR, ERROR_CANCELLED, ERROR_ALREADY_ASSIGNED,
        ERROR_DEVICE_ALREADY_REMEMBERED, ERROR_SESSION_CREDENTIAL_CONFLICT,
        ERROR_LOGON_FAILURE, ERROR_BAD_DEV_TYPE]) ∧
      (silent.result = ERROR_LOGON_FAILURE ∨ silent.result = ERROR_BAD_DEV_TYPE →
        (mapShare (envOf [ERROR_NOT_CONNECTED, 5]) { m_bUnmount := true } 0 0 1 shareX {}).1 =
          Flow.next ∧
        (mapShare (envOf [ERROR_NOT_CONNECTED, 5]) { m_bUnmount := true } 0 0 1 shareX {}).2.1 =
          shareX ∧
        (mapShare (envOf [ERROR_NOT_CONNECTED, 5])
          { m_bUnmount := true } 0 0 1 shareX {}).2.1.IsMapped = false) :=
  ⟨by decide, by decide, fun n => by simp [envOf], fun _ => Or.inr (by decide), by decide,
    mapShare_two_tiers (envOf [ERROR_NOT_CONNECTED, 5]) { m_bUnmount := true } 0 0 1 shareX {}
      (by decide) (by decide) (fun n => by simp [envOf]) (fun _ => Or.inr (by decide))
      (by decide)⟩

/-! ## `Trim` -/

theorem find_first_not_of_eq_none {str chars : Str} :
    find_first_not_of str chars = none ↔ ∀ c ∈ str, c ∈ chars := by
  induction str with
  | nil => simp [find_first_not_of]
  | cons x xs ih =>
    by_cases hx : x ∈ chars
    · simp [find_first_not_of, hx, ih]
    · simp [find_first_not_of, hx]

theorem find_first_not_of_drop {str chars : Str} {pos : Nat}
    (h : find_first_not_of str chars = some pos) :
    str.drop pos = str.dropWhile (fun c => decide (c ∈ chars)) := by
  induction str generalizing pos with
  | nil => simp [find_first_not_of] at h
  | cons x xs ih =>
    by_cases hx : x ∈ chars
    · simp only [find_first_not_of, hx, if_true, Option.map_eq_some'] at h
      obtain ⟨k, hk, rfl⟩ := h
      simp [List.dropWhile_cons, hx, ih hk]
    · simp only [find_first_not_of, hx, if_false, Option.some.injEq] at h
      subst h
      simp [List.dropWhile_cons, hx]

theorem find_last_not_of_eq_none {str chars : Str} :
    find_last_not_of str chars = none ↔ ∀ c ∈ str, c ∈ chars := by
  induction str with
  | nil => simp [find_last_not_of]
  | cons x xs ih =>
    cases hr : find_last_not_of xs chars with
    | some k =>
      have hxs : ¬ ∀ c ∈ xs, c ∈ chars := fun hall => by
        rw [ih.mpr hall] at hr
        cases hr
      simp only [find_last_not_of, hr]
      constructor
      · intro h; cases h
      · intro hall
        exact absurd (fun c hc => hall c (List.mem_cons_of_mem _ hc)) hxs
    | none =>
      have hxs := ih.mp hr
      by_cases hx : x ∈ chars
      · simp only [find_last_not_of, hr, hx, if_true, true_iff]
        intro c hc
        rcases List.mem_cons.mp hc with rfl | hc
        · exact hx
        · exact hxs c hc
      · simp [find_last_not_of, hr, hx]

theorem rdropWhile_cons_eq (p : Char → Bool) (x : Char) (xs : Str) :
    (x :: xs).rdropWhile p =
      if ∀ c ∈ xs, p c = true then (if p x = true then [] else [x])
      else x :: xs.rdropWhile p := by
  induction xs using List.reverseRecOn with
  | nil => simp [List.rdropWhile_singleton]
  | append_singleton ys y ih =>
    rw [← List.cons_append, List.rdropWhile_concat, List.rdropWhile_concat, ih]
    by_cases hy : p y = true
    · by_cases hys : ∀ c ∈ ys, p c = true
      · have : ∀ c ∈ ys ++ [y], p c = true := by
          intro c hc
          rcases List.mem_append.mp hc with hc | hc
          · exact hys c hc
          · rw [List.mem_singleton] at hc; rw [hc]; exact hy
        rw [if_pos hy, if_pos hys, if_pos this]
      · have : ¬ ∀ c ∈ ys ++ [y], p c = true := fun hall =>
          hys (fun c hc => hall c (List.mem_append_left _ hc))
        simp only [hy, if_true, if_neg hys, if_neg this]
    · have : ¬ ∀ c ∈ ys ++ [y], p c = true := fun hall =>
        hy (hall y (List.mem_append_right _ (List.mem_singleton_self y)))
      simp only [hy, if_false, if_neg this]
      simp

theorem find_last_not_of_take {str chars : Str} {pos : Nat}
    (h : find_last_not_of str chars = some pos) :
    str.take (pos + 1) = str.rdropWhile (fun c => decide (c ∈ chars)) := by
  induction str generalizing pos with
  | nil => simp [find_last_not_of] at h
  | cons x xs ih =>
    rw [rdropWhile_cons_eq]
    cases hr : find_last_not_of xs chars with
    | some k =>
      simp only [find_last_not_of, hr, Option.some.injEq] at h
      subst h
      have hxs : ¬ ∀ c ∈ xs, decide (c ∈ chars) = true := fun hall => by
        rw [find_last_not_of_eq_none.mpr (fun c hc => by simpa using hall c hc)] at hr
        cases hr
      rw [if_neg hxs, List.take_succ_cons, ih hr]
    | none =>
      have hxs : ∀ c ∈ xs, decide (c ∈ chars) = true := fun c hc => by
        simpa using find_last_not_of_eq_none.mp hr c hc
      simp only [find_last_not_of, hr] at h
      split at h
      · cases h
      · rename_i hx
        simp only [Option.some.injEq] at h
        subst h
        rw [if_pos hxs]
        simp [hx]

/-- What `TrimLeft` returns: the string without its longest prefix of characters
of `chars`, except that a string made only of such characters is returned as it
is. -/
theorem TrimLeft_eq (str chars : Str) :
    TrimLeft str chars =
      if ∀ c ∈ str, c ∈ chars then str else str.dropWhile (fun c => decide (c ∈ chars)) := by
  cases str with
  | nil => simp [TrimLeft]
  | cons x xs =>
    simp only [TrimLeft, List.length_cons, Nat.add_one_ne_zero, if_false]
    cases hf : find_first_not_of (x :: xs) chars with
    | none => rw [if_pos (find_first_not_of_eq_none.mp hf)]
    | some pos =>
      have hall : ¬ ∀ c ∈ x :: xs, c ∈ chars := fun hall => by
        rw [find_first_not_of_eq_none.mpr hall] at hf
        cases hf
      rw [if_neg hall]
      simp only
      split
      · exact find_first_not_of_drop hf
      · rename_i hpos
        have : pos = 0 := by omega
        subst this
        simpa using find_first_not_of_drop hf

/-- What `TrimRight` returns: the string without its longest suffix of
characters of `chars`, except that a string made only of such characters is
returned as it is. -/
theorem TrimRight_eq (str chars : Str) :
    TrimRight str chars =
      if ∀ c ∈ str, c ∈ chars then str else str.rdropWhile (fun c => decide (c ∈ chars)) := by
  cases str with
  | nil => simp [TrimRight]
  | cons x xs =>
    simp only [TrimRight, List.length_cons, Nat.add_one_ne_zero, if_false]
    cases hf : find_last_not_of (x :: xs) chars with
    | none => rw [if_pos (find_last_not_of_eq_none.mp hf)]
    | some pos =>
      have hall : ¬ ∀ c ∈ x :: xs, c ∈ chars := fun hall => by
        rw [find_last_not_of_eq_none.mpr hall] at hf
        cases hf
      rw [if_neg hall]
      have hlt := find_last_not_of_lt hf
      simp only [List.length_cons] at hlt
      simp only [hlt, if_true]
      exact find_last_not_of_take hf

/-- What `Trim` returns. For a string that holds a character that is not one of
`chars`, it is the string without its longest prefix and its longest suffix of
characters of `chars`; a string made only of characters of `chars` is returned
as it is. -/
theorem Trim_eq (str chars : Str) :
    Trim str chars =
      if ∀ c ∈ str, c ∈ chars then str
      else (str.dropWhile (fun c => decide (c ∈ chars))).rdropWhile
        (fun c => decide (c ∈ chars)) := by
  by_cases hall : ∀ c ∈ str, c ∈ chars
  · simp only [Trim, TrimLeft_eq, TrimRight_eq, if_pos hall]
  · have hrest : ¬ ∀ c ∈ str.dropWhile (fun c => decide (c ∈ chars)), c ∈ chars := by
      intro h
      apply hall
      intro c hc
      rw [← List.takeWhile_append_dropWhile (fun c => decide (c ∈ chars)) str] at hc
      rcases List.mem_append.mp hc with hc | hc
      · simpa using List.mem_takeWhile_imp hc
      · exact h c hc
    simp only [Trim, TrimLeft_eq, TrimRight_eq, if_neg hall, if_neg hrest]

/-- C10 fails on the code for a string made only of characters of `chars`. The
string of two spaces is not trimmed to the empty string: `TrimLeft`, `TrimRight`
and `Trim` return it as it is, with the default `chars` and with `chars` the
space alone. -/
theorem Trim_only_spaces_unchanged :
    Trim [' ', ' '] whitespace = [' ', ' '] ∧
    TrimLeft [' ', ' '] whitespace = [' ', ' '] ∧
    TrimRight [' ', ' '] whitespace = [' ', ' '] ∧
    Trim [' ', ' '] [' '] = [' ', ' '] := by
  decide

/-! ## The first pass when every call succeeds -/

theorem AllDrivesMapped_eq_all (shares : List CNetShare) :
    AllDrivesMapped shares = shares.all (fun s => s.IsMapped) := by
  have h : ∀ (b : Bool), shares.foldl
      (fun bMappedAll netShare => if !netShare.IsMapped then false else bMappedAll) b =
      (b && shares.all (fun s => s.IsMapped)) := by
    induction shares with
    | nil => intro b; simp
    | cons s rest ih =>
      intro b
      simp only [List.foldl_cons, List.all_cons, ih]
      cases s.IsMapped <;> cases b <;> simp
  simpa [AllDrivesMapped] using h true

theorem attempts_append (a b : List Event) : attempts (a ++ b) = attempts a ++ attempts b := by
  simp [attempts]

theorem mapShare_all_ok (env : Env) (m : CWinMount) (iRetryCount idx fuel : Nat)
    (netShare : CNetShare) (w : World)
    (hi : m.m_dwConnectFlags &&& CONNECT_INTERACTIVE = 0)
    (hok : ∀ n, env.wnet n = NO_ERROR) (hkey : ∀ n, env.key n ≠ some 0x1B)
    (hmapped : netShare.IsMapped = false) :
    (mapShare env m iRetryCount idx fuel netShare w).1 = Flow.next ∧
    (mapShare env m iRetryCount idx fuel netShare w).2.1 = netShare.SetMapped ∧
    attempts (mapShare env m iRetryCount idx fuel netShare w).2.2.log =
      attempts w.log ++ [(iRetryCount, idx, Site.silent, NO_ERROR)] := by
  cases hu : m.m_bUnmount <;>
    simp [mapShare, connectShare, escPressed, osCall, hi, hok, hkey, hmapped, hu, attempts]

theorem mapShares_all_ok (env : Env) (m : CWinMount) (iRetryCount fuel : Nat)
    (hi : m.m_dwConnectFlags &&& CONNECT_INTERACTIVE = 0)
    (hok : ∀ n, env.wnet n = NO_ERROR) (hkey : ∀ n, env.key n ≠ some 0x1B)
    (shares : List CNetShare) :
    ∀ (idx : Nat) (w : World), (∀ s ∈ shares, s.IsMapped = false) →
      (mapShares env m iRetryCount fuel idx shares w).1 = Flow.next ∧
      (mapShares env m iRetryCount fuel idx shares w).2.1 = shares.map CNetShare.SetMapped ∧
      attempts (mapShares env m iRetryCount fuel idx shares w).2.2.log =
        attempts w.log ++
          (List.range' idx shares.length).map (fun i => (iRetryCount, i, Site.silent, NO_ERROR)) := by
  induction shares with
  | nil => intro idx w _; simp [mapShares]
  | cons s rest ih =>
    intro idx w hun
    obtain ⟨h1, h2, h3⟩ := mapShare_all_ok env m iRetryCount idx fuel s w hi hok hkey
      (hun s (List.mem_cons_self _ _))
    rcases hr : mapShare env m iRetryCount idx fuel s w with ⟨flow, s1, w1⟩
    rw [hr] at h1 h2 h3
    simp only at h1 h2 h3
    subst h1 h2
    obtain ⟨g1, g2, g3⟩ := ih (idx + 1) w1 (fun t ht => hun t (List.mem_cons_of_mem _ ht))
    simp only [mapShares, hr]
    refine ⟨g1, by rw [g2]; rfl, ?_⟩
    rw [g3, h3]
    simp [List.range'_succ]

/-- The first pass without `-i`. When `-i` is not given, for every list of
unmapped shares and every setting of `-p`, `-u` and `-r`, if every call returns
`NO_ERROR` and no `<ESC>` is read, `MapDrives` returns true at the end of the
first pass, every share is flagged as mapped, and the connection attempts made
are one silent attempt per share, in the order of the list. -/
theorem MapDrives_all_ok_silent (env : Env) (m : CWinMount) (fuel : Nat) (w : World)
    (hi : m.m_dwConnectFlags &&& CONNECT_INTERACTIVE = 0)
    (hok : ∀ n, env.wnet n = NO_ERROR) (hkey : ∀ n, env.key n ≠ some 0x1B)
    (hun : ∀ s ∈ m.m_vecNetShares, s.IsMapped = false) :
    (MapDrives env (fuel + 1) m w).1 = some true ∧
    (MapDrives env (fuel + 1) m w).2.1.m_vecNetShares =
      m.m_vecNetShares.map CNetShare.SetMapped ∧
    attempts (MapDrives env (fuel + 1) m w).2.2.log =
      attempts w.log ++
        (List.range m.m_vecNetShares.length).map (fun i => (0, i, Site.silent, NO_ERROR)) := by
  obtain ⟨g1, g2, g3⟩ := mapShares_all_ok env m 0 fuel hi hok hkey m.m_vecNetShares 0 w hun
  rcases hr : mapShares env m 0 fuel 0 m.m_vecNetShares w with ⟨flow, shares1, w1⟩
  rw [hr] at g1 g2 g3
  simp only at g1 g2 g3
  subst g1 g2
  have hall : AllDrivesMapped (m.m_vecNetShares.map CNetShare.SetMapped) = true := by
    rw [AllDrivesMapped_eq_all]
    simp [CNetShare.SetMapped, CNetShare.IsMapped]
  have hloop : MapDrivesLoop env m (fuel + 1) 0 m.m_vecNetShares w =
      (some true, m.m_vecNetShares.map CNetShare.SetMapped, w1) := by
    simp [MapDrivesLoop, hr, hall]
  simp only [MapDrives, hloop, true_and]
  rw [g3, List.range_eq_range']

/-! ## The interactive tier never flags a share -/

theorem mapShare_ret_false (env : Env) (m : CWinMount) (iRetryCount idx fuel : Nat)
    (netShare : CNetShare) (w : World) :
    (mapShare env m iRetryCount idx fuel netShare w).1 ≠ Flow.ret true := by
  have ht : ∀ b w1, (tryInteractive env m iRetryCount idx fuel b netShare w1).1 ≠
      Flow.ret true := by
    intro b w1
    simp only [tryInteractive]
    split
    · split
      · simp
      · split <;> simp
    · simp
  have hc : ∀ w1, (connectShare env m iRetryCount idx fuel netShare w1).1 ≠ Flow.ret true := by
    intro w1
    simp only [connectShare]
    split
    · split
      · simp
      · split
        · simp
        · split
          · simp
          · exact ht _ _
    · exact ht _ _
  simp only [mapShare]
  split
  · split
    · split
      · simp
      · split
        · simp
        · exact hc _
    · exact hc _
  · simp

theorem mapShares_ret_false (env : Env) (m : CWinMount) (iRetryCount fuel : Nat)
    (shares : List CNetShare) :
    ∀ (idx : Nat) (w : World),
      (mapShares env m iRetryCount fuel idx shares w).1 ≠ Flow.ret true := by
  induction shares with
  | nil => intro idx w; simp [mapShares]
  | cons s rest ih =>
    intro idx w
    have h := mapShare_ret_false env m iRetryCount idx fuel s w
    rcases hr : mapShare env m iRetryCount idx fuel s w with ⟨flow, s1, w1⟩
    rw [hr] at h
    simp only [mapShares, hr]
    cases flow with
    | next => exact ih (idx + 1) w1
    | ret b => exact h
    | fuelOut => simp


theorem mapShare_interactive_unflagged (env : Env) (m : CWinMount)
    (iRetryCount idx fuel : Nat) (netShare : CNetShare) (w : World)
    (hi : m.m_dwConnectFlags &&& CONNECT_INTERACTIVE ≠ 0)
    (hok : ∀ n, env.wnet n = NO_ERROR) :
    (mapShare env m iRetryCount idx fuel netShare w).2.1 = netShare := by
  have hc : ∀ w1, (connectShare env m iRetryCount idx fuel netShare w1).2.1 = netShare := by
    intro w1
    simp only [connectShare, if_neg hi]
    exact (tryInteractive_log env m iRetryCount idx fuel false netShare w1).choose_spec.2.2.2
  simp only [mapShare]
  split
  · split
    · split
      · rfl
      · simp only [osCall, hok, ne_eq, not_true_eq_false, false_and, if_false]
        exact hc _
    · exact hc _
  · rfl

theorem mapShares_interactive_unflagged (env : Env) (m : CWinMount) (iRetryCount fuel : Nat)
    (hi : m.m_dwConnectFlags &&& CONNECT_INTERACTIVE ≠ 0)
    (hok : ∀ n, env.wnet n = NO_ERROR) (shares : List CNetShare) :
    ∀ (idx : Nat) (w : World),
      (mapShares env m iRetryCount fuel idx shares w).2.1 = shares := by
  induction shares with
  | nil => intro idx w; rfl
  | cons s rest ih =>
    intro idx w
    have h := mapShare_interactive_unflagged env m iRetryCount idx fuel s w hi hok
    rcases hr : mapShare env m iRetryCount idx fuel s w with ⟨flow, s1, w1⟩
    rw [hr] at h
    simp only at h
    subst h
    simp only [mapShares, hr]
    cases flow with
    | next => simp only; rw [ih (idx + 1) w1]
    | ret b => rfl
    | fuelOut => rfl

/-- The interactive tier in general. With `-i`, for every share list that is
not empty and whose shares are unmapped, and every setting of `-p`, `-u` and
`-r`, if every call returns `NO_ERROR`, then `MapDrives` never returns true,
whatever the fuel: no share is ever flagged as mapped. -/
theorem MapDrives_interactive_never_true (env : Env) (m : CWinMount) (fuel : Nat) (w : World)
    (hi : m.m_dwConnectFlags &&& CONNECT_INTERACTIVE ≠ 0)
    (hok : ∀ n, env.wnet n = NO_ERROR)
    (hne : m.m_vecNetShares ≠ []) (hun : ∀ s ∈ m.m_vecNetShares, s.IsMapped = false) :
    (MapDrives env fuel m w).1 ≠ some true := by
  have hall : AllDrivesMapped m.m_vecNetShares = false := by
    rw [AllDrivesMapped_eq_all]
    cases hs : m.m_vecNetShares with
    | nil => exact absurd hs hne
    | cons s rest =>
      have := hun s (by rw [hs]; exact List.mem_cons_self _ _)
      simp [this]
  have hloop : ∀ (fuel i : Nat) (w : World),
      (MapDrivesLoop env m fuel i m.m_vecNetShares w).1 ≠ some true := by
    intro fuel
    induction fuel with
    | zero => intro i w; simp [MapDrivesLoop]
    | succ fuel ih =>
      intro i w
      simp only [MapDrivesLoop]
      split
      · have h := mapShares_interactive_unflagged env m i fuel hi hok m.m_vecNetShares 0 w
        rcases hr : mapShares env m i fuel 0 m.m_vecNetShares w with ⟨flow, shares1, w1⟩
        rw [hr] at h
        simp only at h
        subst h
        cases flow with
        | next =>
          simp only [hall, Bool.false_eq_true, if_false]
          exact ih (i + 1) w1
        | ret b =>
          have hb := mapShares_ret_false env m i fuel m.m_vecNetShares 0 w
          rw [hr] at hb
          simp only
          intro hcontra
          simp only [Option.some.injEq] at hcontra
          subst hcontra
          exact absurd rfl hb
        | fuelOut => simp
      · simp
  exact hloop fuel 0 w

/-! ## `MapDrives` on concrete runs -/

/-- C1 fails on the code when `-i` is given. With one share, every call
returning `NO_ERROR` and no key hit, `MapDrives` does not return true at the
end of the first pass: the interactive tier never flags the share as mapped, so
the connection is made again in each of the `RETRY_COUNT` passes and the
function returns false, with a fuel of 11 and with any more. -/
theorem MapDrives_interactive_success_not_flagged :
    (MapDrives (envConst NO_ERROR) 11
      { m_dwConnectFlags := CONNECT_INTERACTIVE, m_vecNetShares := [shareX] } {}).1 = some false ∧
    (MapDrives (envConst NO_ERROR) 11
      { m_dwConnectFlags := CONNECT_INTERACTIVE, m_vecNetShares := [shareX] } {}).2.1.m_vecNetShares
      = [shareX] ∧
    attempts (MapDrives (envConst NO_ERROR) 11
      { m_dwConnectFlags := CONNECT_INTERACTIVE, m_vecNetShares := [shareX] } {}).2.2.log =
      (List.range 10).map (fun i => (i, 0, Site.interactive, NO_ERROR)) ∧
    ∀ k, MapDrives (envConst NO_ERROR) (11 + k)
        { m_dwConnectFlags := CONNECT_INTERACTIVE, m_vecNetShares := [shareX] } {} =
      MapDrives (envConst NO_ERROR) 11
        { m_dwConnectFlags := CONNECT_INTERACTIVE, m_vecNetShares := [shareX] } {} :=
  ⟨by decide, by decide, by decide, MapDrives_mono _ _ 11 _ (by decide)⟩

/-- C2 fails on the code by one. With one share, no `-i` and a silent attempt
that returns `ERROR_BAD_DEV_TYPE` every time, `MapDrives` returns false after
`RETRY_COUNT = 10` attempts in all, in the passes 0 to 9: the initial attempt
and 9 retries, not 10, with a fuel of 11 and with any more. -/
theorem MapDrives_bad_dev_type_ten_attempts :
    (MapDrives (envConst ERROR_BAD_DEV_TYPE) 11 { m_vecNetShares := [shareX] } {}).1 = some false ∧
    attempts (MapDrives (envConst ERROR_BAD_DEV_TYPE) 11 { m_vecNetShares := [shareX] } {}).2.2.log =
      (List.range 10).map (fun i => (i, 0, Site.silent, ERROR_BAD_DEV_TYPE)) ∧
    (attempts (MapDrives (envConst ERROR_BAD_DEV_TYPE) 11
      { m_vecNetShares := [shareX] } {}).2.2.log).length = 1 + 9 ∧
    ∀ k, MapDrives (envConst ERROR_BAD_DEV_TYPE) (11 + k) { m_vecNetShares := [shareX] } {} =
      MapDrives (envConst ERROR_BAD_DEV_TYPE) 11 { m_vecNetShares := [shareX] } {} :=
  ⟨by decide, by decide, by decide, MapDrives_mono _ _ 11 _ (by decide)⟩

/-- C4 fails as stated when `-u` is given and the unmount fails. With one share
that is not yet mapped and `WNetCancelConnection2` returning "Access denied
(5)", the only call of the first pass is the unmount: no silent attempt is made
for the share, which is flagged as mapped. -/
theorem MapDrives_unmount_failure_no_attempt :
    shareX.IsMapped = false ∧
    MapDrives (envConst 5) 11 { m_bUnmount := true, m_vecNetShares := [shareX] } {} =
      (some true, { m_bUnmount := true, m_vecNetShares := [shareX.SetMapped] },
        { polls := 1,
          log := [⟨0, 0, Site.unmount, Call.WNetCancelConnection2 ['X', ':'], 5⟩] }) ∧
    attempts (MapDrives (envConst 5) 11
      { m_bUnmount := true, m_vecNetShares := [shareX] } {}).2.2.log = [] := by
  decide

/-! ## `GetOptionValue` -/

/-- C11 fails on the code. On the argument list `--opt v`, after the call of
`ProcessArgument` that reads `--opt` (position 0), `GetOptionValue` returns
false and leaves `strValue` as it was. On `--opt v w` it returns true with
`strValue = w`, the argument at position 2 and not `v`, and the next
`ProcessArgument` reads `w` once more: `m_index` is already one past the option
when `GetOptionValue` adds one to it. -/
theorem GetOptionValue_skips_the_value :
    (afterReads [['-', '-', 'o', 'p', 't'], ['v']] 1).m_strArgument = ['-', '-', 'o', 'p', 't'] ∧
    GetOptionValue (afterReads [['-', '-', 'o', 'p', 't'], ['v']] 1) ['o', 'l', 'd'] =
      (false, ['o', 'l', 'd'], afterReads [['-', '-', 'o', 'p', 't'], ['v']] 1) ∧
    (GetOptionValue (afterReads [['-', '-', 'o', 'p', 't'], ['v'], ['w']] 1) ['o', 'l', 'd']).1 =
      true ∧
    (GetOptionValue (afterReads [['-', '-', 'o', 'p', 't'], ['v'], ['w']] 1) ['o', 'l', 'd']).2.1 =
      ['w'] ∧
    (ProcessArgument (GetOptionValue (afterReads [['-', '-', 'o', 'p', 't'], ['v'], ['w']] 1)
      ['o', 'l', 'd']).2.2).2.m_strArgument = ['w'] := by
  decide

theorem ProcessArgument_fields (a : CCmdArguments) (h : a.m_index < a.m_count) :
    (ProcessArgument a).2.m_index = a.m_index + 1 ∧
    (ProcessArgument a).2.m_count = a.m_count ∧
    (ProcessArgument a).2.m_vecStrArgs = a.m_vecStrArgs ∧
    (ProcessArgument a).2.m_strArgument = a.m_vecStrArgs.getD a.m_index [] ∧
    (find_first_of (a.m_vecStrArgs.getD a.m_index []) '=' = none →
      (ProcessArgument a).2.m_strOptionValue = []) := by
  simp only [ProcessArgument, h, if_true]
  split
  · split
    · rename_i sep hsep
      split
      · exact ⟨rfl, rfl, rfl, rfl, fun hnone => by rw [hnone] at hsep; cases hsep⟩
      · exact ⟨rfl, rfl, rfl, rfl, fun _ => rfl⟩
    · exact ⟨rfl, rfl, rfl, rfl, fun _ => rfl⟩
  · exact ⟨rfl, rfl, rfl, rfl, fun _ => rfl⟩

theorem afterReads_succ (vecArgs : List Str) (n : Nat) :
    afterReads vecArgs (n + 1) = (ProcessArgument (afterReads vecArgs n)).2 := by
  simp only [afterReads, Function.iterate_succ_apply']

theorem afterReads_fields (vecArgs : List Str) (n : Nat) (hn : n ≤ vecArgs.length) :
    (afterReads vecArgs n).m_index = n ∧ (afterReads vecArgs n).m_count = vecArgs.length ∧
    (afterReads vecArgs n).m_vecStrArgs = vecArgs := by
  induction n with
  | zero => exact ⟨rfl, rfl, rfl⟩
  | succ n ih =>
    obtain ⟨h1, h2, h3⟩ := ih (by omega)
    obtain ⟨g1, g2, g3, -, -⟩ := ProcessArgument_fields (afterReads vecArgs n) (by omega)
    rw [afterReads_succ]
    exact ⟨by rw [g1, h1], by rw [g2, h2], by rw [g3, h3]⟩

theorem find_first_of_eq_none {s : Str} {c : Char} : find_first_of s c = none ↔ c ∉ s := by
  induction s with
  | nil => simp [find_first_of]
  | cons x xs ih =>
    by_cases hx : x = c
    · simp [find_first_of, hx]
    · have hx2 : ¬ c = x := fun h => hx h.symm
      simp [find_first_of, hx, hx2, ih]

/-- What `GetOptionValue` does after the call of `ProcessArgument` that reads
position `i`, when the argument there has no `=`: it looks at position `i + 2`.
It returns true with the argument of position `i + 2` when there is one and it
does not start like an option, and false else; the argument at position `i + 1`
is never the value. -/
theorem GetOptionValue_after_read (vecArgs : List Str) (i : Nat) (strValue : Str)
    (hi : i < vecArgs.length) (heq : '=' ∉ vecArgs.getD i []) :
    (afterReads vecArgs (i + 1)).m_strArgument = vecArgs.getD i [] ∧
    GetOptionValue (afterReads vecArgs (i + 1)) strValue =
      if i + 2 < vecArgs.length ∧ startsLikeOption (vecArgs.getD (i + 2) []) = false then
        (true, vecArgs.getD (i + 2) [],
          { afterReads vecArgs (i + 1) with m_index := i + 2 })
      else (false, strValue, afterReads vecArgs (i + 1)) := by
  obtain ⟨h1, h2, h3⟩ := afterReads_fields vecArgs i (by omega)
  obtain ⟨g1, g2, g3⟩ := afterReads_fields vecArgs (i + 1) (by omega)
  obtain ⟨-, -, -, k4, k5⟩ := ProcessArgument_fields (afterReads vecArgs i) (by omega)
  rw [h1, h3] at k4 k5
  rw [← afterReads_succ] at k4 k5
  have hval := k5 (find_first_of_eq_none.mpr heq)
  refine ⟨k4, ?_⟩
  have e2 : i + 1 + 1 = i + 2 := rfl
  have hnext : (afterReads vecArgs (i + 1)).NextArgumentIsOption =
      (startsLikeOption (vecArgs.getD (i + 2) []) && decide (i + 2 < vecArgs.length)) := by
    simp only [NextArgumentIsOption, g1, g2, g3, e2]
    by_cases hlt : i + 2 < vecArgs.length
    · cases hx : vecArgs.getD (i + 2) [] with
      | nil => simp [startsLikeOption]
      | cons c cs => simp [startsLikeOption, hlt, Bool.or_assoc]
    · have hd : vecArgs.getD (i + 2) [] = [] := List.getD_eq_default _ _ (by omega)
      simp only [hlt, false_and, if_false, hd, startsLikeOption, Bool.false_and]
  simp only [GetOptionValue, OptionHasValue, hval, List.length_nil, ne_eq, not_true_eq_false,
    if_false, hnext, g1, g2, g3, e2]
  by_cases hlt : i + 2 < vecArgs.length
  · cases hs : startsLikeOption (vecArgs.getD (i + 2) []) <;> simp [hlt, hs]
  · simp [hlt]

/-! ## `Tokenize` -/

theorem find_first_of_ne_none {s : Str} {c : Char} : find_first_of s c ≠ none ↔ c ∈ s := by
  rw [ne_eq, find_first_of_eq_none, not_not]

theorem TokenizeLoop_exit (strLine strDelimiters : Str) (fuel pos last : Nat)
    (vecStrings : List Str) (h : ¬ pos < strLine.length) :
    TokenizeLoop strLine strDelimiters (fuel + 1) pos last vecStrings = some vecStrings := by
  simp only [TokenizeLoop, h, if_false]

/-- A line of `UINT_RANGE` characters or more: `pos` wraps around before it
reaches the length of the line, and the loop does not end, whatever the fuel. -/
theorem TokenizeLoop_long_line (strLine strDelimiters : Str)
    (hlong : UINT_RANGE ≤ strLine.length) :
    ∀ (fuel pos last : Nat) (vecStrings : List Str), pos < UINT_RANGE →
      TokenizeLoop strLine strDelimiters fuel pos last vecStrings = none := by
  intro fuel
  induction fuel with
  | zero => intro pos last vec _; rfl
  | succ fuel ih =>
    intro pos last vec hpos
    have hlt : pos < strLine.length := by omega
    have hmod : (pos + 1) % UINT_RANGE < UINT_RANGE := Nat.mod_lt _ (by decide)
    simp only [TokenizeLoop, hlt, if_true]
    split
    · exact ih _ _ _ hmod
    · split
      · exact ih _ _ _ hmod
      · exact ih _ _ _ hmod

theorem splitOnP_go_clean (P : Char → Bool) (l : Str) :
    ∀ acc : Str, (∀ c ∈ acc, P c = false) →
      ∀ t ∈ List.splitOnP.go P l acc, ∀ c ∈ t, P c = false := by
  induction l with
  | nil =>
    intro acc hacc t ht c hc
    simp only [List.splitOnP.go, List.mem_singleton] at ht
    subst ht
    exact hacc c (List.mem_reverse.mp hc)
  | cons x xs ih =>
    intro acc hacc t ht c hc
    simp only [List.splitOnP.go] at ht
    by_cases hx : P x = true
    · simp only [hx, if_true, List.mem_cons] at ht
      rcases ht with rfl | ht
      · exact hacc c (List.mem_reverse.mp hc)
      · exact ih [] (by simp) t ht c hc
    · simp only [hx, Bool.false_eq_true, if_false] at ht
      refine ih (x :: acc) ?_ t ht c hc
      intro d hd
      rcases List.mem_cons.mp hd with rfl | hd
      · simpa using hx
      · exact hacc d hd

/-- Every maximal run is not empty and holds no delimiter. -/
theorem maximalRuns_clean (strDelimiters strLine : Str) :
    ∀ t ∈ maximalRuns strDelimiters strLine, t ≠ [] ∧ ∀ c ∈ t, c ∉ strDelimiters := by
  intro t ht
  simp only [maximalRuns, List.mem_filter, Bool.not_eq_true', List.isEmpty_eq_false] at ht
  refine ⟨ht.2, fun c hc => ?_⟩
  have := splitOnP_go_clean (fun c => decide (c ∈ strDelimiters)) strLine [] (by simp) t ht.1 c hc
  simpa using this

theorem TokenizeLoop_runs (strLine strDelimiters : Str) (hshort : strLine.length < UINT_RANGE)
    (rest : Str) :
    ∀ (pre cur : Str) (vecStrings : List Str) (fuel : Nat),
      rest ≠ [] → strLine = pre ++ cur ++ rest → rest.length < fuel →
      TokenizeLoop strLine strDelimiters fuel (pre.length + cur.length) pre.length vecStrings =
        some (vecStrings ++
          (List.splitOnP.go (fun c => decide (c ∈ strDelimiters)) rest cur.reverse).filter
            (fun t => !t.isEmpty)) := by
  induction rest with
  | nil => intro pre cur vec fuel h; exact absurd rfl h
  | cons c rest ih =>
    intro pre cur vec fuel _ hline hfuel
    obtain ⟨fuel, rfl⟩ : ∃ k, fuel = k + 1 := ⟨fuel - 1, by simp at hfuel; omega⟩
    have hlen : strLine.length = pre.length + cur.length + (rest.length + 1) := by
      rw [hline]; simp only [List.length_append, List.length_cons]
    simp only [List.length_cons] at hfuel
    have hpos : pre.length + cur.length < strLine.length := by omega
    have hget : strLine.getD (pre.length + cur.length) ' ' = c := by
      rw [hline, List.getD_append_right _ _ _ _ (by simp)]
      simp
    have hm1 : (pre.length + cur.length + 1) % UINT_RANGE = pre.length + cur.length + 1 :=
      Nat.mod_eq_of_lt (by omega)
    have hm2 : (pre.length + 1) % UINT_RANGE = pre.length + 1 := Nat.mod_eq_of_lt (by omega)
    have hm3 : (pre.length + cur.length + UINT_RANGE - pre.length) % UINT_RANGE = cur.length := by
      have : pre.length + cur.length + UINT_RANGE - pre.length = cur.length + UINT_RANGE := by
        omega
      rw [this, Nat.add_mod_right]
      exact Nat.mod_eq_of_lt (by omega)
    have hdrop : strLine.drop pre.length = cur ++ c :: rest := by
      rw [hline, List.append_assoc, List.drop_left]
    have htake : (strLine.drop pre.length).take cur.length = cur := by
      rw [hdrop, List.take_left]
    simp only [TokenizeLoop, hpos, if_true, hget, find_first_of_ne_none, hm1, hm2, hm3, htake]
    by_cases hc : c ∈ strDelimiters
    · -- a delimiter: the current run, when there is one, is a token
      simp only [hc, if_true, List.splitOnP.go, decide_True, List.reverse_reverse,
        List.filter_cons]
      have hvec : (if pre.length + cur.length ≥ pre.length + 1 then vec ++ [cur] else vec) =
          vec ++ (if (!cur.isEmpty) = true then [cur] else []) := by
        cases cur with
        | nil => simp
        | cons a cur => simp
      rw [hvec]
      cases rest with
      | nil =>
        simp only [List.length_nil] at hlen
        obtain ⟨fuel, rfl⟩ : ∃ k, fuel = k + 1 := ⟨fuel - 1, by omega⟩
        rw [TokenizeLoop_exit _ _ _ _ _ _ (by omega)]
        simp [List.splitOnP.go]
      | cons d rest =>
        have := ih (pre ++ cur ++ [c]) [] (vec ++ (if (!cur.isEmpty) = true then [cur] else []))
          fuel (by simp) (by rw [hline]; simp) (by simp only [List.length_cons] at hfuel ⊢; omega)
        simp only [List.length_append, List.length_singleton, List.length_nil, Nat.add_zero,
          List.reverse_nil] at this
        rw [this]
        split <;> simp
    · -- not a delimiter: the run goes on, or ends with the line
      simp only [hc, if_false, List.splitOnP.go, decide_False, Bool.false_eq_true]
      cases rest with
      | nil =>
        simp only [List.length_nil] at hlen
        obtain ⟨fuel, rfl⟩ : ∃ k, fuel = k + 1 := ⟨fuel - 1, by omega⟩
        have hlast : pre.length + cur.length = strLine.length - 1 := by omega
        rw [if_pos hlast, TokenizeLoop_exit _ _ _ _ _ _ (by omega), hdrop]
        simp [List.splitOnP.go]
      | cons d rest =>
        have hnl : ¬ pre.length + cur.length = strLine.length - 1 := by
          simp only [List.length_cons] at hlen; omega
        rw [if_neg hnl]
        have := ih pre (cur ++ [c]) vec fuel (by simp) (by rw [hline]; simp)
          (by simp only [List.length_cons] at hfuel ⊢; omega)
        simp only [List.length_append, List.length_singleton, List.reverse_append,
          List.reverse_singleton, List.singleton_append] at this
        rw [← Nat.add_assoc] at this
        exact this

theorem Tokenize_eq_maximalRuns (strLine strDelimiters : Str)
    (hshort : strLine.length < UINT_RANGE) :
    Tokenize strLine strDelimiters = some (maximalRuns strDelimiters strLine) := by
  cases hl : strLine with
  | nil => simp [Tokenize, TokenizeLoop, maximalRuns, List.splitOnP, List.splitOnP.go]
  | cons c rest =>
    rw [← hl]
    have := TokenizeLoop_runs strLine strDelimiters hshort strLine [] [] []
      (strLine.length + 1) (by rw [hl]; simp) (by simp) (Nat.lt_succ_self _)
    simpa [Tokenize, maximalRuns, List.splitOnP] using this

theorem IsRuns.cons_delimiter {strDelimiters strLine : Str} {tokens : List Str} {c : Char}
    (hc : c ∈ strDelimiters) (h : IsRuns strDelimiters strLine tokens) :
    IsRuns strDelimiters (c :: strLine) tokens := by
  cases h with
  | done _ hall =>
    refine IsRuns.done _ (fun x hx => ?_)
    rcases List.mem_cons.mp hx with rfl | hx
    · exact hc
    · exact hall x hx
  | run seps tok rest tokens h1 h2 h3 h4 h5 =>
    have := IsRuns.run (c :: seps) tok rest tokens (fun x hx => by
      rcases List.mem_cons.mp hx with rfl | hx
      · exact hc
      · exact h1 x hx) h2 h3 h4 h5
    simpa using this

theorem splitOnP_go_runs (strDelimiters : Str) (rest : Str) :
    (IsRuns strDelimiters rest
      ((List.splitOnP.go (fun c => decide (c ∈ strDelimiters)) rest []).filter
        (fun t => !t.isEmpty))) ∧
    ∀ acc : Str, acc ≠ [] → ∃ (tok rest2 : Str) (tokens : List Str),
      (List.splitOnP.go (fun c => decide (c ∈ strDelimiters)) rest acc).filter
        (fun t => !t.isEmpty) = (acc.reverse ++ tok) :: tokens ∧
      rest = tok ++ rest2 ∧ (∀ c ∈ tok, c ∉ strDelimiters) ∧
      (∀ c ∈ rest2.head?, c ∈ strDelimiters) ∧ IsRuns strDelimiters rest2 tokens := by
  induction rest with
  | nil =>
    refine ⟨?_, fun acc hacc => ?_⟩
    · simpa [List.splitOnP.go] using @IsRuns.done strDelimiters [] (by simp)
    · refine ⟨[], [], [], ?_, rfl, by simp, by simp, IsRuns.done _ (by simp)⟩
      simp [List.splitOnP.go, hacc]
  | cons x xs ih =>
    obtain ⟨ih0, ih1⟩ := ih
    by_cases hx : x ∈ strDelimiters
    · refine ⟨?_, fun acc hacc => ?_⟩
      · simpa [List.splitOnP.go, hx] using ih0.cons_delimiter hx
      · refine ⟨[], x :: xs, _, ?_, rfl, by simp, by simpa using hx, ih0.cons_delimiter hx⟩
        simp [List.splitOnP.go, hx, hacc]
    · refine ⟨?_, fun acc hacc => ?_⟩
      · obtain ⟨tok, rest2, tokens, h1, h2, h3, h4, h5⟩ := ih1 [x] (by simp)
        simp only [List.splitOnP.go, hx, decide_False, Bool.false_eq_true, if_false, h1]
        have := IsRuns.run [] (x :: tok) rest2 tokens (by simp) (by simp)
          (fun c hc => by
            rcases List.mem_cons.mp hc with rfl | hc
            · exact hx
            · exact h3 c hc) h4 h5
        simpa [h2] using this
      · obtain ⟨tok, rest2, tokens, h1, h2, h3, h4, h5⟩ := ih1 (x :: acc) (by simp)
        refine ⟨x :: tok, rest2, tokens, ?_, by simp [h2], ?_, h4, h5⟩
        · simp only [List.splitOnP.go, hx, decide_False, Bool.false_eq_true, if_false, h1]
          simp
        · intro c hc
          rcases List.mem_cons.mp hc with rfl | hc
          · exact hx
          · exact h3 c hc

/-- The list `maximalRuns` is the list of the maximal runs as `IsRuns` words it. -/
theorem maximalRuns_isRuns (strDelimiters strLine : Str) :
    IsRuns strDelimiters strLine (maximalRuns strDelimiters strLine) :=
  (splitOnP_go_runs strDelimiters strLine).1

theorem append_eq_takeWhile {p : Char → Bool} {a b l : Str} (hl : l = a ++ b)
    (ha : ∀ c ∈ a, p c = true) (hb : ∀ c ∈ b.head?, p c = false) :
    a = l.takeWhile p ∧ b = l.dropWhile p := by
  subst hl
  induction a with
  | nil =>
    cases b with
    | nil => simp
    | cons x xs =>
      have hx : p x = false := hb x (by simp)
      simp [List.takeWhile_cons, List.dropWhile_cons, hx]
  | cons x xs ih =>
    have hx : p x = true := ha x (List.mem_cons_self _ _)
    obtain ⟨h1, h2⟩ := ih (fun c hc => ha c (List.mem_cons_of_mem _ hc))
    constructor
    · simp only [List.cons_append, List.takeWhile_cons, hx, if_true]
      rw [← h1]
    · simp only [List.cons_append, List.dropWhile_cons, hx, if_true]
      exact h2

/-- The maximal runs of a line are determined: `IsRuns` holds of one list of
tokens only. -/
theorem IsRuns.unique {strDelimiters strLine : Str} {t1 t2 : List Str}
    (h1 : IsRuns strDelimiters strLine t1) (h2 : IsRuns strDelimiters strLine t2) : t1 = t2 := by
  induction h1 generalizing t2 with
  | done line hall =>
    cases h2 with
    | done _ _ => rfl
    | run seps tok rest tokens g1 g2 g3 g4 g5 =>
      exfalso
      cases tok with
      | nil => exact g2 rfl
      | cons x xs =>
        exact g3 x (List.mem_cons_self _ _) (hall x (by simp))
  | run seps tok rest tokens g1 g2 g3 g4 g5 ih =>
    generalize hline : seps ++ tok ++ rest = line at h2
    cases h2 with
    | done _ hall =>
      exfalso
      cases tok with
      | nil => exact g2 rfl
      | cons x xs =>
        exact g3 x (List.mem_cons_self _ _) (hall x (by rw [← hline]; simp))
    | run seps2 tok2 rest2 tokens2 k1 k2 k3 k4 k5 =>
      have hd : ∀ {tk rs : Str}, tk ≠ [] → (∀ c ∈ tk, c ∉ strDelimiters) →
          ∀ c ∈ (tk ++ rs).head?, decide (c ∈ strDelimiters) = false := by
        intro tk rs hne hclean c hc
        cases tk with
        | nil => exact absurd rfl hne
        | cons x xs =>
          simp only [List.cons_append, List.head?_cons, Option.mem_def, Option.some.injEq] at hc
          subst hc
          simpa using hclean x (List.mem_cons_self _ _)
      obtain ⟨a1, a2⟩ := append_eq_takeWhile (p := fun c => decide (c ∈ strDelimiters))
        (l := seps ++ tok ++ rest) (a := seps) (b := tok ++ rest) (by simp)
        (fun c hc => by simpa using g1 c hc) (hd g2 g3)
      obtain ⟨b1, b2⟩ := append_eq_takeWhile (p := fun c => decide (c ∈ strDelimiters))
        (l := seps ++ tok ++ rest) (a := seps2) (b := tok2 ++ rest2) (by rw [hline]; simp)
        (fun c hc => by simpa using k1 c hc) (hd k2 k3)
      have hrest : tok ++ rest = tok2 ++ rest2 := by rw [a2, b2]
      obtain ⟨c1, c2⟩ := append_eq_takeWhile (p := fun c => !decide (c ∈ strDelimiters))
        (l := tok ++ rest) (a := tok) (b := rest) rfl
        (fun c hc => by simpa using g3 c hc) (fun c hc => by simpa using g4 c hc)
      obtain ⟨d1, d2⟩ := append_eq_takeWhile (p := fun c => !decide (c ∈ strDelimiters))
        (l := tok ++ rest) (a := tok2) (b := rest2) hrest
        (fun c hc => by simpa using k3 c hc) (fun c hc => by simpa using k4 c hc)
      have htok : tok = tok2 := by rw [c1, d1]
      have hr : rest = rest2 := by rw [c2, d2]
      subst htok hr
      rw [ih k5]

/-- Below the width of `pos`, `Tokenize` skips multiple delimiters. For every
line of fewer than `UINT_RANGE = 2^32` characters and every delimiter string,
`Tokenize` returns, in order, exactly
the maximal runs of consecutive characters of the line that are not delimiters;
every token is non-empty and contains no delimiter character, so leading,
trailing and repeated delimiters produce no empty token. -/
theorem Tokenize_maximal_runs (strLine strDelimiters : Str)
    (hshort : strLine.length < UINT_RANGE) :
    Tokenize strLine strDelimiters = some (maximalRuns strDelimiters strLine) ∧
    (∀ tokens, IsRuns strDelimiters strLine tokens ↔
      tokens = maximalRuns strDelimiters strLine) ∧
    ∀ t ∈ maximalRuns strDelimiters strLine, t ≠ [] ∧ ∀ c ∈ t, c ∉ strDelimiters :=
  ⟨Tokenize_eq_maximalRuns strLine strDelimiters hshort,
    fun _ => ⟨fun h => h.unique (maximalRuns_isRuns strDelimiters strLine),
      fun h => h ▸ maximalRuns_isRuns strDelimiters strLine⟩,
    maximalRuns_clean strDelimiters strLine⟩

/-- The hypothesis of `Tokenize_maximal_runs` holds of the line `  a b,,c ` with
the delimiters space and comma, whose tokens are `a`, `b` and `c`, and so does
its conclusion. -/
theorem Tokenize_maximal_runs_witness :
    ([' ', ' ', 'a', ' ', 'b', ',', ',', 'c', ' '] : Str).length < UINT_RANGE ∧
    maximalRuns [' ', ','] [' ', ' ', 'a', ' ', 'b', ',', ',', 'c', ' '] = [['a'], ['b'], ['c']] ∧
    (Tokenize [' ', ' ', 'a', ' ', 'b', ',', ',', 'c', ' '] [' ', ','] =
      some (maximalRuns [' ', ','] [' ', ' ', 'a', ' ', 'b', ',', ',', 'c', ' ']) ∧
    (∀ tokens, IsRuns [' ', ','] [' ', ' ', 'a', ' ', 'b', ',', ',', 'c', ' '] tokens ↔
      tokens = maximalRuns [' ', ','] [' ', ' ', 'a', ' ', 'b', ',', ',', 'c', ' ']) ∧
    ∀ t ∈ maximalRuns [' ', ','] [' ', ' ', 'a', ' ', 'b', ',', ',', 'c', ' '],
      t ≠ [] ∧ ∀ c ∈ t, c ∉ [' ', ',']) :=
  ⟨by decide, by decide, Tokenize_maximal_runs _ _ (by decide)⟩

theorem longLine_length : longLine.length = UINT_RANGE + 1 := List.length_replicate _ _

theorem longLine_getD (pos : Nat) (h : pos < UINT_RANGE) : longLine.getD pos ' ' = 'a' := by
  have hlt : pos < longLine.length := by rw [longLine_length]; omega
  rw [List.getD_eq_getElem _ _ hlt]
  exact List.getElem_replicate _ _

theorem maximalRuns_no_delimiter (strDelimiters strLine : Str) (hne : strLine ≠ [])
    (h : ∀ c ∈ strLine, c ∉ strDelimiters) :
    maximalRuns strDelimiters strLine = [strLine] := by
  rw [maximalRuns, List.splitOnP_eq_single _ _ (fun c hc => by simpa using h c hc)]
  cases strLine with
  | nil => exact absurd rfl hne
  | cons x xs => rfl

/-- C14 fails on the code for a line of `2^32` characters or more, because `pos`
and `last` are `unsigned int` (StringUtils.cpp 23) while the length of the line
is a `size_t`. On the line `longLine` of `2^32 + 1` letters `a`, with the space
as the delimiter, the claim asks for one token, the line itself. In the code
every iteration, from any value of `pos`, goes on to the next one with `last`
and the vector as they were: no character is a delimiter and `pos` is never
`size() - 1 = 2^32`, so nothing is pushed, and `pos + 1` wraps around to 0
before it reaches the size. The loop does not end, whatever the fuel, and
`Tokenize` returns no token list. The same holds of every line of `2^32`
characters or more, and for every shorter line `Tokenize` returns the maximal
runs. -/
theorem Tokenize_long_line_never_ends :
    maximalRuns [' '] longLine = [longLine] ∧
    (∀ (fuel pos : Nat) (vecStrings : List Str), pos < UINT_RANGE →
      TokenizeLoop longLine [' '] (fuel + 1) pos 0 vecStrings =
        TokenizeLoop longLine [' '] fuel ((pos + 1) % UINT_RANGE) 0 vecStrings) ∧
    (¬ ∃ fuel, TokenizeLoop longLine [' '] fuel 0 0 [] ≠ none) ∧
    Tokenize longLine [' '] = none ∧
    (∀ strLine strDelimiters : Str, UINT_RANGE ≤ strLine.length →
      ¬ ∃ fuel, TokenizeLoop strLine strDelimiters fuel 0 0 [] ≠ none) ∧
    ∀ strLine strDelimiters : Str, strLine.length < UINT_RANGE →
      Tokenize strLine strDelimiters = some (maximalRuns strDelimiters strLine) := by
  have hlong : UINT_RANGE ≤ longLine.length := by rw [longLine_length]; omega
  refine ⟨?_, ?_, ?_, ?_, ?_, Tokenize_eq_maximalRuns⟩
  · refine maximalRuns_no_delimiter _ _ ?_ ?_
    · intro h
      have := longLine_length
      rw [h] at this
      simp at this
    · intro c hc
      rw [longLine, List.mem_replicate] at hc
      rw [hc.2]
      decide
  · intro fuel pos vec hpos
    have hlt : pos < longLine.length := by rw [longLine_length]; omega
    have hlast : ¬ pos = longLine.length - 1 := by rw [longLine_length]; omega
    have hdel : find_first_of [' '] (longLine.getD pos ' ') = none := by
      rw [longLine_getD pos hpos]; decide
    simp only [TokenizeLoop, hlt, if_true, hdel, ne_eq, not_true_eq_false, if_false, hlast]
  · rintro ⟨fuel, h⟩
    exact h (TokenizeLoop_long_line _ _ hlong fuel 0 0 [] (by decide))
  · exact TokenizeLoop_long_line _ _ hlong _ 0 0 [] (by decide)
  · rintro strLine strDelimiters h ⟨fuel, hf⟩
    exact hf (TokenizeLoop_long_line _ _ h fuel 0 0 [] (by decide))

/-! ## `GetKeyValue` -/

theorem find_single (d : Char) (t : Str) :
    find t [d] = if d ∈ t then some (t.takeWhile (fun c => c ≠ d)).length else none := by
  induction t with
  | nil => simp [find, List.isPrefixOf]
  | cons x xs ih =>
    by_cases hx : d = x
    · subst hx
      simp [find, List.isPrefixOf, List.takeWhile_cons]
    · have hx2 : ¬ x = d := fun h => hx h.symm
      have hbeq : (d == x) = false := by simpa using hx
      simp only [find, List.isPrefixOf, hbeq, Bool.false_and, Bool.false_eq_true, if_false, ih,
        List.mem_cons, hx, false_or]
      split
      · simp [List.takeWhile_cons, hx2]
      · rfl

theorem Split_single (d : Char) (t strLeft strRight : Str) :
    Split t [d] strLeft strRight =
      if d ∈ t then
        (true, t.takeWhile (fun c => c ≠ d), (t.dropWhile (fun c => c ≠ d)).drop 1)
      else (false, strLeft, strRight) := by
  by_cases hd : d ∈ t
  · simp only [Split, find_single, hd, if_true]
    have h := List.takeWhile_append_dropWhile (fun c => decide (c ≠ d)) t
    generalize List.takeWhile (fun c => decide (c ≠ d)) t = tw at h ⊢
    generalize List.dropWhile (fun c => decide (c ≠ d)) t = dw at h ⊢
    subst h
    have h2 : List.drop (tw.length + 1) (tw ++ dw) = List.drop 1 dw := by
      rw [← List.drop_drop, List.drop_left]
    rw [List.take_left, h2]
  · simp only [Split, find_single, hd, if_false]

theorem Split_eq (t strLeft strRight : Str) :
    Split t ['='] strLeft strRight =
      if '=' ∈ t then (true, beforeFirstEq t, afterFirstEq t) else (false, strLeft, strRight) :=
  Split_single '=' t strLeft strRight

theorem GetKeyValueLoop_eq (strKey strValue : Str) (tokens : List Str) :
    GetKeyValueLoop strKey tokens strValue = keyValueOf strKey strValue tokens := by
  induction tokens with
  | nil => rfl
  | cons t rest ih =>
    have hrest : keyValueOf strKey strValue (t :: rest) =
        if isKeyToken strKey t = true then (true, afterFirstEq t)
        else keyValueOf strKey strValue rest := by
      simp only [keyValueOf, List.find?_cons]
      cases isKeyToken strKey t <;> simp
    rw [hrest]
    simp only [GetKeyValueLoop, Split_eq, ih]
    by_cases h1 : '=' ∈ t
    · by_cases h2 : beforeFirstEq t = strKey
      · have hk : isKeyToken strKey t = true := by simp [isKeyToken, h1, h2]
        simp only [h1, if_true, h2, and_self, hk]
      · have hk : isKeyToken strKey t = false := by simp [isKeyToken, h2]
        simp only [h1, if_true, h2, and_false, if_false, hk, Bool.false_eq_true]
    · have hk : isKeyToken strKey t = false := by simp [isKeyToken, h1]
      simp only [h1, if_false, Bool.false_eq_true, false_and, hk]

theorem keyValueOf_true_iff (strKey strValue : Str) (tokens : List Str) :
    (keyValueOf strKey strValue tokens).1 = true ↔
      ∃ t ∈ tokens, '=' ∈ t ∧ beforeFirstEq t = strKey := by
  simp only [keyValueOf]
  cases hf : tokens.find? (isKeyToken strKey) with
  | none =>
    simp only [Bool.false_eq_true, false_iff, not_exists, not_and]
    intro t ht heq hkey
    have := List.find?_eq_none.mp hf t ht
    simp [isKeyToken, heq, hkey] at this
  | some t =>
    simp only [true_iff]
    have hmem := List.mem_of_find?_eq_some hf
    have hp := List.find?_some hf
    simp only [isKeyToken, Bool.and_eq_true, decide_eq_true_eq] at hp
    exact ⟨t, hmem, hp.1, hp.2⟩

/-- C15. For every line `str`, key `strKey` and token-delimiter string,
`GetKeyValue` returns when `Tokenize` does, and then it returns true iff some
token of `Tokenize(str, strToken)` contains `=` and its text before the first
`=` equals `strKey`; in that case `strValue` is set to the text after the first
`=` of the first such token, and otherwise `strValue` is left unchanged. It
returns for every line of fewer than `UINT_RANGE` characters. -/
theorem GetKeyValue_spec (str strKey strValue strToken : Str) :
    GetKeyValue str strKey strValue strToken =
      (Tokenize str strToken).map (keyValueOf strKey strValue) ∧
    (∀ tokens, ((keyValueOf strKey strValue tokens).1 = true ↔
        ∃ t ∈ tokens, '=' ∈ t ∧ beforeFirstEq t = strKey) ∧
      ((keyValueOf strKey strValue tokens).1 = true →
        ∃ t, tokens.find? (fun t => decide ('=' ∈ t ∧ beforeFirstEq t = strKey)) = some t ∧
          (keyValueOf strKey strValue tokens).2 = afterFirstEq t) ∧
      ((keyValueOf strKey strValue tokens).1 = false →
        (keyValueOf strKey strValue tokens).2 = strValue)) ∧
    (str.length < UINT_RANGE →
      GetKeyValue str strKey strValue strToken =
        some (keyValueOf strKey strValue (maximalRuns strToken str))) := by
  have heq : GetKeyValue str strKey strValue strToken =
      (Tokenize str strToken).map (keyValueOf strKey strValue) := by
    simp only [GetKeyValue]
    congr 1
    funext tokens
    exact GetKeyValueLoop_eq strKey strValue tokens
  refine ⟨heq, fun tokens => ⟨keyValueOf_true_iff strKey strValue tokens, ?_, ?_⟩, ?_⟩
  · intro h
    have hfun : (fun t => decide ('=' ∈ t ∧ beforeFirstEq t = strKey)) = isKeyToken strKey := by
      funext t
      simp [isKeyToken]
    rw [hfun]
    simp only [keyValueOf] at h ⊢
    cases hf : tokens.find? (isKeyToken strKey) with
    | none => rw [hf] at h; cases h
    | some t => exact ⟨t, rfl, rfl⟩
  · intro h
    simp only [keyValueOf] at h ⊢
    cases hf : tokens.find? (isKeyToken strKey) with
    | none => rfl
    | some t => rw [hf] at h; cases h
  · intro hshort
    rw [heq, Tokenize_eq_maximalRuns str strToken hshort]
    rfl

/-! ## The calls of one share in one pass -/

theorem flagsShare_interactive {e : Event} (h : e.site = Site.interactive) :
    e.flagsShare = false := by
  simp [Event.flagsShare, h]

theorem pairwise_unflagged {evs : List Event} (h : ∀ e ∈ evs, e.flagsShare = false) :
    evs.Pairwise (fun e _ => e.flagsShare = false) :=
  List.pairwise_of_forall_mem_list (fun a ha _ _ => h a ha)

theorem connectShare_block (env : Env) (m : CWinMount) (iRetryCount idx fuel : Nat)
    (netShare : CNetShare) (w : World) :
    ∃ evs : List Event,
      (connectShare env m iRetryCount idx fuel netShare w).2.2.log = w.log ++ evs ∧
      (∀ e ∈ evs, e.site ≠ Site.unmount ∧ e.share = idx ∧ e.iRetryCount = iRetryCount) ∧
      evs.Pairwise (fun e _ => e.flagsShare = false) ∧
      (∀ e ∈ evs, e.flagsShare = true →
        (connectShare env m iRetryCount idx fuel netShare w).2.1 = netShare.SetMapped) ∧
      ((connectShare env m iRetryCount idx fuel netShare w).2.1 = netShare ∨
        ((connectShare env m iRetryCount idx fuel netShare w).2.1 = netShare.SetMapped ∧
          ∃ e ∈ evs, e.flagsShare = true)) := by
  have hinter : ∀ (b : Bool) (w1 : World), ∃ evs : List Event,
      (tryInteractive env m iRetryCount idx fuel b netShare w1).2.2.log = w1.log ++ evs ∧
      (∀ e ∈ evs, e.site ≠ Site.unmount ∧ e.share = idx ∧ e.iRetryCount = iRetryCount) ∧
      (∀ e ∈ evs, e.flagsShare = false) ∧
      (tryInteractive env m iRetryCount idx fuel b netShare w1).2.1 = netShare := by
    intro b w1
    obtain ⟨evs, h1, h2, -, h4⟩ := tryInteractive_log env m iRetryCount idx fuel b netShare w1
    refine ⟨evs, by rw [h1], fun e he => ?_, fun e he => ?_, h4⟩
    · obtain ⟨hs, hi, hp⟩ := h2 e he
      exact ⟨by rw [hs]; decide, hi, hp⟩
    · exact flagsShare_interactive (h2 e he).1
  simp only [connectShare]
  split
  · split
    · exact ⟨[], by simp [escPressed], by simp, List.Pairwise.nil, by simp, Or.inl rfl⟩
    · obtain ⟨ev, hs, hi, hp, -, -, hc⟩ := osCall_spec env (escPressed env w).2 iRetryCount idx
        Site.silent (Call.WNetAddConnection2 netShare.GetLocalName netShare.GetRemoteName
          m.m_dwConnectFlags)
      rw [hc]
      have hmem : ∀ e ∈ [ev],
          e.site ≠ Site.unmount ∧ e.share = idx ∧ e.iRetryCount = iRetryCount := by
        intro e he
        rw [List.mem_singleton] at he
        subst he
        exact ⟨by rw [hs]; decide, hi, hp⟩
      simp only
      split
      · rename_i h1
        have hev : ev.flagsShare = true := by
          rcases h1 with h | h | h <;> simp [Event.flagsShare, hs, h]
        exact ⟨[ev], by simp [escPressed], hmem, List.pairwise_singleton _ _,
          fun _ _ _ => rfl, Or.inr ⟨rfl, ev, List.mem_singleton_self _, hev⟩⟩
      · split
        · rename_i h1 h2
          have hev : ev.flagsShare = true := by
            rcases h2 with h | h | h <;> simp [Event.flagsShare, hs, h]
          exact ⟨[ev], by simp [escPressed], hmem, List.pairwise_singleton _ _,
            fun _ _ _ => rfl, Or.inr ⟨rfl, ev, List.mem_singleton_self _, hev⟩⟩
        · rename_i h1 h2
          have hev : ev.flagsShare = false := by
            simp only [not_or] at h1 h2
            simp [Event.flagsShare, hs, h1.1, h1.2.1, h1.2.2, h2.1, h2.2.1]
          obtain ⟨evs, g1, g2, g3, g4⟩ := hinter
            (decide (ev.result ≠ ERROR_LOGON_FAILURE ∧ ev.result ≠ ERROR_BAD_DEV_TYPE))
            { (escPressed env w).2 with log := (escPressed env w).2.log ++ [ev] }
          refine ⟨ev :: evs, ?_, ?_, ?_, ?_, Or.inl g4⟩
          · rw [g1]; simp [escPressed]
          · intro e he
            rcases List.mem_cons.mp he with rfl | he
            · exact hmem _ (List.mem_singleton_self _)
            · exact g2 e he
          · exact List.pairwise_cons.mpr ⟨fun _ _ => hev, pairwise_unflagged g3⟩
          · intro e he hf
            rcases List.mem_cons.mp he with rfl | he
            · rw [hev] at hf; cases hf
            · rw [g3 e he] at hf; cases hf
  · obtain ⟨evs, g1, g2, g3, g4⟩ := hinter false w
    refine ⟨evs, g1, g2, pairwise_unflagged g3, ?_, Or.inl g4⟩
    intro e he hf
    rw [g3 e he] at hf
    cases hf

/-- The calls that the body of the loop makes for one share in one pass. A
share that is flagged as mapped gets no call. A call that flags the share is
the last one, and the share is flagged after it. The only change ever made to a
share is to flag it. With `-u`, the first call is the unmount, and a connection
attempt follows only when it returned `NO_ERROR` or `ERROR_NOT_CONNECTED`. -/
theorem mapShare_block (env : Env) (m : CWinMount) (iRetryCount idx fuel : Nat)
    (netShare : CNetShare) (w : World) :
    ∃ evs : List Event,
      (mapShare env m iRetryCount idx fuel netShare w).2.2.log = w.log ++ evs ∧
      (∀ e ∈ evs, e.share = idx ∧ e.iRetryCount = iRetryCount) ∧
      (netShare.IsMapped = true → evs = []) ∧
      evs.Pairwise (fun e _ => e.flagsShare = false) ∧
      (∀ e ∈ evs, e.flagsShare = true →
        (mapShare env m iRetryCount idx fuel netShare w).2.1 = netShare.SetMapped) ∧
      ((mapShare env m iRetryCount idx fuel netShare w).2.1 = netShare ∨
        ((mapShare env m iRetryCount idx fuel netShare w).2.1 = netShare.SetMapped ∧
          netShare.IsMapped = false ∧ ∃ e ∈ evs, e.flagsShare = true)) ∧
      (m.m_bUnmount = true → ∀ pre e post, evs = pre ++ e :: post → e.site ≠ Site.unmount →
        ∃ u ∈ pre, u.site = Site.unmount ∧ u.share = e.share ∧
          u.iRetryCount = e.iRetryCount ∧
          u.call = Call.WNetCancelConnection2 netShare.GetLocalName ∧
          (u.result = NO_ERROR ∨ u.result = ERROR_NOT_CONNECTED)) := by
  have hconn : ∀ w1 : World, netShare.IsMapped = false → ∃ evs : List Event,
      (connectShare env m iRetryCount idx fuel netShare w1).2.2.log = w1.log ++ evs ∧
      (∀ e ∈ evs, e.site ≠ Site.unmount ∧ e.share = idx ∧ e.iRetryCount = iRetryCount) ∧
      evs.Pairwise (fun e _ => e.flagsShare = false) ∧
      (∀ e ∈ evs, e.flagsShare = true →
        (connectShare env m iRetryCount idx fuel netShare w1).2.1 = netShare.SetMapped) ∧
      ((connectShare env m iRetryCount idx fuel netShare w1).2.1 = netShare ∨
        ((connectShare env m iRetryCount idx fuel netShare w1).2.1 = netShare.SetMapped ∧
          netShare.IsMapped = false ∧ ∃ e ∈ evs, e.flagsShare = true)) := by
    intro w1 hun
    obtain ⟨evs, h1, h2, h3, h4, h5⟩ := connectShare_block env m iRetryCount idx fuel netShare w1
    exact ⟨evs, h1, h2, h3, h4, h5.imp id (fun h => ⟨h.1, hun, h.2⟩)⟩
  simp only [mapShare]
  split
  · rename_i hun
    have hun : netShare.IsMapped = false := by simpa using hun
    have hnm : netShare.IsMapped = true → ([] : List Event) = [] := fun _ => rfl
    split
    · rename_i hu
      split
      · exact ⟨[], by simp [escPressed], by simp, hnm, List.Pairwise.nil, by simp, Or.inl rfl,
          fun _ pre e post h => by simp at h⟩
      · obtain ⟨ev, hs, hi, hp, hcall, -, hc⟩ := osCall_spec env (escPressed env w).2
          iRetryCount idx Site.unmount (Call.WNetCancelConnection2 netShare.GetLocalName)
        rw [hc]
        simp only
        split
        · -- the unmount failed
          rename_i hfail
          have hev : ev.flagsShare = true := by
            simp [Event.flagsShare, hs, hfail.1, hfail.2]
          refine ⟨[ev], by simp [escPressed], ?_, (fun h => by rw [hun] at h; cases h),
            List.pairwise_singleton _ _, fun _ _ _ => rfl,
            Or.inr ⟨rfl, hun, ev, List.mem_singleton_self _, hev⟩, ?_⟩
          · intro e he
            rw [List.mem_singleton] at he
            subst he
            exact ⟨hi, hp⟩
          · intro _ pre e post h hsite
            rcases List.cons_eq_append_iff.mp h with ⟨rfl, h2⟩ | ⟨pre2, rfl, h2⟩
            · simp only [List.cons.injEq] at h2
              obtain ⟨he, -⟩ := h2
              subst he
              exact absurd hs hsite
            · simp at h2
        · rename_i hok
          have hok : ev.result = NO_ERROR ∨ ev.result = ERROR_NOT_CONNECTED := by
            by_contra hcon
            simp only [not_or] at hcon
            exact hok ⟨hcon.1, hcon.2⟩
          have hev : ev.flagsShare = false := by
            rcases hok with h | h <;> simp [Event.flagsShare, hs, h]
          obtain ⟨evs, g1, g2, g3, g4, g5⟩ :=
            hconn { (escPressed env w).2 with log := (escPressed env w).2.log ++ [ev] } hun
          refine ⟨ev :: evs, ?_, ?_, (fun h => by rw [hun] at h; cases h), ?_, ?_,
            g5.imp id (fun ⟨a, b, e, he, hf⟩ => ⟨a, b, e, List.mem_cons_of_mem _ he, hf⟩), ?_⟩
          · rw [g1]; simp [escPressed]
          · intro e he
            rcases List.mem_cons.mp he with rfl | he
            · exact ⟨hi, hp⟩
            · exact (g2 e he).2
          · exact List.pairwise_cons.mpr ⟨fun _ _ => hev, g3⟩
          · intro e he hf
            rcases List.mem_cons.mp he with rfl | he
            · rw [hev] at hf; cases hf
            · exact g4 e he hf
          · intro _ pre e post h hsite
            rcases List.cons_eq_append_iff.mp h with ⟨rfl, h2⟩ | ⟨pre2, rfl, h2⟩
            · simp only [List.cons.injEq] at h2
              obtain ⟨he, -⟩ := h2
              subst he
              exact absurd hs hsite
            · have hmem : e ∈ evs := by rw [h2]; simp
              obtain ⟨-, a, b⟩ := g2 e hmem
              exact ⟨ev, List.mem_cons_self _ _, hs, by rw [hi, a], by rw [hp, b], hcall, hok⟩
    · rename_i hu
      obtain ⟨evs, g1, g2, g3, g4, g5⟩ := hconn w hun
      exact ⟨evs, g1, fun e he => (g2 e he).2, (fun h => by rw [hun] at h; cases h), g3, g4, g5,
        fun h => absurd h hu⟩
  · rename_i hm
    have hm : netShare.IsMapped = true := by simpa using hm
    exact ⟨[], by simp, by simp, fun _ => rfl, List.Pairwise.nil, by simp, Or.inl rfl,
      (fun _ pre e post h => by simp at h)⟩

/-! ## What holds throughout a run -/

theorem getD_map_at {β : Type} (f : CNetShare → β) (d : β) (done tl : List CNetShare)
    (s : CNetShare) : ((done ++ s :: tl).map f).getD done.length d = f s := by
  rw [List.map_append, List.getD_append_right _ _ _ _ (by simp)]
  simp

theorem getD_map_other {β : Type} (f : CNetShare → β) (d : β) (done tl : List CNetShare)
    (s s2 : CNetShare) (j : Nat) (hj : j ≠ done.length) :
    ((done ++ s :: tl).map f).getD j d = ((done ++ s2 :: tl).map f).getD j d := by
  rcases Nat.lt_or_gt_of_ne hj with hlt | hgt
  · rw [List.map_append, List.map_append, List.getD_append _ _ _ _ (by simpa using hlt),
      List.getD_append _ _ _ _ (by simpa using hlt)]
  · rw [List.map_append, List.map_append, List.getD_append_right _ _ _ _ (by simp; omega),
      List.getD_append_right _ _ _ _ (by simp; omega)]
    obtain ⟨k, hk⟩ : ∃ k, j - (done.map f).length = k + 1 := ⟨j - done.length - 1, by simp; omega⟩
    rw [hk]
    simp

theorem UnmountFirst.append {shares : List CNetShare} {l1 l2 : List Event}
    (h1 : UnmountFirst shares l1) (h2 : UnmountFirst shares l2) :
    UnmountFirst shares (l1 ++ l2) := by
  intro pre e post hlog hsite
  rcases List.append_eq_append_iff.mp hlog with ⟨a, rfl, ha⟩ | ⟨c, rfl, hc⟩
  · obtain ⟨u, hu, rest⟩ := h2 a e post ha hsite
    exact ⟨u, List.mem_append_right _ hu, rest⟩
  · cases c with
    | nil =>
      simp only [List.nil_append] at hc
      obtain ⟨u, hu, -⟩ := h2 [] e post (by simpa using hc.symm) hsite
      simp at hu
    | cons x c =>
      simp only [List.cons_append, List.cons.injEq] at hc
      obtain ⟨rfl, rfl⟩ := hc
      obtain ⟨u, hu, rest⟩ := h1 pre e c (by simp) hsite
      exact ⟨u, hu, rest⟩

theorem mapShare_inv (env : Env) (m : CWinMount) (shares0 : List CNetShare)
    (iRetryCount fuel : Nat) (done tl : List CNetShare) (netShare : CNetShare) (w : World)
    (h : RunInv m shares0 w.log (done ++ netShare :: tl)) :
    RunInv m shares0 (mapShare env m iRetryCount done.length fuel netShare w).2.2.log
      (done ++ (mapShare env m iRetryCount done.length fuel netShare w).2.1 :: tl) := by
  obtain ⟨evs, h1, h2, h3, h4, h5, h6, h7⟩ :=
    mapShare_block env m iRetryCount done.length fuel netShare w
  rcases hr : mapShare env m iRetryCount done.length fuel netShare w with ⟨flow, s1, w1⟩
  rw [hr] at h1 h5 h6
  simp only at h1 h5 h6 ⊢
  have hname : s1.GetLocalName = netShare.GetLocalName := by
    rcases h6 with h6 | ⟨h6, -⟩
    · rw [h6]
    · rw [h6]; rfl
  have hmapped : netShare.IsMapped = true → s1.IsMapped = true := by
    intro hm
    rcases h6 with h6 | ⟨h6, -⟩ <;> rw [h6]
    · exact hm
    · rfl
  have hold : mappedAt (done ++ netShare :: tl) done.length = netShare.IsMapped :=
    getD_map_at _ _ _ _ _
  have hnew : mappedAt (done ++ s1 :: tl) done.length = s1.IsMapped := getD_map_at _ _ _ _ _
  have hmono : ∀ j, mappedAt (done ++ netShare :: tl) j = true →
      mappedAt (done ++ s1 :: tl) j = true := by
    intro j hj
    by_cases hjd : j = done.length
    · subst hjd
      rw [hnew]
      rw [hold] at hj
      exact hmapped hj
    · rw [mappedAt, ← getD_map_other _ _ done tl netShare s1 j hjd]
      exact hj
  have hlocal : netShare.GetLocalName = localNameAt shares0 done.length := by
    rw [localNameAt, ← h.names]
    exact (getD_map_at _ _ _ _ _).symm
  rw [h1]
  refine ⟨?_, fun j hj => hmono j (h.mono j hj), ?_, ?_, ?_, ?_, ?_⟩
  · rw [← h.names]
    simp [hname]
  · intro e he
    rcases List.mem_append.mp he with he | he
    · exact h.fresh e he
    · have hne : evs ≠ [] := List.ne_nil_of_mem he
      have hun : netShare.IsMapped = false := by
        cases hm : netShare.IsMapped with
        | false => rfl
        | true => exact absurd (h3 hm) hne
      rw [(h2 e he).1]
      cases hs : mappedAt shares0 done.length with
      | false => rfl
      | true =>
        have := h.mono _ hs
        rw [hold, hun] at this
        cases this
  · intro e he hf
    rcases List.mem_append.mp he with he | he
    · exact hmono _ (h.flagged e he hf)
    · rw [(h2 e he).1, hnew, h5 e he hf]
      rfl
  · intro j hj
    have hgrow : (mappedAt shares0 j = true ∨ ∃ e ∈ w.log, e.share = j ∧ e.flagsShare = true) →
        (mappedAt shares0 j = true ∨
          ∃ e ∈ w.log ++ evs, e.share = j ∧ e.flagsShare = true) :=
      Or.imp id (fun ⟨e, he, r⟩ => ⟨e, List.mem_append_left _ he, r⟩)
    by_cases hjd : j = done.length
    · subst hjd
      rw [hnew] at hj
      rcases h6 with h6 | ⟨-, -, e, he, hf⟩
      · refine hgrow (h.caused _ ?_)
        rw [hold, ← h6]
        exact hj
      · exact Or.inr ⟨e, List.mem_append_right _ he, (h2 e he).1, hf⟩
    · refine hgrow (h.caused _ ?_)
      rw [mappedAt, getD_map_other _ _ done tl netShare s1 j hjd]
      exact hj
  · refine List.pairwise_append.mpr ⟨h.quiet, h4.imp (fun hf hf2 => ?_), ?_⟩
    · rw [hf] at hf2; cases hf2
    · intro a ha b hb hf hshare
      have hm := h.flagged a ha hf
      rw [← hshare, (h2 b hb).1, hold] at hm
      rw [h3 hm] at hb
      simp at hb
  · intro hu
    refine (h.unmountFirst hu).append ?_
    intro pre e post hevs hsite
    obtain ⟨u, hu1, hu2, hu3, hu4, hu5, hu6⟩ := h7 hu pre e post hevs hsite
    have he : e ∈ evs := by rw [hevs]; simp
    refine ⟨u, hu1, hu2, hu3, hu4, ?_, hu6⟩
    rw [hu5, hlocal, (h2 e he).1]

theorem mapShares_inv (env : Env) (m : CWinMount) (shares0 : List CNetShare)
    (iRetryCount fuel : Nat) (tl : List CNetShare) :
    ∀ (done : List CNetShare) (w : World), RunInv m shares0 w.log (done ++ tl) →
      RunInv m shares0 (mapShares env m iRetryCount fuel done.length tl w).2.2.log
        (done ++ (mapShares env m iRetryCount fuel done.length tl w).2.1) := by
  induction tl with
  | nil => intro done w h; simpa [mapShares] using h
  | cons s tl ih =>
    intro done w h
    have hstep := mapShare_inv env m shares0 iRetryCount fuel done tl s w h
    simp only [mapShares]
    rcases hr : mapShare env m iRetryCount done.length fuel s w with ⟨flow, s1, w1⟩
    rw [hr] at hstep
    simp only at hstep
    cases flow with
    | next =>
      simp only
      have := ih (done ++ [s1]) w1 (by simpa using hstep)
      simpa using this
    | ret b => exact hstep
    | fuelOut => exact hstep

theorem MapDrivesLoop_inv (env : Env) (m : CWinMount) (shares0 : List CNetShare) :
    ∀ (fuel iRetryCount : Nat) (shares : List CNetShare) (w : World),
      RunInv m shares0 w.log shares →
      RunInv m shares0 (MapDrivesLoop env m fuel iRetryCount shares w).2.2.log
        (MapDrivesLoop env m fuel iRetryCount shares w).2.1 := by
  intro fuel
  induction fuel with
  | zero => intro i shares w h; exact h
  | succ fuel ih =>
    intro i shares w h
    simp only [MapDrivesLoop]
    split
    · have hpass := mapShares_inv env m shares0 i fuel shares [] w (by simpa using h)
      simp only [List.length_nil, List.nil_append] at hpass
      rcases hr : mapShares env m i fuel 0 shares w with ⟨flow, shares1, w1⟩
      rw [hr] at hpass
      simp only at hpass
      cases flow with
      | next =>
        simp only
        split
        · exact hpass
        · exact ih (i + 1) shares1 w1 hpass
      | ret b => exact hpass
      | fuelOut => exact hpass
    · exact h

/-- The invariant of a run holds of what `MapDrives` leaves, whatever the fuel,
when it starts with an empty log. -/
theorem MapDrives_inv (env : Env) (m : CWinMount) (fuel polls : Nat) :
    RunInv m m.m_vecNetShares (MapDrives env fuel m ⟨polls, []⟩).2.2.log
      (MapDrives env fuel m ⟨polls, []⟩).2.1.m_vecNetShares := by
  have h0 : RunInv m m.m_vecNetShares (⟨polls, []⟩ : World).log m.m_vecNetShares :=
    ⟨rfl, fun _ h => h, by simp, by simp, fun _ h => Or.inl h, List.Pairwise.nil,
      fun _ pre e post h => by simp at h⟩
  exact MapDrivesLoop_inv env m m.m_vecNetShares fuel 0 m.m_vecNetShares ⟨polls, []⟩ h0

/-! ## C12: a share that is flagged as mapped gets no further call -/

/-- C12. A share that is flagged as mapped is never tried again. The body of the
loop leaves a share as it is or flags a share that was not flagged, and makes no
call for a share that is flagged. In a run of `MapDrives` from an empty log,
stopped at any point (any fuel): a share that was flagged at the start is
flagged at the end; a share is flagged at the end exactly when it was flagged
at the start or a call of the log flagged it (a silent attempt that returned
`ERROR_CANCELLED`, `NO_ERROR`, `ERROR_ALREADY_ASSIGNED`,
`ERROR_DEVICE_ALREADY_REMEMBERED` or `ERROR_SESSION_CREDENTIAL_CONFLICT`, or an
unmount that returned neither `NO_ERROR` nor `ERROR_NOT_CONNECTED`); after a
call that flags its share the log has no call at all for that share, in that
pass or a later one; and no call is made for a share flagged at the start. -/
theorem MapDrives_mapped_not_tried_again (env : Env) (m : CWinMount) (fuel polls : Nat) :
    (∀ (iRetryCount idx f : Nat) (netShare : CNetShare) (w : World),
      ((mapShare env m iRetryCount idx f netShare w).2.1 = netShare ∨
        (netShare.IsMapped = false ∧
          (mapShare env m iRetryCount idx f netShare w).2.1 = netShare.SetMapped ∧
          (mapShare env m iRetryCount idx f netShare w).2.1.IsMapped = true)) ∧
      (netShare.IsMapped = true →
        (mapShare env m iRetryCount idx f netShare w).2.2.log = w.log)) ∧
    (∀ idx, mappedAt m.m_vecNetShares idx = true →
      mappedAt (MapDrives env fuel m ⟨polls, []⟩).2.1.m_vecNetShares idx = true) ∧
    (∀ idx, mappedAt (MapDrives env fuel m ⟨polls, []⟩).2.1.m_vecNetShares idx = true ↔
      (mappedAt m.m_vecNetShares idx = true ∨
        ∃ e ∈ (MapDrives env fuel m ⟨polls, []⟩).2.2.log,
          e.share = idx ∧ e.flagsShare = true)) ∧
    (MapDrives env fuel m ⟨polls, []⟩).2.2.log.Pairwise
      (fun e e2 => e.flagsShare = true → e2.share ≠ e.share) ∧
    ∀ e ∈ (MapDrives env fuel m ⟨polls, []⟩).2.2.log,
      mappedAt m.m_vecNetShares e.share = false := by
  have h := MapDrives_inv env m fuel polls
  refine ⟨?_, h.mono, ?_, h.quiet, h.fresh⟩
  · intro iRetryCount idx f netShare w
    obtain ⟨evs, h1, -, h3, -, -, h6, -⟩ := mapShare_block env m iRetryCount idx f netShare w
    refine ⟨?_, fun hm => ?_⟩
    · rcases h6 with h6 | ⟨h6, hun, -⟩
      · exact Or.inl h6
      · exact Or.inr ⟨hun, h6, by rw [h6]; rfl⟩
    · rw [h1, h3 hm, List.append_nil]
  · intro idx
    refine ⟨h.caused idx, ?_⟩
    rintro (h0 | ⟨e, he, rfl, hf⟩)
    · exact h.mono idx h0
    · exact h.flagged e he hf

/-! ## C13: with `-u` the unmount comes first -/

/-- C13. With `-u` (`m_bUnmount`), in a run of `MapDrives` from an empty log,
stopped at any point: every connection attempt of the log, silent or
interactive, comes after a call of `WNetCancelConnection2` of the same pass for
the same share, on the local name of that share, that returned `NO_ERROR` or
`ERROR_NOT_CONNECTED`; and after an unmount that returned another code the log
has no call for that share, in that pass or a later one. -/
theorem MapDrives_unmount_first (env : Env) (m : CWinMount) (fuel polls : Nat)
    (hu : m.m_bUnmount = true) :
    UnmountFirst m.m_vecNetShares (MapDrives env fuel m ⟨polls, []⟩).2.2.log ∧
    (MapDrives env fuel m ⟨polls, []⟩).2.2.log.Pairwise
      (fun u e => u.site = Site.unmount → u.result ≠ NO_ERROR →
        u.result ≠ ERROR_NOT_CONNECTED → e.share ≠ u.share) := by
  have h := MapDrives_inv env m fuel polls
  refine ⟨h.unmountFirst hu, h.quiet.imp ?_⟩
  intro u e hq hs h1 h2
  exact hq (by simp [Event.flagsShare, hs, h1, h2])

/-- The hypothesis of `MapDrives_unmount_first` holds of the run with `-u` on the
shares `X: \\s\t` and `Y: \\s\u` in which the unmount of `X:` returns "Access
denied (5)" and the calls for `Y:` return `ERROR_NOT_CONNECTED` and `NO_ERROR`,
and so does its conclusion. The log of that run has three calls. -/
theorem MapDrives_unmount_first_witness :
    ({ m_bUnmount := true, m_vecNetShares := [shareX, shareY] } : CWinMount).m_bUnmount = true ∧
    (MapDrives (envOf [5, ERROR_NOT_CONNECTED, NO_ERROR]) 2
      { m_bUnmount := true, m_vecNetShares := [shareX, shareY] } ⟨0, []⟩).2.2.log =
      [⟨0, 0, Site.unmount, Call.WNetCancelConnection2 ['X', ':'], 5⟩,
        ⟨0, 1, Site.unmount, Call.WNetCancelConnection2 ['Y', ':'], ERROR_NOT_CONNECTED⟩,
        ⟨0, 1, Site.silent, Call.WNetAddConnection2 ['Y', ':'] shareY.GetRemoteName 0,
          NO_ERROR⟩] ∧
    (UnmountFirst
      ({ m_bUnmount := true, m_vecNetShares := [shareX, shareY] } : CWinMount).m_vecNetShares
      (MapDrives (envOf [5, ERROR_NOT_CONNECTED, NO_ERROR]) 2
        { m_bUnmount := true, m_vecNetShares := [shareX, shareY] } ⟨0, []⟩).2.2.log ∧
    (MapDrives (envOf [5, ERROR_NOT_CONNECTED, NO_ERROR]) 2
      { m_bUnmount := true, m_vecNetShares := [shareX, shareY] } ⟨0, []⟩).2.2.log.Pairwise
      (fun u e => u.site = Site.unmount → u.result ≠ NO_ERROR →
        u.result ≠ ERROR_NOT_CONNECTED → e.share ≠ u.share)) :=
  ⟨rfl, by decide,
    MapDrives_unmount_first (envOf [5, ERROR_NOT_CONNECTED, NO_ERROR])
      { m_bUnmount := true, m_vecNetShares := [shareX, shareY] } 2 0 rfl⟩

end WinMount
